import Mathlib

/-!
FancoolWeb chart renderer: interpolation, aggregation and fetch coalescing.

A shallow embedding of the numerical and coordination core of
`app/static/js/chart-renderer.js`, and of the colour index assignment of
`app/static/js/color-manager.js`, with the properties their specification states.

Conventions of the embedding:

* Numbers are exact. A finite JavaScript number is a rational (or an element of an ordered
  field for the spectrum code, which needs `Math.pow` and `Math.log10`), and `none` stands
  for `NaN` / `undefined`. Rounding error, overflow and infinities are not modelled.
* Module-level variables are fields of an explicit state; a function that writes them
  returns the new state.
* Calls into the chart layer (`buildAndSetSpectrumOption`, `setSpectrumLoading`) and network
  requests are recorded as effects; the chart layer is taken not to throw.
* An `async` function is cut at its `await`: the part before and the part after are each one
  atomic step, since JavaScript runs them to completion.
-/

namespace Fancool

/-! ## JavaScript numbers -/

/-- A JavaScript number: `some q` is the finite value `q`, `none` is `NaN`
(also what `undefined` becomes in arithmetic). -/
abbrev JsNum := Option ℚ

/-- The JavaScript `a <= b`: false as soon as one side is `NaN`. -/
def jsLe (a b : JsNum) : Bool :=
  match a, b with
  | some p, some q => decide (p ≤ q)
  | _, _ => false

/-- The JavaScript `a < b`: false as soon as one side is `NaN`. -/
def jsLt (a b : JsNum) : Bool :=
  match a, b with
  | some p, some q => decide (p < q)
  | _, _ => false

/-- The JavaScript `a + b`. -/
def jsAdd (a b : JsNum) : JsNum :=
  match a, b with
  | some p, some q => some (p + q)
  | _, _ => none

/-- The JavaScript `a - b`. -/
def jsSub (a b : JsNum) : JsNum :=
  match a, b with
  | some p, some q => some (p - q)
  | _, _ => none

/-- The JavaScript `a * b`. -/
def jsMul (a b : JsNum) : JsNum :=
  match a, b with
  | some p, some q => some (p * q)
  | _, _ => none

/-- The JavaScript `a / b` for a finite non-zero divisor; a zero divisor gives a
non-finite value, rendered `none`. -/
def jsDiv (a b : JsNum) : JsNum :=
  match a, b with
  | some p, some q => if q = 0 then none else some (p / q)
  | _, _ => none

/-- The JavaScript `v || 1` on a number: `NaN` and `0` are falsy. -/
def jsOrOne (v : JsNum) : ℚ :=
  match v with
  | some q => if q = 0 then 1 else q
  | none => 1

/-- Array read `arr[i]` with a JavaScript integer index: `undefined` out of range. -/
def jsGet (arr : List ℚ) (i : Int) : JsNum :=
  if 0 ≤ i then arr.get? i.toNat else none

/-- The expression `Math.round(x * 1000) / 1000`; `Math.round` rounds half up. -/
def round3 (x : ℚ) : ℚ := (⌊x * 1000 + 1 / 2⌋ : ℤ) / 1000

/-! ## Piecewise cubic Hermite evaluator (`evalPchipJS`) -/

/-- A piecewise model object as received: each of `x`, `y`, `m` is an array of
numbers or (`none`) something that is not an array. -/
structure PchipModel where
  x : Option (List ℚ)
  y : Option (List ℚ)
  m : Option (List ℚ)
  x0 : ℚ
  x1 : ℚ
  deriving DecidableEq

/-- The per-model point cache, a JavaScript `Map` in insertion order. -/
abbrev PointCache := List (ℚ × JsNum)

/-- The call `cache.has(k)`. -/
def PointCache.has (c : PointCache) (k : ℚ) : Bool := c.any (fun e => decide (e.1 = k))

/-- The call `cache.get(k)`, used after `has` succeeded. -/
def PointCache.get (c : PointCache) (k : ℚ) : JsNum :=
  match c.find? (fun e => decide (e.1 = k)) with
  | some e => e.2
  | none => none

/-- The call `cache.set(k, v)`: an existing key keeps its position. -/
def PointCache.set (c : PointCache) (k : ℚ) (v : JsNum) : PointCache :=
  if c.has k then c.map (fun e => if e.1 = k then (k, v) else e) else c ++ [(k, v)]

/-- Eviction step: `if (cache.size >= 256) cache.delete(cache.keys().next().value)`. -/
def PointCache.evict (c : PointCache) : PointCache :=
  if 256 ≤ c.length then c.tail else c

/-- Result of the interval search loop: the final `lo`, `hi` and the index at
which the loop hit `break`, if it did. -/
structure SearchResult where
  lo : Int
  hi : Int
  found : Option Int
  deriving DecidableEq

/-- The loop `while (lo <= hi) { mid = (lo + hi) >> 1; ... }` of `evalPchipJS`; `/ 2` on
`Int` rounds down, as `>> 1` does. -/
def searchLoop (xs : List ℚ) (xv : JsNum) (lo hi : Int) : SearchResult :=
  if lo ≤ hi then
    let mid := (lo + hi) / 2
    if jsLe (jsGet xs mid) xv && jsLe xv (jsGet xs (mid + 1)) then ⟨lo, hi, some mid⟩
    else if jsLt xv (jsGet xs mid) then searchLoop xs xv lo (mid - 1)
    else searchLoop xs xv (mid + 1) hi
  else ⟨lo, hi, none⟩
termination_by (hi - lo + 1).toNat
decreasing_by
  all_goals simp_wf
  all_goals omega

/-- The interval index `i` after the loop and the fallback
`if (lo > hi) i = Math.max(0, Math.min(n - 2, lo))`. -/
def searchIndex (xs : List ℚ) (xv : JsNum) : Int :=
  let n : Int := xs.length
  let r := searchLoop xs xv 0 (n - 2)
  let i : Int := match r.found with
    | some mid => mid
    | none => 0
  if r.hi < r.lo then max 0 (min (n - 2) r.lo) else i

/-- The query after clamping into the knot range:
`if (xv <= xs[0]) xv = xs[0]; if (xv >= xs[n-1]) xv = xs[n-1]`. -/
def clampQuery (xs : List ℚ) (rounded : ℚ) : JsNum :=
  let n : Int := xs.length
  let xv0 : JsNum := some rounded
  let xv1 := if jsLe xv0 (jsGet xs 0) then jsGet xs 0 else xv0
  if jsLe (jsGet xs (n - 1)) xv1 then jsGet xs (n - 1) else xv1

/-- The Hermite evaluation of `evalPchipJS` for `n >= 2` knots, from the clamp to `val`. -/
def pchipValue (xs ys ms : List ℚ) (rounded : ℚ) : JsNum :=
  let xv := clampQuery xs rounded
  let i := searchIndex xs xv
  let x0 := jsGet xs i
  let x1 := jsGet xs (i + 1)
  let h : JsNum := some (jsOrOne (jsSub x1 x0))
  let t := jsDiv (jsSub xv x0) h
  let y0 := jsGet ys i
  let y1 := jsGet ys (i + 1)
  let m0 := jsMul (jsGet ms i) h
  let m1 := jsMul (jsGet ms (i + 1)) h
  let h00 := jsAdd (jsSub (jsMul (jsMul (jsMul (some 2) t) t) t) (jsMul (jsMul (some 3) t) t))
    (some 1)
  let h10 := jsAdd (jsSub (jsMul (jsMul t t) t) (jsMul (jsMul (some 2) t) t)) t
  let h01 := jsAdd (jsMul (jsMul (jsMul (some (-2)) t) t) t) (jsMul (jsMul (some 3) t) t)
  let h11 := jsSub (jsMul (jsMul t t) t) (jsMul t t)
  jsAdd (jsAdd (jsAdd (jsMul h00 y0) (jsMul h10 m0)) (jsMul h01 y1)) (jsMul h11 m1)

/-- The function `evalPchipJS(model, x)` with the point cache of `model` passed
explicitly: returns the value and the cache afterwards. -/
def evalPchipJS (model : Option PchipModel) (cache : PointCache) (x : ℚ) : JsNum × PointCache :=
  match model with
  | some ⟨some xs, some ys, some ms, _, _⟩ =>
    let rounded := round3 x
    if cache.has rounded then (cache.get rounded, cache)
    else if xs.length = 0 then (none, cache)
    else if xs.length = 1 then (jsGet ys 0, cache.set rounded (jsGet ys 0))
    else
      let val := pchipValue xs ys ms rounded
      (val, (cache.evict).set rounded val)
  | _ => (none, cache)

/-- Point caches that a sequence of `evalPchipJS` calls on `model` can produce,
starting from the empty cache of a fresh model object. -/
inductive CacheReachable (model : Option PchipModel) : PointCache → Prop
  | fresh : CacheReachable model []
  | call (c : PointCache) (x : ℚ) :
      CacheReachable model c → CacheReachable model (evalPchipJS model c x).2

/-- A model object with the three arrays present. -/
def mkModel (xs ys ms : List ℚ) (x0 x1 : ℚ) : Option PchipModel :=
  some ⟨some xs, some ys, some ms, x0, x1⟩

/-- Cubic Hermite value on the interval `[xa, xb]` with end values `ya`, `yb` and end
tangents `ma`, `mb`, written as the specification words it: basis functions
`h00 = 2t^3-3t^2+1`, `h10 = t^3-2t^2+t`, `h01 = -2t^3+3t^2`, `h11 = t^3-t^2`,
`h = xb - xa`, `t = (q - xa)/h`. -/
def hermiteSpec (xa xb ya yb ma mb q : ℚ) : ℚ :=
  let h := xb - xa
  let t := (q - xa) / h
  (2 * t ^ 3 - 3 * t ^ 2 + 1) * ya + (t ^ 3 - 2 * t ^ 2 + t) * h * ma
    + (-2 * t ^ 3 + 3 * t ^ 2) * yb + (t ^ 3 - t ^ 2) * h * mb

/-- Every entry of a cache holds the value a fresh evaluation gives for a query with that key. -/
def CacheSound (model : Option PchipModel) (c : PointCache) : Prop :=
  ∀ e ∈ c, ∃ x : ℚ, e.1 = round3 x ∧ e.2 = (evalPchipJS model [] x).1


/-! ## Octave-band aggregator (`downsampleSpectrumBands`)

The aggregator calls `Math.pow(10, ·)` and `Math.log10`. Its embedding is written over
an ordered field `K` of exact numbers and takes the two library functions as a
parameter; over the reals they are `fun x => 10 ^ x` and `Real.logb 10`. -/

/-- The library functions used by the band code. -/
structure JsMath (K : Type) where
  /-- The function `x ↦ Math.pow(10, x)`. -/
  pow10 : K → K
  /-- The function `Math.log10`. -/
  log10 : K → K

section Spectrum

variable {K : Type} [LinearOrderedField K] [FloorRing K]

/-- The table `IEC_RENARD_MANTISSAS`, indexed by bands per decade. -/
def IEC_RENARD_MANTISSAS (bpd : Int) : Option (List K) :=
  if bpd = 3 then some [100 / 100, 200 / 100, 500 / 100]
  else if bpd = 10 then
    some [100 / 100, 125 / 100, 160 / 100, 200 / 100, 250 / 100, 315 / 100, 400 / 100,
      500 / 100, 630 / 100, 800 / 100]
  else if bpd = 20 then
    some [100 / 100, 112 / 100, 125 / 100, 140 / 100, 160 / 100, 180 / 100, 200 / 100,
      224 / 100, 250 / 100, 280 / 100, 315 / 100, 355 / 100, 400 / 100, 450 / 100, 500 / 100,
      560 / 100, 630 / 100, 710 / 100, 800 / 100, 900 / 100]
  else if bpd = 40 then
    some [100 / 100, 106 / 100, 112 / 100, 118 / 100, 125 / 100, 132 / 100, 140 / 100,
      150 / 100, 160 / 100, 170 / 100, 180 / 100, 190 / 100, 200 / 100, 212 / 100, 224 / 100,
      236 / 100, 250 / 100, 265 / 100, 280 / 100, 300 / 100, 315 / 100, 335 / 100, 355 / 100,
      375 / 100, 400 / 100, 425 / 100, 450 / 100, 475 / 100, 500 / 100, 530 / 100, 560 / 100,
      600 / 100, 630 / 100, 670 / 100, 710 / 100, 750 / 100, 800 / 100, 850 / 100, 900 / 100,
      950 / 100]
  else none

/-- The function `iecBandsPerDecadeFromNpo`: `Math.round((nPerOct * 10) / 3)`. -/
def iecBandsPerDecadeFromNpo (nPerOct : K) : Int := ⌊nPerOct * 10 / 3 + 1 / 2⌋

/-- One pass of the inner loop of `iecSnapToRenard`: `best` is `(bestIdx, bestErr)`, with
`none` for the initial `bestErr = Infinity`. -/
def nearestStep (mans : List K) (m : K) (best : Nat × Option K) (j : Nat) : Nat × Option K :=
  let err := |mans.getD j 0 - m|
  match best.2 with
  | none => (j, some err)
  | some bestErr => if err < bestErr then (j, some err) else best

/-- The inner loop of `iecSnapToRenard`: index of the table entry nearest to `m`, the
first one on ties. -/
def nearestIndex (mans : List K) (m : K) : Nat :=
  ((List.range mans.length).foldl (nearestStep mans m) (0, none)).1

/-- The expression `Number(v.toFixed(6))`: rounding to 6 decimals, half up. -/
def round6 (v : K) : K := ((⌊v * 10 ^ 6 + 1 / 2⌋ : Int) : K) / 10 ^ 6

/-- The function `iecSnapToRenard(vals, bpd)`. -/
def iecSnapToRenard (M : JsMath K) (vals : List K) (bpd : Int) : List K :=
  match IEC_RENARD_MANTISSAS (K := K) bpd with
  | none => vals
  | some mans =>
    if mans.length = 0 then vals
    else
      let out := vals.filterMap (fun f =>
        if 0 < f then
          let e : Int := ⌊M.log10 f⌋
          let m := f / M.pow10 (e : K)
          some (mans.getD (nearestIndex mans m) 0 * M.pow10 (e : K))
        else none)
      ((out.map round6).dedup).insertionSort (· ≤ ·)

/-- The function `iecMakeCenters(nPerOct, fmin, fmax)`. -/
def iecMakeCenters (M : JsMath K) (nPerOct fmin fmax : K) : List K :=
  let bpd := iecBandsPerDecadeFromNpo nPerOct
  let fMinClamped := max fmin (1 / 10 ^ 12)
  let fMaxClamped := max fmax (1 / 10 ^ 12)
  let kMin : Int := ⌈(bpd : K) * M.log10 fMinClamped⌉
  let kMax : Int := ⌊(bpd : K) * M.log10 fMaxClamped⌋
  if kMax < kMin then []
  else
    let ks : List Int :=
      (List.range (kMax - kMin + 1).toNat).map (fun (i : Nat) => kMin + (i : Int))
    let centersExact := ks.map (fun (k : Int) => M.pow10 ((k : K) / (bpd : K)))
    let centersNom := iecSnapToRenard M centersExact bpd
    centersNom.filter (fun f => decide (fmin ≤ f) && decide (f ≤ fmax))

/-- The edge ratio of `iecBandEdgesFromCenters`: `g = 10^(1/(2*bpd))`. -/
def iecEdgeRatio (M : JsMath K) (nPerOct : K) : K :=
  M.pow10 (1 / (2 * (iecBandsPerDecadeFromNpo nPerOct : K)))

/-- The function `iecBandEdgesFromCenters(centers, nPerOct)`: the lists `f1`, `f2`. -/
def iecBandEdgesFromCenters (M : JsMath K) (centers : List K) (nPerOct : K) :
    List K × List K :=
  let g := iecEdgeRatio M nPerOct
  (centers.map (fun fc => fc / g), centers.map (fun fc => fc * g))

/-- The constant `P0_2 = Math.pow(20e-6, 2)`. -/
def P0_2 : K := (20 / 10 ^ 6) ^ 2

/-- Step 3 of `downsampleSpectrumBands`: the linear energy of a fine level, `0` for a
non-finite level (`none`). -/
def fineEnergy (M : JsMath K) (dB : Option K) : K :=
  match dB with
  | none => 0
  | some d => P0_2 * M.pow10 (d / 10)

/-- One pass of the inner loop of step 4: the contribution of a fine band with energy
`E` and edges `loF`, `hiF` to the coarse band `[loC, hiC]`, added to `Eacc`. -/
def accumulateBand (loC hiC : K) (Eacc : K) (band : K × K × K) : K :=
  let E := band.1
  let loF := band.2.1
  let hiF := band.2.2
  if E ≤ 0 then Eacc
  else if ¬ (loF < hiF) then Eacc
  else
    let lo := max loC loF
    let hi := min hiC hiF
    if hi ≤ lo then Eacc
    else
      let overlap := hi - lo
      let widthFine := if hiF - loF = 0 then 1 / 10 ^ 9 else hiF - loF
      let w := overlap / widthFine
      if 0 < w then Eacc + E * w else Eacc

/-- The inner loop of step 4: the accumulated energy `Eacc` of one coarse band. -/
def coarseEnergy (loC hiC : K) (bands : List (K × K × K)) : K :=
  bands.foldl (accumulateBand loC hiC) 0

/-- The function `downsampleSpectrumBands(fineCenters, fineValuesDb, fineNPerOct,
coarseNPerOct)`, returning `(centers, valuesDb)`. Fine centres are finite numbers, a fine
level or a resolution may be non-finite (`none`). -/
def downsampleSpectrumBands (M : JsMath K) (fineCenters : List K)
    (fineValuesDb : List (Option K)) (fineNPerOct coarseNPerOct : Option K) :
    List K × List K :=
  let Kn := min fineCenters.length fineValuesDb.length
  match fineNPerOct, coarseNPerOct with
  | some fineN, some coarseN =>
    if Kn = 0 then ([], [])
    else
      let centersCoarse := iecMakeCenters M coarseN 20 20000
      if centersCoarse.length = 0 then ([], [])
      else
        let edgesCoarse := iecBandEdgesFromCenters M centersCoarse coarseN
        let edgesFine := iecBandEdgesFromCenters M fineCenters fineN
        let EsFine := (fineValuesDb.take Kn).map (fineEnergy M)
        let bands := EsFine.zip (edgesFine.1.zip edgesFine.2)
        let out := (centersCoarse.zip (edgesCoarse.1.zip edgesCoarse.2)).filterMap
          (fun cj =>
            let Eacc := coarseEnergy cj.2.1 cj.2.2 bands
            if 0 < Eacc then some (cj.1, 10 * M.log10 (Eacc / P0_2)) else none)
        (out.map Prod.fst, out.map Prod.snd)
  | _, _ => ([], [])

/-- Linear energy of a level as the specification words it: `pRef^2 * 10^(dB/10)` with
the reference pressure `pRef = 20e-6`. -/
def energySpec (M : JsMath K) (dB : K) : K := (20 / 10 ^ 6) ^ 2 * M.pow10 (dB / 10)

/-- A fine band with centre `c` at resolution `fineN` lies entirely inside `[lo, hi]`. -/
def fineInside (M : JsMath K) (fineN lo hi c : K) : Prop :=
  lo ≤ c / iecEdgeRatio M fineN ∧ c * iecEdgeRatio M fineN ≤ hi

/-- A fine band with centre `c` at resolution `fineN` does not overlap `[lo, hi]`. -/
def fineDisjoint (M : JsMath K) (fineN lo hi c : K) : Prop :=
  min hi (c * iecEdgeRatio M fineN) ≤ max lo (c / iecEdgeRatio M fineN)

/-- A fine band has positive width. -/
def finePositiveWidth (M : JsMath K) (fineN c : K) : Prop :=
  c / iecEdgeRatio M fineN < c * iecEdgeRatio M fineN

/-- Sum, as the specification words it, of the linear energies of the fine bands (finite
level, positive width) that lie entirely inside `[lo, hi]`. -/
def containedEnergySpec (M : JsMath K) (fineCenters : List K) (fineValuesDb : List (Option K))
    (fineN lo hi : K) : K :=
  ((fineCenters.zip fineValuesDb).map (fun p =>
    match p.2 with
    | some dB =>
      if p.1 / iecEdgeRatio M fineN < p.1 * iecEdgeRatio M fineN ∧
          lo ≤ p.1 / iecEdgeRatio M fineN ∧ p.1 * iecEdgeRatio M fineN ≤ hi
      then energySpec M dB else 0
    | none => 0)).sum

end Spectrum

/-- The library functions over the real numbers. -/
noncomputable def realMath : JsMath ℝ := ⟨fun x => (10 : ℝ) ^ x, Real.logb 10⟩

/-! ## Model cache and fetch coalescer (`requestAndRenderSpectrum`)

The coalescer is an `async` function. A call runs to its `await`, is suspended while the
fetch is outstanding and is resumed when the fetch settles; JavaScript runs each of these
pieces to completion, so the embedding is a transition system on the module state with one
atomic step per piece. -/

/-- A cache key: the pair of numbers the string `mid_cid` is printed from. -/
abbrev Key := JsNum × JsNum

/-- The test `Number.isInteger(v)`. -/
def isInteger (v : JsNum) : Bool :=
  match v with
  | some q => q.isInt
  | none => false

/-- Both ids of a pair are integers. -/
def isIntegerPair (k : Key) : Bool := isInteger k.1 && isInteger k.2

/-- A JavaScript `Set` built by adding the elements of a list in order: the first
occurrence of each element, in insertion order. -/
def jsSetOf (l : List Key) : List Key :=
  l.foldl (fun acc k => if k ∈ acc then acc else acc ++ [k]) []

/-- A series entry of the chart, reduced to `Number(modelId)` and `Number(conditionId)`. -/
structure Series where
  mid : JsNum
  cid : JsNum
  deriving DecidableEq

/-- What kind of callback a timer registered with `specSetTimeout` carries. -/
inductive TimerKind
  /-- The 10 s retry of `requestAndRenderSpectrum`. -/
  | retry
  /-- A layout clean-up of `toggleSpectrumUI`. -/
  | cleanup
  deriving DecidableEq

/-- A timer registered with `specSetTimeout`: its id, the epoch captured at registration
and its callback. -/
structure SpecTimer where
  id : Nat
  myEpoch : Nat
  kind : TimerKind
  deriving DecidableEq

/-- The module state the coalescer reads and writes; `μ` is the type of model objects. -/
structure SpecState (μ : Type) where
  /-- The map `spectrumModelCache`. -/
  spectrumModelCache : List (Key × μ)
  /-- The set `SpectrumController._pendingKeys`. -/
  pendingKeys : List Key
  /-- The set `SpectrumController._missingKeys`. -/
  missingKeys : List Key
  /-- The flag `__specPending`. -/
  specPending : Bool
  /-- The flag `__specFetchInFlight`. -/
  specFetchInFlight : Bool
  /-- The flag `__specRerunQueued`. -/
  specRerunQueued : Bool
  /-- The property `requestAndRenderSpectrum.__lastWantedHash`, `none` before the first call. -/
  lastWantedHash : Option (List Key)
  /-- The counter `__specEpoch`. -/
  specEpoch : Nat
  /-- The set `__specTimers`, with what each timer carries. -/
  specTimers : List SpecTimer
  /-- The next id `setTimeout` hands out. -/
  nextTimerId : Nat
  /-- The flag `spectrumEnabled`. -/
  spectrumEnabled : Bool

/-- The state when the script is loaded. -/
def SpecState.initial (μ : Type) : SpecState μ :=
  { spectrumModelCache := [], pendingKeys := [], missingKeys := [], specPending := false,
    specFetchInFlight := false, specRerunQueued := false, lastWantedHash := none,
    specEpoch := 0, specTimers := [], nextTimerId := 1, spectrumEnabled := false }

/-- The call `spectrumModelCache.has(k)`. -/
def cacheHas {μ : Type} (cache : List (Key × μ)) (k : Key) : Bool :=
  cache.any (fun e => decide (e.1 = k))

/-- The call `spectrumModelCache.set(k, model)`. -/
def cacheSet {μ : Type} (cache : List (Key × μ)) (k : Key) (model : μ) : List (Key × μ) :=
  if cacheHas cache k then cache.map (fun e => if e.1 = k then (k, model) else e)
  else cache ++ [(k, model)]

/-- What the coalescer asks of its surroundings. -/
inductive Effect
  /-- The request `fetch('/api/spectrum-models', {pairs})`. -/
  | fetch (pairs : List Key)
  /-- The call `buildAndSetSpectrumOption(full)`. -/
  | build (full : Bool)
  /-- The call `setSpectrumLoading(shown)`. -/
  | loading (shown : Bool)
  deriving DecidableEq

/-- The function `specBumpEpochAndClearTimers`. -/
def specBumpEpochAndClearTimers {μ : Type} (s : SpecState μ) : SpecState μ :=
  { s with specEpoch := s.specEpoch + 1, specTimers := [] }

/-- The function `specSetTimeout(fn, ms)`: registers a timer carrying the current epoch. -/
def specSetTimeout {μ : Type} (s : SpecState μ) (kind : TimerKind) : SpecState μ :=
  { s with specTimers := s.specTimers ++ [⟨s.nextTimerId, s.specEpoch, kind⟩],
           nextTimerId := s.nextTimerId + 1 }

/-- An entry of `data.models` in a response: the ids and the model, `none` when the entry
has no model with the arrays `centers_hz` and `band_models_pchip`. -/
structure ModelItem (μ : Type) where
  mid : JsNum
  cid : JsNum
  model : Option μ

/-- The field `data` of a successful response; a field that is not an array reads as `[]`. -/
structure FetchData (μ : Type) where
  models : List (ModelItem μ)
  missing : List Key
  rebuilding : List Key

/-- How the request to the model provider ends. -/
inductive FetchOutcome (μ : Type)
  /-- A response with `success === true`. -/
  | ok (data : FetchData μ)
  /-- A network error, a body that is not JSON, or a response without `success === true`. -/
  | failed

/-- The result object of `fetchSpectrumModelsForPairs`. -/
structure FetchRes where
  modelsLoaded : Nat
  missingKeys : List Key
  rebuildingKeys : List Key
  deriving DecidableEq

/-- The helper `toKeySet` of `fetchSpectrumModelsForPairs`. -/
def toKeySet (arr : List Key) : List Key := jsSetOf (arr.filter isIntegerPair)

/-- The loop `models.forEach(...)` of `fetchSpectrumModelsForPairs`: stores every entry that
carries a model. -/
def storeModels {μ : Type} (cache : List (Key × μ)) (models : List (ModelItem μ)) :
    List (Key × μ) :=
  models.foldl (fun c item =>
    match item.model with
    | some m => cacheSet c (item.mid, item.cid) m
    | none => c) cache

/-- The function `fetchSpectrumModelsForPairs(pairs)` from the point where the request has
settled with `outcome`: the cache afterwards and the result, or `none` when it throws.
With no pairs it returns at once without a request. -/
def fetchSpectrumModelsForPairs {μ : Type} (cache : List (Key × μ)) (pairs : List Key)
    (outcome : FetchOutcome μ) : Option (List (Key × μ) × FetchRes) :=
  if pairs.length = 0 then some (cache, ⟨0, [], []⟩)
  else
    match outcome with
    | FetchOutcome.failed => none
    | FetchOutcome.ok data =>
      some (storeModels cache data.models,
        ⟨(data.models.filter (fun item => item.model.isSome)).length,
          toKeySet data.missing, toKeySet data.rebuilding⟩)

/-- Order used to sort the wanted keys before they are joined into `wantedHash`; it stands
for the string order of the printed keys, of which only equality of the joined strings is
ever observed. -/
def keyLe (a b : Key) : Bool :=
  let numLe : JsNum → JsNum → Bool := fun u v =>
    match u, v with
    | none, _ => true
    | some _, none => false
    | some p, some q => decide (p ≤ q)
  if a.1 = b.1 then numLe a.2 b.2 else numLe a.1 b.1

/-- The wanted keys of a series list: the loop `sList.forEach(...)` filling `wanted`,
`pairsAll` and `seen`. The pairs of `pairsAll` are the keys of `wantedArr`, in the same order. -/
def wantedOf (sList : List Series) : List Key :=
  jsSetOf ((sList.filter (fun s => isInteger s.mid && isInteger s.cid)).map
    (fun s => (s.mid, s.cid)))

/-- The expression `wantedArr.slice().sort().join('|')`. -/
def wantedHashOf (wantedArr : List Key) : List Key :=
  wantedArr.insertionSort (fun a b => keyLe a b = true)

/-- A call of `requestAndRenderSpectrum` suspended at
`await fetchSpectrumModelsForPairs(pairsToRequest)`, with the locals it will use. -/
structure Suspended where
  wantedArr : List Key
  forceFull : Bool
  pairsToRequest : List Key
  deriving DecidableEq

/-- The early exits of `requestAndRenderSpectrum` that clear `pending` and `missing`. -/
def renderFromCache {μ : Type} (s : SpecState μ) (forceFull : Bool) (clearMissing : Bool) :
    SpecState μ × List Effect × Option Suspended :=
  ({ s with pendingKeys := [], missingKeys := if clearMissing then [] else s.missingKeys,
            specPending := false },
    [Effect.loading false, Effect.build forceFull], none)

/-- The function `requestAndRenderSpectrum(forceFull)` up to its `await`, on the series
list `sList` that `getSeriesArray()` returns: the state, what was asked of the
surroundings, and the suspended call when a fetch is awaited. -/
def requestAndRenderSpectrum {μ : Type} (s : SpecState μ) (sList : List Series)
    (forceFull : Bool) : SpecState μ × List Effect × Option Suspended :=
  if sList.length = 0 then renderFromCache s forceFull true
  else
    let wantedArr := wantedOf sList
    if wantedArr.length = 0 then renderFromCache s forceFull true
    else
      let pendingSet := s.pendingKeys
      let wantedHash := wantedHashOf wantedArr
      let allCachedNow := wantedArr.all (fun k => cacheHas s.spectrumModelCache k)
      if s.lastWantedHash = some wantedHash ∧ allCachedNow = true then
        renderFromCache s forceFull false
      else
        let s1 := { s with lastWantedHash := some wantedHash }
        if allCachedNow then renderFromCache s1 forceFull true
        else if s1.specFetchInFlight then
          ({ s1 with specRerunQueued := true }, [Effect.build true], none)
        else
          let s2 := { s1 with specFetchInFlight := true }
          let pairsToRequest :=
            if 0 < pendingSet.length then pendingSet.filter isIntegerPair else wantedArr
          (s2, if pairsToRequest.length = 0 then [] else [Effect.fetch pairsToRequest],
            some ⟨wantedArr, forceFull, pairsToRequest⟩)

/-- The `finally` block of `requestAndRenderSpectrum`. -/
def finallyBlock {μ : Type} (s : SpecState μ) : SpecState μ × List Effect :=
  let s1 := { s with specFetchInFlight := false }
  if s1.specRerunQueued && s1.spectrumEnabled then
    ({ s1 with specRerunQueued := false }, [Effect.build true])
  else (s1, [])

/-- How the promise of a call settles. -/
inductive Settled
  | resolved
  | rejected
  deriving DecidableEq

/-- The `try` body of `requestAndRenderSpectrum` after the `await`, once the awaited fetch
has settled with `outcome`; a throw of `fetchSpectrumModelsForPairs` leaves the body at once. -/
def tryBody {μ : Type} (s : SpecState μ) (call : Suspended) (outcome : FetchOutcome μ) :
    SpecState μ × List Effect × Settled :=
  match fetchSpectrumModelsForPairs s.spectrumModelCache call.pairsToRequest outcome with
  | none => (s, [], Settled.rejected)
  | some (cache, fetchRes) =>
    let pendingKeys := call.wantedArr.filter
      (fun k => !cacheHas cache k && !decide (k ∈ fetchRes.missingKeys))
    let specPending := decide (0 < pendingKeys.length)
    let s1 := { s with spectrumModelCache := cache, specPending := specPending,
                       pendingKeys := jsSetOf pendingKeys,
                       missingKeys := jsSetOf fetchRes.missingKeys }
    let s2 := if specPending then specSetTimeout s1 TimerKind.retry else s1
    (s2, [Effect.build call.forceFull, Effect.loading specPending], Settled.resolved)

/-- The rest of `requestAndRenderSpectrum` once the awaited fetch has settled with
`outcome`: the `try` body after the `await`, then the `finally` block. -/
def resumeAfterFetch {μ : Type} (s : SpecState μ) (call : Suspended) (outcome : FetchOutcome μ) :
    SpecState μ × List Effect × Settled :=
  let body := tryBody s call outcome
  let fin := finallyBlock body.1
  (fin.1, body.2.1 ++ fin.2, body.2.2)

/-- The module together with the calls of `requestAndRenderSpectrum` that are suspended at
their `await`. -/
structure System (μ : Type) where
  st : SpecState μ
  awaiting : List Suspended

/-- The system when the script is loaded. -/
def System.initial (μ : Type) : System μ := ⟨SpecState.initial μ, []⟩

/-- What can happen next. -/
inductive Event (μ : Type)
  /-- Some code calls `requestAndRenderSpectrum(forceFull)` while the series list is `sList`. -/
  | call (sList : List Series) (forceFull : Bool)
  /-- The fetch awaited by the `i`-th suspended call settles. -/
  | settle (i : Nat) (outcome : FetchOutcome μ)
  /-- The flag `spectrumEnabled` is assigned. -/
  | setEnabledFlag (b : Bool)
  /-- The function `specBumpEpochAndClearTimers` runs. -/
  | bumpEpoch
  /-- The timer `id` fires while the series list is `sList`. -/
  | fire (id : Nat) (sList : List Series)

/-- The statement `__specTimers.delete(id)`. -/
def removeTimer {μ : Type} (s : SpecState μ) (id : Nat) : SpecState μ :=
  { s with specTimers := s.specTimers.filter (fun u => decide (u.id ≠ id)) }

/-- The callback that `specSetTimeout` wraps around `fn`, for the timer `t`: the timer
leaves `__specTimers`, and `fn` runs when the epoch is unchanged. For the retry timer `fn`
is `() => { if (spectrumEnabled) requestAndRenderSpectrum(false) }`. -/
def fireTimer {μ : Type} (s : SpecState μ) (t : SpecTimer) (sList : List Series) :
    SpecState μ × List Effect × Option Suspended :=
  let s1 := removeTimer s t.id
  if t.myEpoch = s1.specEpoch then
    match t.kind with
    | TimerKind.retry =>
      if s1.spectrumEnabled then requestAndRenderSpectrum s1 sList false else (s1, [], none)
    | TimerKind.cleanup => (s1, [], none)
  else (s1, [], none)

/-- One step of the system: the state afterwards and what was asked of the surroundings. -/
def System.step {μ : Type} (sys : System μ) (ev : Event μ) : System μ × List Effect :=
  match ev with
  | Event.call sList forceFull =>
    let r := requestAndRenderSpectrum sys.st sList forceFull
    (⟨r.1, sys.awaiting ++ r.2.2.toList⟩, r.2.1)
  | Event.settle i outcome =>
    match sys.awaiting.get? i with
    | none => (sys, [])
    | some call =>
      let r := resumeAfterFetch sys.st call outcome
      (⟨r.1, sys.awaiting.eraseIdx i⟩, r.2.1)
  | Event.setEnabledFlag b => (⟨{ sys.st with spectrumEnabled := b }, sys.awaiting⟩, [])
  | Event.bumpEpoch => (⟨specBumpEpochAndClearTimers sys.st, sys.awaiting⟩, [])
  | Event.fire id sList =>
    match sys.st.specTimers.find? (fun t => decide (t.id = id)) with
    | none => (sys, [])
    | some t =>
      let r := fireTimer sys.st t sList
      (⟨r.1, sys.awaiting ++ r.2.2.toList⟩, r.2.1)

/-- The systems reachable from the initial one by any sequence of events. -/
inductive Reachable {μ : Type} : System μ → Prop
  | init : Reachable (System.initial μ)
  | step (sys : System μ) (ev : Event μ) : Reachable sys → Reachable (sys.step ev).1

/-- The system after a list of events, with all effects in order. -/
def System.run {μ : Type} (sys : System μ) (evs : List (Event μ)) : System μ × List Effect :=
  evs.foldl (fun acc ev => ((acc.1.step ev).1, acc.2 ++ (acc.1.step ev).2)) (sys, [])

/-- Invariant of the reachable systems: the in-flight flag is set exactly when one call is
suspended, no second call is ever suspended, and pending and wanted keys are integer pairs. -/
def Inv {μ : Type} (sys : System μ) : Prop :=
  ((sys.st.specFetchInFlight = false ∧ sys.awaiting = []) ∨
    (sys.st.specFetchInFlight = true ∧ ∃ c, sys.awaiting = [c])) ∧
  (∀ k ∈ sys.st.pendingKeys, isIntegerPair k = true) ∧
  (∀ c ∈ sys.awaiting, ∀ k ∈ c.wantedArr, isIntegerPair k = true)

/-- Example key `1_1`. -/
def keyA : Key := (some 1, some 1)

/-- Example key `1_2`. -/
def keyB : Key := (some 1, some 2)

/-- Example key `1_3`. -/
def keyC : Key := (some 1, some 3)

/-- Example series entry with key `1_1`. -/
def seriesA : Series := ⟨some 1, some 1⟩

/-- Example series entry with key `1_2`. -/
def seriesB : Series := ⟨some 1, some 2⟩

/-- Example series entry with key `1_3`. -/
def seriesC : Series := ⟨some 1, some 3⟩

/-- Example system: `1_1` has been fetched and cached, nothing is in flight. -/
def systemCachedA : System Unit :=
  ((System.initial Unit).run [Event.call [seriesA] false,
    Event.settle 0 (FetchOutcome.ok ⟨[⟨some 1, some 1, some ()⟩], [], []⟩)]).1

/-! ## Epoch-guarded timers and the spectrum toggle -/

/-- The callback `() => { __specTimers.delete(id); if (myEpoch === __specEpoch) fn(); }` that
`specSetTimeout` hands to `setTimeout`, for the timer `t` and any function `fn` of the
state: the state after the deletion and, when `fn` ran, its result. -/
def specTimerCallback {μ α : Type} (fn : SpecState μ → α) (s : SpecState μ) (t : SpecTimer) :
    SpecState μ × Option α :=
  let s1 := removeTimer s t.id
  if t.myEpoch = s1.specEpoch then (s1, some (fn s1)) else (s1, none)

/-- The function a timer of the given kind carries: the retry timer carries
`() => { if (spectrumEnabled) requestAndRenderSpectrum(false) }`, a clean-up timer only
touches the layout. -/
def timerFunction {μ : Type} (kind : TimerKind) (sList : List Series) (s : SpecState μ) :
    SpecState μ × List Effect × Option Suspended :=
  match kind with
  | TimerKind.retry =>
    if s.spectrumEnabled then requestAndRenderSpectrum s sList false else (s, [], none)
  | TimerKind.cleanup => (s, [], none)

/-- The retry timers among the outstanding timers. -/
def retryTimers {μ : Type} (s : SpecState μ) : List SpecTimer :=
  s.specTimers.filter (fun t => decide (t.kind = TimerKind.retry))

/-- The function `toggleSpectrumUI(show)` up to its return, on a page where the spectrum
root element exists or not (`hasRoot`) and the chart is in full screen or not (`isFs`): the
flag is assigned, the epoch is bumped and the timers are cleared, then the spectrum is
requested when shown; hiding in full screen registers a clean-up timer. The animation-frame
callbacks run later, see `toggleFrame`. -/
def toggleSpectrumUI {μ : Type} (sys : System μ) (shown : Bool) (hasRoot isFs : Bool)
    (sList : List Series) : System μ × List Effect :=
  let s0 := { sys.st with spectrumEnabled := shown }
  if hasRoot then
    let s1 := specBumpEpochAndClearTimers s0
    if shown then
      let r := requestAndRenderSpectrum s1 sList false
      (⟨r.1, sys.awaiting ++ r.2.2.toList⟩, r.2.1)
    else if isFs then (⟨specSetTimeout s1 TimerKind.cleanup, sys.awaiting⟩, [])
    else (⟨s1, sys.awaiting⟩, [])
  else (⟨s0, sys.awaiting⟩, [])

/-- The animation-frame callback of a non-full-screen `toggleSpectrumUI(true)` that
captured `myEpoch`: it registers the safety clean-up timer unless the epoch has moved on. -/
def toggleFrame {μ : Type} (s : SpecState μ) (myEpoch : Nat) : SpecState μ :=
  if myEpoch = s.specEpoch then specSetTimeout s TimerKind.cleanup else s

/-- The method `SpectrumController.setEnabled(enabled)`. -/
def setEnabled {μ : Type} (sys : System μ) (enabled : Bool) (hasRoot isFs : Bool)
    (sList : List Series) : System μ × List Effect :=
  if enabled = sys.st.spectrumEnabled then
    if enabled then
      let r := requestAndRenderSpectrum sys.st sList true
      (⟨r.1, sys.awaiting ++ r.2.2.toList⟩, r.2.1)
    else (sys, [])
  else toggleSpectrumUI ⟨{ sys.st with spectrumEnabled := enabled }, sys.awaiting⟩ enabled
    hasRoot isFs sList

/-- What can happen to the coalescer: a call of `requestAndRenderSpectrum`, a fetch
response, a timer firing, a call of `SpectrumController.setEnabled`, an animation frame of
the toggle. -/
inductive CoalescerEvent (μ : Type)
  | request (sList : List Series) (forceFull : Bool)
  | response (i : Nat) (outcome : FetchOutcome μ)
  | timer (id : Nat) (sList : List Series)
  | setEnabled (enabled : Bool) (hasRoot isFs : Bool) (sList : List Series)
  | frame (myEpoch : Nat)

/-- One step of the coalescer. -/
def coalescerStep {μ : Type} (sys : System μ) (ev : CoalescerEvent μ) :
    System μ × List Effect :=
  match ev with
  | CoalescerEvent.request sList forceFull => sys.step (Event.call sList forceFull)
  | CoalescerEvent.response i outcome => sys.step (Event.settle i outcome)
  | CoalescerEvent.timer id sList => sys.step (Event.fire id sList)
  | CoalescerEvent.setEnabled enabled hasRoot isFs sList =>
    setEnabled sys enabled hasRoot isFs sList
  | CoalescerEvent.frame myEpoch => (⟨toggleFrame sys.st myEpoch, sys.awaiting⟩, [])

/-- The coalescer after a list of events. -/
def coalescerRun {μ : Type} (sys : System μ) (evs : List (CoalescerEvent μ)) : System μ :=
  evs.foldl (fun acc ev => (coalescerStep acc ev).1) sys

/-- The states of the coalescer reachable from the initial one. -/
inductive CoalescerReachable {μ : Type} : System μ → Prop
  | init : CoalescerReachable (System.initial μ)
  | step (sys : System μ) (ev : CoalescerEvent μ) :
      CoalescerReachable sys → CoalescerReachable (coalescerStep sys ev).1

/-- The number of retry timers a step may add: one for a fetch response, none otherwise. -/
def retryBudget {μ : Type} (ev : CoalescerEvent μ) : Nat :=
  match ev with
  | CoalescerEvent.response _ _ => 1
  | _ => 0

/-! ## Playback scheduler (`SweepAudioPlayer`)

Times are seconds of the audio clock `ctx.currentTime`, as exact rationals. `play` and
`fetchBuffer` are `async`: they are cut at their `await`s like the coalescer. The awaits
inside `fetchBuffer` (the response, its body, the decoding) are merged into one, no module
variable being written between them except `ctx`. -/

/-- The constant `LOOP_CROSSFADE_SEC = 0.05`. -/
def LOOP_CROSSFADE_SEC : ℚ := 5 / 100

/-- The constant `SCHEDULE_AHEAD_SEC = 0.40`. -/
def SCHEDULE_AHEAD_SEC : ℚ := 40 / 100

/-- The constant `START_DELAY_SEC = 0.10`. -/
def START_DELAY_SEC : ℚ := 10 / 100

/-- The sine and cosine of `Math` and the constant `Math.PI`, over the number type `K`. -/
structure JsTrig (K : Type) where
  sin : K → K
  cos : K → K
  pi : K

/-- The function `makeCurves(n)`: the fade-in and the fade-out curve. -/
def makeCurves {K : Type} [LinearOrderedField K] (T : JsTrig K) (n : Nat) : List K × List K :=
  ((List.range n).map (fun (i : Nat) => T.sin (((i : K) / max 1 ((n : K) - 1)) * (T.pi / 2))),
   (List.range n).map (fun (i : Nat) => T.cos (((i : K) / max 1 ((n : K) - 1)) * (T.pi / 2))))

/-- The laws of sine and cosine the crossfade relies on. -/
structure TrigLaws {K : Type} [LinearOrderedField K] (T : JsTrig K) : Prop where
  sin_sq_add_cos_sq : ∀ t, T.sin t * T.sin t + T.cos t * T.cos t = 1
  sin_zero : T.sin 0 = 0
  cos_zero : T.cos 0 = 1
  sin_half_pi : T.sin (T.pi / 2) = 1
  cos_half_pi : T.cos (T.pi / 2) = 0

/-- The real sine, cosine and π. -/
noncomputable def realTrig : JsTrig ℝ := ⟨Real.sin, Real.cos, Real.pi⟩

/-- A decoded clip, an `AudioBuffer`: `id` tells the objects apart, `duration` is in
seconds. -/
structure AudioBuffer where
  id : Nat
  duration : ℚ
  deriving DecidableEq

/-- The cache key `modelId_conditionId_rpmRounded`: the three integers it is printed from. -/
abbrev ClipKey := Int × Int × Int

/-- What `scheduleSegment` hands to the audio graph for one copy of the clip: the source
starts at `start`, the gain fades in over `[start, fadeInEnd]` and out over
`[fadeOutStart, fadeOutStart + cf]`, on curves of `samples` points. -/
structure Segment where
  buffer : AudioBuffer
  start : ℚ
  cf : ℚ
  samples : Int
  fadeInEnd : ℚ
  fadeOutStart : ℚ
  deriving DecidableEq

/-- The object `playing = { name, key, rpm }`. -/
structure Session where
  name : String
  key : ClipKey
  rpm : ℚ
  deriving DecidableEq

/-- The module state of `SweepAudioPlayer`. -/
structure PlayerState where
  /-- Whether `ctx` has been created. -/
  ctx : Bool
  /-- The property `sampleRate` of the audio context. -/
  sampleRate : ℚ
  /-- The interval `schedulerTimer`, with the buffer its callback ticks; `none` is `null`. -/
  schedulerTimer : Option AudioBuffer
  /-- The variable `nextStartTime`. -/
  nextStartTime : ℚ
  /-- The array `activeNodes`. -/
  activeNodes : List Segment
  /-- The variable `playing`; `none` is `null`. -/
  playing : Option Session
  /-- The map `cache`. -/
  cache : List (ClipKey × AudioBuffer)

/-- The player when the script is loaded, for an audio device of the given sample rate. -/
def PlayerState.initial (sampleRate : ℚ) : PlayerState :=
  { ctx := false, sampleRate := sampleRate, schedulerTimer := none, nextStartTime := 0,
    activeNodes := [], playing := none, cache := [] }

/-- The call `cache.has(key)`. -/
def clipHas (cache : List (ClipKey × AudioBuffer)) (key : ClipKey) : Bool :=
  cache.any (fun e => decide (e.1 = key))

/-- The call `cache.get(key)`; `none` is `undefined`. -/
def clipGet (cache : List (ClipKey × AudioBuffer)) (key : ClipKey) : Option AudioBuffer :=
  (cache.find? (fun e => decide (e.1 = key))).map (fun e => e.2)

/-- The call `cache.set(key, buf)`. -/
def clipSet (cache : List (ClipKey × AudioBuffer)) (key : ClipKey) (buf : AudioBuffer) :
    List (ClipKey × AudioBuffer) :=
  if clipHas cache key then cache.map (fun e => if e.1 = key then (key, buf) else e)
  else cache ++ [(key, buf)]

/-- What the player asks of its surroundings. -/
inductive PlayerEffect
  /-- The request `fetch('/api/sweep-audio', ...)` with its body. -/
  | fetchClip (modelId conditionId : Int) (rpm : ℚ)
  /-- The ramps of `stopSources` on the given nodes. -/
  | fadeOut (nodes : List Segment) (now : ℚ)
  /-- The timeout of `stop` that suspends the context if nothing plays by then. -/
  | suspendLater
  /-- The call `c.resume()`. -/
  | resumeCtx
  /-- The call `window.showError`, with the wording for "no valid segment" or the generic one. -/
  | showError (noValidSegment : Bool)
  deriving DecidableEq

/-- The function `clearScheduler`. -/
def clearScheduler (s : PlayerState) : PlayerState := { s with schedulerTimer := none }

/-- The function `stopSources`, at clock value `now`. -/
def stopSources (s : PlayerState) (now : ℚ) : PlayerState × List PlayerEffect :=
  if s.ctx then ({ s with activeNodes := [] }, [PlayerEffect.fadeOut s.activeNodes now])
  else (s, [])

/-- The function `scheduleSegment(buffer, when)`. -/
def scheduleSegment (s : PlayerState) (buffer : Option AudioBuffer) (when : ℚ) : PlayerState :=
  match buffer with
  | none => s
  | some b =>
    let dur := b.duration
    let cf := min LOOP_CROSSFADE_SEC (dur * (49 / 100))
    let samples := max 32 ⌊cf * s.sampleRate⌋
    let fadeInEnd := when + cf
    let fadeOutStart := when + dur - cf
    { s with ctx := true,
             activeNodes := s.activeNodes ++ [⟨b, when, cf, samples, fadeInEnd, fadeOutStart⟩] }

/-- The segment `scheduleSegment(buffer, when)` appends on a context of the given sample
rate. -/
def segmentOf (sampleRate : ℚ) (b : AudioBuffer) (when : ℚ) : Segment :=
  (scheduleSegment { PlayerState.initial sampleRate with activeNodes := [] } (some b)
    when).activeNodes.getLastD ⟨b, when, 0, 0, when, when⟩

/-- The crossfade length `cf = Math.min(LOOP_CROSSFADE_SEC, dur * 0.49)` of a clip. -/
def crossfadeOf (b : AudioBuffer) : ℚ := min LOOP_CROSSFADE_SEC (b.duration * (49 / 100))

/-- The step `Math.max(0.001, dur - cf)` of `schedulerTick` for a clip. -/
def stepOf (b : AudioBuffer) : ℚ := max (1 / 1000) (b.duration - crossfadeOf b)

/-- A segment has non-zero gain only strictly between its start and its start plus the
duration of the clip. -/
def audibleAt (t : ℚ) (seg : Segment) : Bool :=
  decide (seg.start < t ∧ t < seg.start + seg.buffer.duration)

/-- The loop of `schedulerTick`, `while (nextStartTime < limit) { scheduleSegment(buffer,
nextStartTime); nextStartTime += step }` with `step = Math.max(0.001, raw)`. -/
def tickLoop (buffer : AudioBuffer) (raw limit : ℚ) (s : PlayerState) : PlayerState :=
  if s.nextStartTime < limit then
    tickLoop buffer raw limit
      { scheduleSegment s (some buffer) s.nextStartTime with
        nextStartTime := s.nextStartTime + max (1 / 1000) raw }
  else s
termination_by ⌈(limit - s.nextStartTime) / max (1 / 1000) raw⌉.toNat
decreasing_by
  rename_i h
  simp_wf
  have hstep : (0 : ℚ) < max 1000⁻¹ raw := lt_max_of_lt_left (by norm_num)
  generalize max (1000⁻¹ : ℚ) raw = step at hstep ⊢
  have hsub : (limit - (s.nextStartTime + step)) / step =
      (limit - s.nextStartTime) / step - 1 := by
    field_simp
    ring
  refine ⟨?_, h⟩
  rw [hsub, Int.ceil_sub_one]
  omega

/-- The function `schedulerTick(buffer)`, at clock value `now`. -/
def schedulerTick (s : PlayerState) (buffer : Option AudioBuffer) (now : ℚ) : PlayerState :=
  match s.playing, buffer with
  | some _, some b =>
    let dur := b.duration
    let cf := min LOOP_CROSSFADE_SEC (dur * (49 / 100))
    tickLoop b (dur - cf) (now + SCHEDULE_AHEAD_SEC) { s with ctx := true }
  | _, _ => s

/-- Successive ticks of the interval with the same buffer, at the given clock values. -/
def tickRun (buffer : AudioBuffer) (s : PlayerState) (nows : List ℚ) : PlayerState :=
  nows.foldl (fun acc now => schedulerTick acc (some buffer) now) s

/-- The function `stop`, at clock value `now`. -/
def stop (s : PlayerState) (now : ℚ) : PlayerState × List PlayerEffect :=
  let r := stopSources (clearScheduler { s with playing := none }) now
  (r.1, r.2 ++ (if s.ctx then [PlayerEffect.suspendLater] else []))

/-- The function `isPlaying(name)`. -/
def isPlaying (s : PlayerState) (name : String) : Bool :=
  match s.playing with
  | some p => decide (p.name = name)
  | none => false

/-- The error object `play` rejects with: its `message` and its property `errorCode`,
`none` when that is `null` or not set. -/
structure PlayError where
  message : String
  errorCode : Option String
  deriving DecidableEq

/-- The JSON body of a failure response, as far as it is read: each field is a string or
absent. -/
structure ErrorBody where
  error_message : Option String
  error_code : Option String
  deriving DecidableEq

/-- How the request for a clip ends. -/
inductive ClipOutcome
  /-- A response with an OK status whose body decodes to the buffer. -/
  | ok (buf : AudioBuffer)
  /-- A response with a non-OK status; the body is `none` when it is not a JSON object. -/
  | httpError (status : Nat) (body : Option ErrorBody)
  /-- The request or the reading of the body fails. -/
  | networkError (message : String)
  /-- The call `decodeAudioData` fails. -/
  | decodeError (message : String)
  deriving DecidableEq

/-- Truthiness of a field that is a string or absent. -/
def jsTruthy (v : Option String) : Bool :=
  match v with
  | some t => decide (t ≠ "")
  | none => false

/-- The key of `fetchBuffer`, with `Math.round(rpm)`. -/
def clipKeyOf (modelId conditionId : Int) (rpm : ℚ) : ClipKey :=
  (modelId, conditionId, ⌊rpm + 1 / 2⌋)

/-- The function `fetchBuffer` up to its first `await`: the cached buffer on a hit,
otherwise the request to the provider. -/
def fetchBufferStart (s : PlayerState) (modelId conditionId : Int) (rpm : ℚ) :
    Option AudioBuffer × List PlayerEffect :=
  if clipHas s.cache (clipKeyOf modelId conditionId rpm) then
    (clipGet s.cache (clipKeyOf modelId conditionId rpm), [])
  else (none, [PlayerEffect.fetchClip modelId conditionId rpm])

/-- The error `fetchBuffer` throws on a non-OK status. -/
def httpFailure (status : Nat) (body : Option ErrorBody) : PlayError :=
  let msg0 := "HTTP " ++ toString status
  match body with
  | none => ⟨msg0, none⟩
  | some j =>
    ⟨if jsTruthy j.error_message then j.error_message.getD "" else msg0,
     if jsTruthy j.error_code then j.error_code else none⟩

/-- The function `fetchBuffer` after a cache miss, once the request has ended with
`outcome`. -/
def fetchBufferResume (s : PlayerState) (key : ClipKey) (outcome : ClipOutcome) :
    PlayerState × Except PlayError AudioBuffer :=
  match outcome with
  | ClipOutcome.networkError msg => (s, Except.error ⟨msg, none⟩)
  | ClipOutcome.httpError status body => (s, Except.error (httpFailure status body))
  | ClipOutcome.decodeError msg => ({ s with ctx := true }, Except.error ⟨msg, none⟩)
  | ClipOutcome.ok buf =>
    ({ s with ctx := true, cache := clipSet s.cache key buf }, Except.ok buf)

/-- A call of `play` suspended at an `await`, with the locals it will use. -/
inductive PlayAwait
  /-- At `await fetchBuffer(...)`; `cached` is the buffer of a cache hit. -/
  | clip (name : String) (key : ClipKey) (rpm : ℚ) (cached : Option AudioBuffer)
  /-- At `await c.resume()`. -/
  | resume (name : String) (key : ClipKey) (rpm : ℚ) (buffer : AudioBuffer)
  deriving DecidableEq

/-- How a call of `play` ends. -/
inductive PlayResult
  /-- The value `{ state: 'stopped' }`. -/
  | stopped
  /-- The value `{ state: 'playing', key }`. -/
  | playing (key : ClipKey)
  /-- The promise is rejected. -/
  | rejected (err : PlayError)
  deriving DecidableEq

/-- Where a piece of `play` leaves the call. -/
inductive PlayStep
  | done (result : PlayResult)
  | await (call : PlayAwait)
  deriving DecidableEq

/-- The function `play({ name, modelId, conditionId, rpm })` up to its first `await`, at
clock value `now`; `rpm` is `none` when it is not a finite number. -/
def play (s : PlayerState) (name : String) (modelId conditionId : Int) (rpm : JsNum)
    (now : ℚ) : PlayerState × List PlayerEffect × PlayStep :=
  match rpm with
  | none => (s, [], PlayStep.done (PlayResult.rejected ⟨"RPM 无效", none⟩))
  | some r =>
    if r ≤ 0 then (s, [], PlayStep.done (PlayResult.rejected ⟨"RPM 无效", none⟩))
    else if isPlaying s name then
      ((stop s now).1, (stop s now).2, PlayStep.done PlayResult.stopped)
    else
      let st := stop s now
      let fb := fetchBufferStart st.1 modelId conditionId r
      (st.1, st.2 ++ fb.2,
        PlayStep.await (PlayAwait.clip name (clipKeyOf modelId conditionId r) r fb.1))

/-- The function `play` from `await fetchBuffer(...)` to `await c.resume()`, once the clip
request, if there was one, has ended with `outcome`. -/
def playAfterClip (s : PlayerState) (name : String) (key : ClipKey) (rpm : ℚ)
    (cached : Option AudioBuffer) (outcome : ClipOutcome) :
    PlayerState × List PlayerEffect × PlayStep :=
  match cached with
  | some buf =>
    ({ s with ctx := true }, [PlayerEffect.resumeCtx],
      PlayStep.await (PlayAwait.resume name key rpm buf))
  | none =>
    match fetchBufferResume s key outcome with
    | (s1, Except.error err) => (s1, [], PlayStep.done (PlayResult.rejected err))
    | (s1, Except.ok buf) =>
      ({ s1 with ctx := true }, [PlayerEffect.resumeCtx],
        PlayStep.await (PlayAwait.resume name key rpm buf))

/-- The function `play` after `await c.resume()`, at clock value `now`. -/
def playAfterResume (s : PlayerState) (name : String) (key : ClipKey) (rpm : ℚ)
    (buffer : AudioBuffer) (now : ℚ) : PlayerState × PlayResult :=
  let s1 := { s with playing := some ⟨name, key, rpm⟩, nextStartTime := now + START_DELAY_SEC }
  let s2 := schedulerTick s1 (some buffer) now
  let s3 := clearScheduler s2
  ({ s3 with schedulerTimer := some buffer }, PlayResult.playing key)

/-- The call `s.includes(t)` on strings. -/
def jsIncludes (s t : String) : Bool := decide (t.toList <:+: s.toList)

/-- The test `isNoValidSegmentError` of the click handler on the error it caught. -/
def isNoValidSegmentError (err : PlayError) : Bool :=
  let errCode := if jsTruthy err.errorCode then err.errorCode else none
  let errMsg := if err.message ≠ "" then err.message else "Error"
  decide (errCode = some "AUDIO_GENERATION_FAILED") &&
    (jsIncludes errMsg "无法匹配到有效的音频数据" || jsIncludes errMsg "Cannot match valid audio data")

/-- The `catch` block of the click handler: the error is classified and shown, then
`SweepAudioPlayer.stop()` runs. -/
def onPlayRejected (s : PlayerState) (err : PlayError) (now : ℚ) :
    PlayerState × List PlayerEffect :=
  ((stop s now).1, PlayerEffect.showError (isNoValidSegmentError err) :: (stop s now).2)

/-- The player together with the calls of `play` that are suspended at an `await`. -/
structure Player where
  st : PlayerState
  awaiting : List PlayAwait

/-- What can happen to the player, each at a clock value `now`. -/
inductive PlayerEvent
  /-- A call of `play`. -/
  | play (name : String) (modelId conditionId : Int) (rpm : JsNum) (now : ℚ)
  /-- The promise awaited by the `i`-th suspended call settles; `outcome` is how the clip
  request ended, read only by a call that awaits one. -/
  | settled (i : Nat) (outcome : ClipOutcome) (now : ℚ)
  /-- A call of `stop`. -/
  | stop (now : ℚ)
  /-- The interval `schedulerTimer` fires. -/
  | tick (now : ℚ)
  /-- The source of the `k`-th active node ends. -/
  | ended (k : Nat)

/-- One step of the player: the player afterwards, what was asked of the surroundings, and
the result of the call of `play` that ended in this step, if one did. -/
def playerStep (p : Player) (ev : PlayerEvent) : Player × List PlayerEffect × Option PlayResult :=
  match ev with
  | PlayerEvent.play name modelId conditionId rpm now =>
    match play p.st name modelId conditionId rpm now with
    | (s1, eff, PlayStep.done r) => (⟨s1, p.awaiting⟩, eff, some r)
    | (s1, eff, PlayStep.await a) => (⟨s1, p.awaiting ++ [a]⟩, eff, none)
  | PlayerEvent.settled i outcome now =>
    match p.awaiting.get? i with
    | none => (p, [], none)
    | some (PlayAwait.clip name key rpm cached) =>
      match playAfterClip p.st name key rpm cached outcome with
      | (s1, eff, PlayStep.done r) => (⟨s1, p.awaiting.eraseIdx i⟩, eff, some r)
      | (s1, eff, PlayStep.await a) => (⟨s1, p.awaiting.eraseIdx i ++ [a]⟩, eff, none)
    | some (PlayAwait.resume name key rpm buffer) =>
      (⟨(playAfterResume p.st name key rpm buffer now).1, p.awaiting.eraseIdx i⟩, [],
        some (playAfterResume p.st name key rpm buffer now).2)
  | PlayerEvent.stop now => (⟨(stop p.st now).1, p.awaiting⟩, (stop p.st now).2, none)
  | PlayerEvent.tick now =>
    match p.st.schedulerTimer with
    | none => (p, [], none)
    | some b => (⟨schedulerTick p.st (some b) now, p.awaiting⟩, [], none)
  | PlayerEvent.ended k =>
    (⟨{ p.st with activeNodes := p.st.activeNodes.eraseIdx k }, p.awaiting⟩, [], none)

/-- The player after a list of events. -/
def playerRun (p : Player) (evs : List PlayerEvent) : Player :=
  evs.foldl (fun acc ev => (playerStep acc ev).1) p

/-- The players reachable from the initial one. -/
inductive PlayerReachable (sampleRate : ℚ) : Player → Prop
  | init : PlayerReachable sampleRate ⟨PlayerState.initial sampleRate, []⟩
  | step (p : Player) (ev : PlayerEvent) :
      PlayerReachable sampleRate p → PlayerReachable sampleRate (playerStep p ev).1

/-- Example clip of 2 s. -/
def clipTwoSeconds : AudioBuffer := ⟨0, 2⟩

/-- Example clip of 1 ms. -/
def clipOneMilli : AudioBuffer := ⟨1, 1 / 1000⟩

/-- Example state: the session `fanA` has just been started at clock value 0 on a context
of 48 kHz, before the first tick. -/
def sessionFanA : PlayerState :=
  { PlayerState.initial 48000 with
    ctx := true, playing := some ⟨"fanA", (1, 1, 1200), 1200⟩, nextStartTime := 1 / 10 }

/-- Example state: the clip for `1_1_1200` is cached, nothing plays. -/
def playerCached : PlayerState :=
  { PlayerState.initial 48000 with ctx := true, cache := [((1, 1, 1200), ⟨7, 2⟩)] }

/-- Example events: two calls of `play` for the same clip, both before the request of the
first has completed, then the completion of the first request with the buffer 7. -/
def overlappingRequests : List PlayerEvent :=
  [PlayerEvent.play "fanA" 1 1 (some 1200) 0,
   PlayerEvent.play "fanA" 1 1 (some 1200) 1,
   PlayerEvent.settled 0 (ClipOutcome.ok ⟨7, 2⟩) 2]

/-! ## Histories of evaluator calls -/

/-- The point cache of a fresh model object after `evalPchipJS` has been called on it with
the queries of `qs`, in order. -/
def cacheAfterQueries (model : Option PchipModel) (qs : List ℚ) : PointCache :=
  qs.foldl (fun c x => (evalPchipJS model c x).2) []

/-- Example model with the single knot `x = [5]`, `y = [7]`, `m = [0]`. -/
def singleKnotModel : Option PchipModel := mkModel [5] [7] [0] 5 5

/-- The queries `0, 0.001, ..., (n-1)/1000`. -/
def gridQueries (n : Nat) : List ℚ := (List.range n).map (fun (k : Nat) => (k : ℚ) / 1000)

/-! ## The bands of the aggregator -/

section SpectrumBands

variable {K : Type} [LinearOrderedField K] [FloorRing K]

/-- The fine bands as the inner loop of `downsampleSpectrumBands` reads them: the energy
`EsFine[i]` and the edges `f1Fine[i]`, `f2Fine[i]`, for `i < K`. -/
def fineBands (M : JsMath K) (fineCenters : List K) (fineValuesDb : List (Option K))
    (fineN : K) : List (K × K × K) :=
  (fineCenters.zip fineValuesDb).map (fun p =>
    (fineEnergy M p.2, p.1 / iecEdgeRatio M fineN, p.1 * iecEdgeRatio M fineN))

/-- The accumulated energy `Eacc` of the coarse band centred at `c`. -/
def coarseBandEnergy (M : JsMath K) (fineCenters : List K) (fineValuesDb : List (Option K))
    (fineN coarseN c : K) : K :=
  coarseEnergy (c / iecEdgeRatio M coarseN) (c * iecEdgeRatio M coarseN)
    (fineBands M fineCenters fineValuesDb fineN)

end SpectrumBands

/-- The laws of `Math.pow(10, ·)` and `Math.log10` in exact arithmetic. -/
structure MathLaws {K : Type} [LinearOrderedField K] (M : JsMath K) : Prop where
  pow10_pos : ∀ x : K, 0 < M.pow10 x
  pow10_log10 : ∀ z : K, 0 < z → M.pow10 (M.log10 z) = z
  log10_pow10 : ∀ x : K, M.log10 (M.pow10 x) = x
  pow10_int : ∀ n : Int, M.pow10 (n : K) = (10 : K) ^ n
  pow10_lt : ∀ x y : K, x < y → M.pow10 x < M.pow10 y

/-- What the inner loop of `iecSnapToRenard` holds after it has gone through the indices
`seen`: `best` is one of them, with its error, and no index of `seen` has a smaller one. -/
def NearestInv {K : Type} [LinearOrderedField K] (mans : List K) (m : K)
    (best : Nat × Option K) (seen : List Nat) : Prop :=
  best.2 = some |mans.getD best.1 0 - m| ∧ best.1 ∈ seen ∧
    ∀ j ∈ seen, |mans.getD best.1 0 - m| ≤ |mans.getD j 0 - m|

/-! ## Operating point and series of a curve (`getSeriesRpmForCurrentX`,
`buildAndSetSpectrumOption`) -/

/-- The value of `currentXModeFromPayload(lastPayload)`: the axis that controls. -/
inductive XMode
  | rpm
  | noise
  deriving DecidableEq

/-- The function `rpmMaxForSeries(s, model)`: `modelRpmMax` is `Number(model && model.rpm_max)`
and `dataRpm` the array `s.data.rpm` as numbers, `none` when it is not an array. -/
def rpmMaxForSeries (modelRpmMax : JsNum) (dataRpm : Option (List JsNum)) : ℚ :=
  let fromData : ℚ :=
    match (dataRpm.getD []).filterMap id with
    | [] => 0
    | a :: t => t.foldl max a
  match modelRpmMax with
  | some v => if 0 < v then v else fromData
  | none => fromData

/-- The function `getSeriesRpmForCurrentX(series, spectrumModel)`: `xQuery` is the pointer
position `getXQueryOrDefault(mode)` on the controlling axis, a finite number; `ph` is
`series?.pchip?.noise_to_rpm` with its point cache. -/
def getSeriesRpmForCurrentX (mode : XMode) (xQuery : ℚ) (ph : Option PchipModel)
    (cache : PointCache) (modelRpmMax : JsNum) (dataRpm : Option (List JsNum)) : ℚ :=
  match mode with
  | XMode.rpm => if 0 < xQuery then xQuery else 0
  | XMode.noise =>
    match ph with
    | some ⟨some xs, some ys, some ms, x0, x1⟩ =>
      match (evalPchipJS (some ⟨some xs, some ys, some ms, x0, x1⟩) cache xQuery).1 with
      | some rpm => if 0 < rpm then rpm else 0
      | none => 0
    | _ => rpmMaxForSeries modelRpmMax dataRpm

/-- The value of `getSpectrumResolutionMode()`: `'1_48'`, `'1_12'` or `'1_3'`. -/
inductive ResolutionMode
  | r1_48
  | r1_12
  | r1_3
  deriving DecidableEq

/-- The native resolution read from a spectrum model: `calibration.n_per_oct`, else
`n_per_oct`, else 48; a field is a finite number or (`none`) null. -/
def nativeNPerOct {K : Type} [LinearOrderedField K] (calibN modelN : Option K) : K :=
  match calibN with
  | some v => v
  | none =>
    match modelN with
    | some v => v
    | none => 48

/-- The fine list of a curve in `buildAndSetSpectrumOption`: for each centre that is a
finite number and whose band model has its three arrays and evaluates to a finite level at
`rpmTarget`, the centre and that level. Each band model comes with its point cache. -/
def fineSpectrum (centers : List JsNum) (bands : List (Option PchipModel × PointCache))
    (rpmTarget : ℚ) : List (ℚ × ℚ) :=
  (centers.zip bands).filterMap (fun cb =>
    match cb.1, cb.2.1 with
    | some hz, some ⟨some xs, some ys, some ms, x0, x1⟩ =>
      match (evalPchipJS (some ⟨some xs, some ys, some ms, x0, x1⟩) cb.2.2 rpmTarget).1 with
      | some db => some (hz, db)
      | none => none
    | _, _ => none)

/-- The expression `centersUse.map((hz, idx) => [hz, valsUse[idx]])`: each centre with the
value at its index, `none` (`undefined`) when there is none. -/
def pointsOf {K : Type} : List K → List K → List (K × Option K)
  | [], _ => []
  | hz :: cs, vs => (hz, vs.head?) :: pointsOf cs vs.tail

/-- The points `pts` of a curve in `buildAndSetSpectrumOption`, from its fine list: the
lists `centersUse`, `valsUse` are the fine ones, or the output of the aggregator in the
modes `'1_3'` and `'1_12'`. -/
def seriesPoints {K : Type} [LinearOrderedField K] [FloorRing K] (M : JsMath K)
    (modeRes : ResolutionMode) (fineCenters fineValsDb : List K) (calibN modelN : Option K) :
    List (K × Option K) :=
  if fineCenters.length = 0 then []
  else
    let fineNPerOct := nativeNPerOct calibN modelN
    let use : List K × List K :=
      match modeRes with
      | ResolutionMode.r1_3 =>
        downsampleSpectrumBands M fineCenters (fineValsDb.map some) (some fineNPerOct) (some 3)
      | ResolutionMode.r1_12 =>
        downsampleSpectrumBands M fineCenters (fineValsDb.map some) (some fineNPerOct) (some 12)
      | ResolutionMode.r1_48 => (fineCenters, fineValsDb)
    pointsOf use.1 use.2

/-- Example cross-model from noise to RPM with the single knot `x = [30]`, `y = [0]`. -/
def crossModelZero : Option PchipModel := mkModel [30] [0] [0] 30 30

/-! ## Colour indices (`ColorManager.assignUniqueIndices`, color-manager.js)

The object `colorIndexMap` is an association list in insertion order, with strings as
keys and integers as indices; a `Set` is a list in insertion order. -/

/-- The call `Object.prototype.hasOwnProperty.call(map, key)` followed by `map[key]`:
`none` when the map has no such key. -/
def colorGet (map : List (String × Int)) (key : String) : Option Int :=
  (map.find? (fun e => decide (e.1 = key))).map (fun e => e.2)

/-- The expression `[...new Set(keys.filter(Boolean))]`: the truthy keys, each at its first
occurrence. -/
def uniqueKeysOf (keys : List String) : List String :=
  (keys.filter (fun k => decide (k ≠ ""))).foldl
    (fun acc k => if k ∈ acc then acc else acc ++ [k]) []

/-- The loop `while (assignedIndices.has(i)) i++` of `_nextFreeIndex`, from `i`. -/
def nextFreeIndexFrom (assigned : List Int) (i : Nat) : Nat :=
  if (i : Int) ∈ assigned then nextFreeIndexFrom assigned (i + 1) else i
termination_by (assigned.map Int.toNat).sum + 1 - i
decreasing_by
  rename_i h
  have hm : i ∈ assigned.map Int.toNat := List.mem_map.mpr ⟨(i : Int), h, by simp⟩
  have hle : i ≤ (assigned.map Int.toNat).sum :=
    List.single_le_sum (fun _ _ => Nat.zero_le _) i hm
  omega

/-- The function `_nextFreeIndex(assignedIndices)`. -/
def nextFreeIndex (assigned : List Int) : Int := (nextFreeIndexFrom assigned 0 : Nat)

/-- The value `indexCounts[index]` after the counting loop: how many of the unique keys
hold `index` in `colorIndexMap`. -/
def indexCount (colorIndexMap : List (String × Int)) (uniqueKeys : List String) (index : Int) :
    Nat :=
  (uniqueKeys.filter (fun k => decide (colorGet colorIndexMap k = some index))).length

/-- One pass of the loop that keeps the indices without conflict; the state is `finalMap`
and `assignedIndices`. -/
def keepStep (colorIndexMap : List (String × Int)) (uniqueKeys : List String)
    (st : List (String × Int) × List Int) (key : String) : List (String × Int) × List Int :=
  match colorGet colorIndexMap key with
  | some index =>
    if indexCount colorIndexMap uniqueKeys index = 1 ∧ index ∉ st.2 then
      (st.1 ++ [(key, index)], st.2 ++ [index])
    else st
  | none => st

/-- One pass of the loop that gives the remaining keys a new index. -/
def freshStep (st : List (String × Int) × List Int) (key : String) :
    List (String × Int) × List Int :=
  if (colorGet st.1 key).isSome then st
  else (st.1 ++ [(key, nextFreeIndex st.2)], st.2 ++ [nextFreeIndex st.2])

/-- The function `assignUniqueIndices(keys)` on an array of strings: the new
`colorIndexMap`. -/
def assignUniqueIndices (colorIndexMap : List (String × Int)) (keys : List String) :
    List (String × Int) :=
  let uniqueKeys := uniqueKeysOf keys
  let kept := uniqueKeys.foldl (keepStep colorIndexMap uniqueKeys) ([], [])
  (uniqueKeys.foldl freshStep kept).1

/-- The smallest non-negative integer that is not in `assigned`. -/
def LeastFree (assigned : List Int) (v : Int) : Prop :=
  0 ≤ v ∧ v ∉ assigned ∧ ∀ u : Int, 0 ≤ u → u < v → u ∈ assigned

/-- A key keeps its index: it holds `index` in `colorIndexMap` and no other key of the
array does. -/
def KeepsIndex (colorIndexMap : List (String × Int)) (keys : List String) (key : String)
    (index : Int) : Prop :=
  colorGet colorIndexMap key = some index ∧
    ∀ k ∈ keys, k ≠ "" → k ≠ key → colorGet colorIndexMap k ≠ some index

/-! ## Theorems: the Hermite evaluator -/

theorem jsGet_ofNat (xs : List ℚ) (i : ℕ) (h : i < xs.length) :
    jsGet xs (i : Int) = some (xs.getD i 0) := by
  unfold jsGet
  simp [List.getD, List.getElem?_eq_getElem h]

theorem jsGet_valid (xs : List ℚ) (i : Int) (h0 : 0 ≤ i) (h1 : i < xs.length) :
    jsGet xs i = some (xs.getD i.toNat 0) := by
  obtain ⟨k, rfl⟩ := Int.eq_ofNat_of_zero_le h0
  have hk : k < xs.length := by exact_mod_cast h1
  simpa using jsGet_ofNat xs k hk

theorem round3_grid (z : ℤ) : round3 ((z : ℚ) / 1000) = (z : ℚ) / 1000 := by
  unfold round3
  have : ⌊(z : ℚ) / 1000 * 1000 + 1 / 2⌋ = z := by
    rw [Int.floor_eq_iff]
    constructor
    · have : (z : ℚ) / 1000 * 1000 = z := by field_simp
      rw [this]; linarith
    · have : (z : ℚ) / 1000 * 1000 = z := by field_simp
      rw [this]; linarith
  rw [this]

theorem round3_mono {a b : ℚ} (h : a ≤ b) : round3 a ≤ round3 b := by
  unfold round3
  have : ⌊a * 1000 + 1 / 2⌋ ≤ ⌊b * 1000 + 1 / 2⌋ := Int.floor_le_floor (by linarith)
  have h2 : ((⌊a * 1000 + 1 / 2⌋ : ℤ) : ℚ) ≤ ((⌊b * 1000 + 1 / 2⌋ : ℤ) : ℚ) := by exact_mod_cast this
  exact div_le_div_of_nonneg_right h2 (by norm_num)

/-- Interval search: under the bracketing invariant the loop leaves through `break`. -/
theorem searchLoop_spec (xs : List ℚ) (q : ℚ) (hn : 2 ≤ xs.length) :
    ∀ (k : ℕ) (lo hi : Int), (hi - lo + 1).toNat = k → 0 ≤ lo → hi + 2 ≤ xs.length →
      lo ≤ hi + 1 →
      xs.getD lo.toNat 0 ≤ q → q ≤ xs.getD (hi + 1).toNat 0 →
      (lo ≠ 0 → xs.getD lo.toNat 0 < q) →
      (hi + 2 ≠ xs.length → q < xs.getD (hi + 1).toNat 0) →
      ∃ i : Int, (searchLoop xs (some q) lo hi).found = some i ∧ lo ≤ i ∧ i ≤ hi ∧
        xs.getD i.toNat 0 ≤ q ∧ q ≤ xs.getD (i + 1).toNat 0 ∧
        (searchLoop xs (some q) lo hi).lo ≤ (searchLoop xs (some q) lo hi).hi := by
  intro k
  induction k using Nat.strong_induction_on with
  | _ k ih =>
    intro lo hi hk h0 h1 h2 hlo hhi hlo' hhi'
    by_cases hle : lo ≤ hi
    · rw [searchLoop]
      simp only [hle, if_true]
      have hmid0 : 0 ≤ (lo + hi) / 2 := by omega
      have hmidlo : lo ≤ (lo + hi) / 2 := by omega
      have hmidhi : (lo + hi) / 2 ≤ hi := by omega
      have hg1 := jsGet_valid xs ((lo + hi) / 2) hmid0 (by omega)
      have hg2 := jsGet_valid xs ((lo + hi) / 2 + 1) (by omega) (by omega)
      simp only [hg1, hg2, jsLe, jsLt]
      by_cases hfound : xs.getD ((lo + hi) / 2).toNat 0 ≤ q ∧ q ≤ xs.getD ((lo + hi) / 2 + 1).toNat 0
      · simp only [hfound.1, hfound.2, decide_True, Bool.and_self, if_true]
        exact ⟨(lo + hi) / 2, rfl, hmidlo, hmidhi, hfound.1, hfound.2, hle⟩
      · have hnf : (decide (xs.getD ((lo + hi) / 2).toNat 0 ≤ q) &&
            decide (q ≤ xs.getD ((lo + hi) / 2 + 1).toNat 0)) = false := by
          simpa using hfound
        rw [hnf]
        simp only [Bool.false_eq_true, if_false]
        by_cases hlt : q < xs.getD ((lo + hi) / 2).toNat 0
        · simp only [hlt, decide_True, if_true]
          have hmlo : lo ≠ (lo + hi) / 2 := by
            intro he
            rw [← he] at hlt
            exact absurd hlo (not_le.mpr hlt)
          obtain ⟨i, hi1, hi2, hi3, hi4⟩ := ih ((lo + hi) / 2 - 1 - lo + 1).toNat (by omega) lo
            ((lo + hi) / 2 - 1) rfl h0 (by omega) (by omega) hlo
            (by simpa using hlt.le) hlo' (by intro _; simpa using hlt)
          exact ⟨i, hi1, hi2, by omega, hi4⟩
        · simp only [hlt, decide_False, Bool.false_eq_true, if_false]
          have hge : xs.getD ((lo + hi) / 2).toNat 0 ≤ q := not_lt.mp hlt
          have hgt : xs.getD ((lo + hi) / 2 + 1).toNat 0 < q := by
            by_contra hc
            exact hfound ⟨hge, not_lt.mp hc⟩
          have hmhi : (lo + hi) / 2 ≠ hi := by
            intro he
            rw [he] at hgt
            exact absurd hhi (not_le.mpr hgt)
          obtain ⟨i, hi1, hi2, hi3, hi4⟩ := ih (hi - ((lo + hi) / 2 + 1) + 1).toNat (by omega)
            ((lo + hi) / 2 + 1) hi rfl (by omega) h1 (by omega) hgt.le hhi
            (by intro _; exact hgt) hhi'
          exact ⟨i, hi1, by omega, hi3, hi4⟩
    · exfalso
      have he : lo = hi + 1 := by omega
      by_cases hz : lo = 0
      · have : hi + 2 ≠ xs.length := by omega
        have h3 := hhi' this
        rw [← he] at h3
        exact absurd hlo (not_le.mpr h3)
      · have h3 := hlo' hz
        rw [← he] at hhi
        exact absurd hhi (not_le.mpr h3)

theorem sorted_getD_lt {xs : List ℚ} (hs : xs.Sorted (· < ·)) {i j : ℕ} (hij : i < j)
    (hj : j < xs.length) : xs.getD i 0 < xs.getD j 0 := by
  have h := hs.rel_get_of_lt (a := ⟨i, by omega⟩) (b := ⟨j, hj⟩) (by simpa using hij)
  have hi : i < xs.length := by omega
  simpa [List.getD, List.getElem?_eq_getElem hi, List.getElem?_eq_getElem hj] using h

theorem sorted_getD_le {xs : List ℚ} (hs : xs.Sorted (· < ·)) {i j : ℕ} (hij : i ≤ j)
    (hj : j < xs.length) : xs.getD i 0 ≤ xs.getD j 0 := by
  rcases Nat.eq_or_lt_of_le hij with h | h
  · rw [h]
  · exact (sorted_getD_lt hs h hj).le

/-- The clamp, in closed form, for increasing knots. -/
theorem clampQuery_eq {xs : List ℚ} (hs : xs.Sorted (· < ·)) (hn : 2 ≤ xs.length) (r : ℚ) :
    clampQuery xs r = some (if r ≤ xs.getD 0 0 then xs.getD 0 0
      else if xs.getD (xs.length - 1) 0 ≤ r then xs.getD (xs.length - 1) 0 else r) := by
  have h0 : jsGet xs 0 = some (xs.getD 0 0) := by
    simpa using jsGet_ofNat xs 0 (by omega)
  have h1 : jsGet xs ((xs.length : Int) - 1) = some (xs.getD (xs.length - 1) 0) := by
    have := jsGet_ofNat xs (xs.length - 1) (by omega)
    rw [← this]; congr 1; omega
  have hlt : xs.getD 0 0 < xs.getD (xs.length - 1) 0 := sorted_getD_lt hs (by omega) (by omega)
  unfold clampQuery
  simp only [h0, h1]
  generalize xs.getD 0 0 = a at *
  generalize xs.getD (xs.length - 1) 0 = b at *
  by_cases ha : r ≤ a
  · have hba : ¬ b ≤ a := not_le.mpr hlt
    simp [ha, jsLe, hba]
  · by_cases hb : b ≤ r
    · simp [ha, hb, jsLe]
    · simp [ha, hb, jsLe]

theorem clampQuery_range {xs : List ℚ} (hs : xs.Sorted (· < ·)) (hn : 2 ≤ xs.length) (r q : ℚ)
    (h : clampQuery xs r = some q) :
    xs.getD 0 0 ≤ q ∧ q ≤ xs.getD (xs.length - 1) 0 := by
  have hlt : xs.getD 0 0 < xs.getD (xs.length - 1) 0 := sorted_getD_lt hs (by omega) (by omega)
  rw [clampQuery_eq hs hn] at h
  injection h with h
  subst h
  split_ifs with ha hb
  · exact ⟨le_refl _, hlt.le⟩
  · exact ⟨hlt.le, le_refl _⟩
  · exact ⟨(not_le.mp ha).le, (not_le.mp hb).le⟩

/-- For increasing knots the search finds the bracketing interval through `break`. -/
theorem searchIndex_spec {xs : List ℚ} (hn : 2 ≤ xs.length) (q : ℚ)
    (h0 : xs.getD 0 0 ≤ q) (h1 : q ≤ xs.getD (xs.length - 1) 0) :
    ∃ i : ℕ, (searchLoop xs (some q) 0 ((xs.length : Int) - 2)).found = some (i : Int) ∧
      searchIndex xs (some q) = (i : Int) ∧ i + 2 ≤ xs.length ∧
      xs.getD i 0 ≤ q ∧ q ≤ xs.getD (i + 1) 0 := by
  have hidx : ((xs.length : Int) - 2 + 1).toNat = xs.length - 1 := by omega
  obtain ⟨i, hf, hi0, hi1, hlo, hhi, hle⟩ := searchLoop_spec xs q hn _ 0 ((xs.length : Int) - 2) rfl
    (le_refl _) (by omega) (by omega) (by simpa using h0) (by rw [hidx]; exact h1)
    (by intro h; exact absurd rfl h) (by intro h; omega)
  obtain ⟨k, rfl⟩ := Int.eq_ofNat_of_zero_le hi0
  refine ⟨k, hf, ?_, by omega, by simpa using hlo, ?_⟩
  · unfold searchIndex
    simp only [hf]
    rw [if_neg (not_lt.mpr hle)]
  · have : ((k : Int) + 1).toNat = k + 1 := by omega
    rw [this] at hhi
    exact hhi

/-- On `n >= 2` increasing knots with values and tangents at every knot, the computed
value is the cubic Hermite value on the interval the search returns. -/
theorem pchipValue_spec {xs ys ms : List ℚ} (hs : xs.Sorted (· < ·)) (hn : 2 ≤ xs.length)
    (hy : ys.length = xs.length) (hm : ms.length = xs.length) (r : ℚ) :
    ∃ (q : ℚ) (i : ℕ), clampQuery xs r = some q ∧
      (searchLoop xs (some q) 0 ((xs.length : Int) - 2)).found = some (i : Int) ∧
      searchIndex xs (some q) = (i : Int) ∧ i + 2 ≤ xs.length ∧
      xs.getD i 0 ≤ q ∧ q ≤ xs.getD (i + 1) 0 ∧
      pchipValue xs ys ms r = some (hermiteSpec (xs.getD i 0) (xs.getD (i + 1) 0)
        (ys.getD i 0) (ys.getD (i + 1) 0) (ms.getD i 0) (ms.getD (i + 1) 0) q) := by
  obtain ⟨q, hq⟩ : ∃ q, clampQuery xs r = some q := ⟨_, clampQuery_eq hs hn r⟩
  obtain ⟨hq0, hq1⟩ := clampQuery_range hs hn r q hq
  obtain ⟨i, hf, hi, hin, hlo, hhi⟩ := searchIndex_spec hn q hq0 hq1
  refine ⟨q, i, hq, hf, hi, hin, hlo, hhi, ?_⟩
  have hlt : xs.getD i 0 < xs.getD (i + 1) 0 := sorted_getD_lt hs (by omega) (by omega)
  have hne : xs.getD (i + 1) 0 - xs.getD i 0 ≠ 0 := by linarith
  unfold pchipValue
  simp only [hq, hi]
  have e1 : ((i : Int) + 1) = ((i + 1 : ℕ) : Int) := by simp
  rw [e1, jsGet_ofNat xs i (by omega), jsGet_ofNat xs (i + 1) (by omega),
    jsGet_ofNat ys i (by omega), jsGet_ofNat ys (i + 1) (by omega),
    jsGet_ofNat ms i (by omega), jsGet_ofNat ms (i + 1) (by omega)]
  simp only [jsSub, jsOrOne, hne, if_false, jsDiv, jsMul, jsAdd]
  congr 1
  unfold hermiteSpec
  ring

theorem PointCache.mem_set {c : PointCache} {k : ℚ} {v : JsNum} {e : ℚ × JsNum}
    (h : e ∈ c.set k v) : e ∈ c ∨ e = (k, v) := by
  unfold PointCache.set at h
  split_ifs at h with hh
  · rw [List.mem_map] at h
    obtain ⟨a, ha, hae⟩ := h
    split_ifs at hae with hk
    · exact Or.inr hae.symm
    · exact Or.inl (hae ▸ ha)
  · rw [List.mem_append] at h
    rcases h with h | h
    · exact Or.inl h
    · exact Or.inr (by simpa using h)

theorem PointCache.mem_evict {c : PointCache} {e : ℚ × JsNum} (h : e ∈ c.evict) : e ∈ c := by
  unfold PointCache.evict at h
  split_ifs at h
  · exact List.mem_of_mem_tail h
  · exact h

theorem PointCache.get_of_has {c : PointCache} {k : ℚ} (h : c.has k = true) :
    ∃ e ∈ c, e.1 = k ∧ c.get k = e.2 := by
  unfold PointCache.has at h
  unfold PointCache.get
  cases hf : c.find? (fun e => decide (e.1 = k)) with
  | none =>
    rw [List.find?_eq_none] at hf
    rw [List.any_eq_true] at h
    obtain ⟨e, he, hk⟩ := h
    exact absurd hk (hf e he)
  | some e =>
    have h1 := List.find?_some hf
    have h2 := List.mem_of_find?_eq_some hf
    exact ⟨e, h2, by simpa using h1, rfl⟩

/-- With an empty cache the result depends on the query only through its rounding. -/
theorem evalPchipJS_fresh_congr (model : Option PchipModel) {x x' : ℚ}
    (h : round3 x = round3 x') :
    (evalPchipJS model [] x).1 = (evalPchipJS model [] x').1 := by
  rcases model with _ | ⟨_ | xs, _ | ys, _ | ms, x0, x1⟩ <;> simp [evalPchipJS, h]

theorem cacheSound_step (model : Option PchipModel) (c : PointCache) (x : ℚ)
    (hc : CacheSound model c) : CacheSound model (evalPchipJS model c x).2 := by
  rcases model with _ | ⟨_ | xs, _ | ys, _ | ms, x0, x1⟩ <;> try (simpa [evalPchipJS] using hc)
  unfold evalPchipJS
  simp only
  split_ifs with h1 h2 h3
  · exact hc
  · exact hc
  · intro e he
    rcases PointCache.mem_set he with h | h
    · exact hc e h
    · refine ⟨x, by rw [h], ?_⟩
      rw [h]
      simp [evalPchipJS, PointCache.has, h2, h3]
  · intro e he
    rcases PointCache.mem_set he with h | h
    · exact hc e (PointCache.mem_evict h)
    · refine ⟨x, by rw [h], ?_⟩
      rw [h]
      simp [evalPchipJS, PointCache.has, h2, h3]

theorem cacheSound_of_reachable {model : Option PchipModel} {c : PointCache}
    (h : CacheReachable model c) : CacheSound model c := by
  induction h with
  | fresh => intro e he; simp at he
  | call c x _ ih => exact cacheSound_step model c x ih

/-- The value returned does not depend on the cache contents. -/
theorem evalPchipJS_cache_indep {model : Option PchipModel} {c : PointCache}
    (hc : CacheReachable model c) (x : ℚ) :
    (evalPchipJS model c x).1 = (evalPchipJS model [] x).1 := by
  have hs := cacheSound_of_reachable hc
  by_cases hh : PointCache.has c (round3 x) = true
  · obtain ⟨e, he, hk, hg⟩ := PointCache.get_of_has hh
    obtain ⟨x', hx1, hx2⟩ := hs e he
    have h1 : (evalPchipJS model [] x).1 = (evalPchipJS model [] x').1 :=
      evalPchipJS_fresh_congr _ (by rw [← hx1, hk])
    rw [h1, ← hx2, ← hg]
    rcases model with _ | ⟨_ | xs, _ | ys, _ | ms, x0, x1⟩ <;>
      first
      | (have hx3 : e.2 = none := by simpa [evalPchipJS] using hx2
         rw [hg, hx3]; simp [evalPchipJS])
      | (simp only [evalPchipJS, hh, if_true])
  · have hh' : PointCache.has c (round3 x) = false := by simpa using hh
    have he : PointCache.has [] (round3 x) = false := rfl
    rcases model with _ | ⟨_ | xs, _ | ys, _ | ms, x0, x1⟩ <;>
      first
      | (simp only [evalPchipJS, hh', he, Bool.false_eq_true, if_false]; split_ifs <;> rfl)
      | (simp [evalPchipJS])

theorem evalPchipJS_fresh_two (xs ys ms : List ℚ) (x0 x1 x : ℚ) (hn : 2 ≤ xs.length) :
    (evalPchipJS (mkModel xs ys ms x0 x1) [] x).1 = pchipValue xs ys ms (round3 x) := by
  have h0 : xs.length ≠ 0 := by omega
  have h1 : xs.length ≠ 1 := by omega
  have h0' : xs ≠ [] := by intro h; simp [h] at h0
  simp [evalPchipJS, mkModel, PointCache.has, h0', h1]

theorem evalPchipJS_fresh_one (xs ys ms : List ℚ) (x0 x1 x : ℚ) (hn : xs.length = 1) :
    (evalPchipJS (mkModel xs ys ms x0 x1) [] x).1 = jsGet ys 0 := by
  have h0' : xs ≠ [] := by intro h; simp [h] at hn
  simp [evalPchipJS, mkModel, PointCache.has, h0', hn]

theorem hermiteSpec_left (xa xb ya yb ma mb : ℚ) : hermiteSpec xa xb ya yb ma mb xa = ya := by
  unfold hermiteSpec
  simp

theorem hermiteSpec_right (xa xb ya yb ma mb : ℚ) (h : xb - xa ≠ 0) :
    hermiteSpec xa xb ya yb ma mb xb = yb := by
  unfold hermiteSpec
  simp only [div_self h]
  ring

theorem pchipValue_congr (xs ys ms : List ℚ) {r r' : ℚ} (h : clampQuery xs r = clampQuery xs r') :
    pchipValue xs ys ms r = pchipValue xs ys ms r' := by
  unfold pchipValue
  rw [h]

/-- Evaluation at a knot that rounding leaves unchanged returns the knot value. -/
theorem evalPchipJS_knot_aux (xs ys ms : List ℚ) (x0 x1 : ℚ) (hs : xs.Sorted (· < ·))
    (hy : ys.length = xs.length) (hm : ms.length = xs.length) (k : ℕ) (hk : k < xs.length)
    (hr : round3 (xs.getD k 0) = xs.getD k 0) :
    (evalPchipJS (mkModel xs ys ms x0 x1) [] (xs.getD k 0)).1 = some (ys.getD k 0) := by
  by_cases hn : 2 ≤ xs.length
  · rw [evalPchipJS_fresh_two xs ys ms x0 x1 _ hn, hr]
    obtain ⟨q, i, hq, -, -, hin, hlo, hhi, hval⟩ := pchipValue_spec hs hn hy hm (xs.getD k 0)
    have hqk : q = xs.getD k 0 := by
      rw [clampQuery_eq hs hn] at hq
      injection hq with hq
      rw [← hq]
      have h0 : xs.getD 0 0 ≤ xs.getD k 0 := sorted_getD_le hs (Nat.zero_le _) hk
      have h1 : xs.getD k 0 ≤ xs.getD (xs.length - 1) 0 := sorted_getD_le hs (by omega) (by omega)
      split_ifs with ha hb
      · exact le_antisymm h0 ha
      · exact le_antisymm hb h1
      · rfl
    rw [hval, hqk]
    rw [hqk] at hlo hhi
    have hk1 : ¬ k < i := fun h => absurd hlo (not_le.mpr (sorted_getD_lt hs h (by omega)))
    have hk2 : ¬ i + 1 < k := fun h => absurd hhi (not_le.mpr (sorted_getD_lt hs h hk))
    have hlt : xs.getD i 0 < xs.getD (i + 1) 0 := sorted_getD_lt hs (by omega) (by omega)
    rcases (by omega : k = i ∨ k = i + 1) with h | h
    · rw [h, hermiteSpec_left]
    · rw [h, hermiteSpec_right _ _ _ _ _ _ (by linarith)]
  · have h1 : xs.length = 1 := by omega
    have hk0 : k = 0 := by omega
    rw [evalPchipJS_fresh_one xs ys ms x0 x1 _ h1, hk0]
    simpa using jsGet_ofNat ys 0 (by omega)

/-- Two knots: the value in closed form. -/
theorem evalPchipJS_two_knots (a b ya yb ma mb x0 x1 x : ℚ) (hab : a < b) :
    (evalPchipJS (mkModel [a, b] [ya, yb] [ma, mb] x0 x1) [] x).1 =
      some (hermiteSpec a b ya yb ma mb
        (if round3 x ≤ a then a else if b ≤ round3 x then b else round3 x)) := by
  have hs : List.Sorted (· < ·) [a, b] := by simp [List.Sorted, hab]
  rw [evalPchipJS_fresh_two _ _ _ _ _ _ (by simp)]
  obtain ⟨q, i, hq, -, -, hin, -, -, hval⟩ :=
    @pchipValue_spec [a, b] [ya, yb] [ma, mb] hs (by simp) rfl rfl (round3 x)
  have hi : i = 0 := by simp at hin; omega
  subst hi
  rw [clampQuery_eq hs (by simp)] at hq
  injection hq with hq
  rw [hval, ← hq]
  simp

/-- C1 (amended): for a model with strictly increasing knots that are all multiples of
0.001, with a value and a tangent at every knot, `evalPchipJS(model, x[i])` returns `y[i]`
for every index `i`, whatever earlier calls left in the point cache. -/
theorem evalPchipJS_at_knot (xs ys ms : List ℚ) (x0 x1 : ℚ) (hs : xs.Sorted (· < ·))
    (hy : ys.length = xs.length) (hm : ms.length = xs.length)
    (hgrid : ∀ v ∈ xs, ∃ z : ℤ, v = (z : ℚ) / 1000)
    (c : PointCache) (hc : CacheReachable (mkModel xs ys ms x0 x1) c)
    (i : ℕ) (hi : i < xs.length) :
    (evalPchipJS (mkModel xs ys ms x0 x1) c (xs.getD i 0)).1 = some (ys.getD i 0) := by
  rw [evalPchipJS_cache_indep hc]
  refine evalPchipJS_knot_aux xs ys ms x0 x1 hs hy hm i hi ?_
  have hmem : xs.getD i 0 ∈ xs := by
    simp [List.getD, List.getElem?_eq_getElem hi]
  obtain ⟨z, hz⟩ := hgrid _ hmem
  rw [hz]
  exact round3_grid z

/-- C1, the example of the specification: knots `[0, 1000, 2000]`, values `[0, 50, 80]`. -/
theorem evalPchipJS_at_knot_witness :
    (evalPchipJS (mkModel [0, 1000, 2000] [0, 50, 80] [1 / 10, 1 / 25, 1 / 50] 0 2000) []
      1000).1 = some 50 :=
  evalPchipJS_at_knot [0, 1000, 2000] [0, 50, 80] [1 / 10, 1 / 25, 1 / 50] 0 2000
    (by norm_num [List.Sorted]) rfl rfl
    (by
      intro v hv
      simp only [List.mem_cons, List.mem_singleton, List.not_mem_nil, or_false] at hv
      rcases hv with h | h | h
      · exact ⟨0, by rw [h]; norm_num⟩
      · exact ⟨1000000, by rw [h]; norm_num⟩
      · exact ⟨2000000, by rw [h]; norm_num⟩)
    [] CacheReachable.fresh 1 (by simp)

/-- C1 fails as stated: with knots `[0, 0.0004, 1]` and values `[0, 5, 10]` the query
`x[1] = 0.0004` rounds to `0` and the function returns `y[0] = 0`, not `y[1] = 5`. -/
theorem evalPchipJS_at_knot_counterexample :
    List.Sorted (· < ·) [(0 : ℚ), 1 / 2500, 1] ∧
    (evalPchipJS (mkModel [0, 1 / 2500, 1] [0, 5, 10] [0, 0, 0] 0 1) []
      ([(0 : ℚ), 1 / 2500, 1].getD 1 0)).1 ≠ some ([(0 : ℚ), 5, 10].getD 1 0) := by
  refine ⟨by norm_num [List.Sorted], ?_⟩
  have hr : round3 (1 / 2500) = round3 0 := by
    unfold round3; norm_num
  have h0 := evalPchipJS_knot_aux [0, 1 / 2500, 1] [0, 5, 10] [0, 0, 0] 0 1
    (by norm_num [List.Sorted]) rfl rfl 0 (by simp) (by unfold round3; norm_num)
  have h1 := evalPchipJS_fresh_congr (mkModel [0, 1 / 2500, 1] [0, 5, 10] [0, 0, 0] 0 1) hr
  simp only [List.getD_cons_zero, List.getD_cons_succ] at h0 ⊢
  rw [h1, h0]
  simp

/-- C2: for a model with at least two strictly increasing knots (and a value and a tangent
at every knot) and every query `x`, the interval search terminates through its `break` with
an index `0 <= i <= n-2` such that `x[i] <= q <= x[i+1]`, where `q` is the rounded and
clamped query, and `evalPchipJS` returns the cubic Hermite value on that interval. -/
theorem evalPchipJS_hermite (xs ys ms : List ℚ) (x0 x1 : ℚ) (hs : xs.Sorted (· < ·))
    (hn : 2 ≤ xs.length) (hy : ys.length = xs.length) (hm : ms.length = xs.length)
    (c : PointCache) (hc : CacheReachable (mkModel xs ys ms x0 x1) c) (x : ℚ) :
    ∃ (q : ℚ) (i : ℕ), clampQuery xs (round3 x) = some q ∧
      (searchLoop xs (some q) 0 ((xs.length : Int) - 2)).found = some (i : Int) ∧
      searchIndex xs (some q) = (i : Int) ∧ i + 2 ≤ xs.length ∧
      xs.getD i 0 ≤ q ∧ q ≤ xs.getD (i + 1) 0 ∧
      (evalPchipJS (mkModel xs ys ms x0 x1) c x).1 =
        some (hermiteSpec (xs.getD i 0) (xs.getD (i + 1) 0) (ys.getD i 0) (ys.getD (i + 1) 0)
          (ms.getD i 0) (ms.getD (i + 1) 0) q) := by
  rw [evalPchipJS_cache_indep hc, evalPchipJS_fresh_two xs ys ms x0 x1 x hn]
  exact pchipValue_spec hs hn hy hm (round3 x)

/-- C2 at knots `[0, 1000, 2000]`, query `1500`. -/
theorem evalPchipJS_hermite_witness :
    ∃ (q : ℚ) (i : ℕ), clampQuery [0, 1000, 2000] (round3 1500) = some q ∧
      (searchLoop [0, 1000, 2000] (some q) 0
        ((([0, 1000, 2000] : List ℚ).length : Int) - 2)).found = some (i : Int) ∧
      searchIndex [0, 1000, 2000] (some q) = (i : Int) ∧
      i + 2 ≤ ([0, 1000, 2000] : List ℚ).length ∧
      ([0, 1000, 2000] : List ℚ).getD i 0 ≤ q ∧ q ≤ ([0, 1000, 2000] : List ℚ).getD (i + 1) 0 ∧
      (evalPchipJS (mkModel [0, 1000, 2000] [0, 50, 80] [1 / 10, 1 / 25, 1 / 50] 0 2000) []
        1500).1 =
        some (hermiteSpec (([0, 1000, 2000] : List ℚ).getD i 0)
          (([0, 1000, 2000] : List ℚ).getD (i + 1) 0) (([0, 50, 80] : List ℚ).getD i 0)
          (([0, 50, 80] : List ℚ).getD (i + 1) 0)
          (([1 / 10, 1 / 25, 1 / 50] : List ℚ).getD i 0)
          (([1 / 10, 1 / 25, 1 / 50] : List ℚ).getD (i + 1) 0) q) :=
  evalPchipJS_hermite [0, 1000, 2000] [0, 50, 80] [1 / 10, 1 / 25, 1 / 50] 0 2000
    (by norm_num [List.Sorted]) (by simp) rfl rfl [] CacheReachable.fresh 1500


/-- Outside the knot range the rounded query is clamped to the end knot. -/
theorem evalPchipJS_clamp_aux (xs ys ms : List ℚ) (x0 x1 : ℚ) (hs : xs.Sorted (· < ·))
    (hn : 1 ≤ xs.length) (hy : ys.length = xs.length) (hm : ms.length = xs.length)
    (k : ℕ) (hk : k = 0 ∨ k = xs.length - 1)
    (hr : round3 (xs.getD k 0) = xs.getD k 0) (x : ℚ)
    (hx : (k = 0 ∧ x < xs.getD k 0) ∨ (k = xs.length - 1 ∧ xs.getD k 0 < x)) :
    (evalPchipJS (mkModel xs ys ms x0 x1) [] x).1 = some (ys.getD k 0) := by
  have hkn : k < xs.length := by omega
  rw [← evalPchipJS_knot_aux xs ys ms x0 x1 hs hy hm k hkn hr]
  by_cases h2 : 2 ≤ xs.length
  · rw [evalPchipJS_fresh_two _ _ _ _ _ _ h2, evalPchipJS_fresh_two _ _ _ _ _ _ h2]
    apply pchipValue_congr
    rw [clampQuery_eq hs h2, clampQuery_eq hs h2, hr]
    have hlt : xs.getD 0 0 < xs.getD (xs.length - 1) 0 := sorted_getD_lt hs (by omega) (by omega)
    rcases hx with ⟨hk0, hx⟩ | ⟨hk1, hx⟩
    · subst hk0
      have h1 : round3 x ≤ xs.getD 0 0 := by
        have := round3_mono hx.le
        rwa [hr] at this
      rw [if_pos h1, if_pos (le_refl _)]
    · subst hk1
      have h1 : xs.getD (xs.length - 1) 0 ≤ round3 x := by
        have := round3_mono hx.le
        rwa [hr] at this
      rw [if_neg (not_le.mpr (lt_of_lt_of_le hlt h1)), if_pos h1, if_neg (not_le.mpr hlt),
        if_pos (le_refl _)]
  · have h1 : xs.length = 1 := by omega
    rw [evalPchipJS_fresh_one _ _ _ _ _ _ h1, evalPchipJS_fresh_one _ _ _ _ _ _ h1]

/-- C3 (amended): `evalPchipJS` clamps to the knot range, not to `[min(x0,x1), max(x0,x1)]`.
For a valid model whose first and last knots are multiples of 0.001, a query below the first
knot gets the value `evalPchipJS` gives at the first knot, which is `y[0]`, and a query above
the last knot gets the value at the last knot, which is `y[n-1]`. -/
theorem evalPchipJS_outside_knots (xs ys ms : List ℚ) (x0 x1 : ℚ) (hs : xs.Sorted (· < ·))
    (hn : 1 ≤ xs.length) (hy : ys.length = xs.length) (hm : ms.length = xs.length)
    (hfirst : ∃ z : ℤ, xs.getD 0 0 = (z : ℚ) / 1000)
    (hlast : ∃ z : ℤ, xs.getD (xs.length - 1) 0 = (z : ℚ) / 1000)
    (c c' : PointCache) (hc : CacheReachable (mkModel xs ys ms x0 x1) c)
    (hc' : CacheReachable (mkModel xs ys ms x0 x1) c') (x : ℚ) :
    (x < xs.getD 0 0 →
      (evalPchipJS (mkModel xs ys ms x0 x1) c x).1 =
        (evalPchipJS (mkModel xs ys ms x0 x1) c' (xs.getD 0 0)).1 ∧
      (evalPchipJS (mkModel xs ys ms x0 x1) c x).1 = some (ys.getD 0 0)) ∧
    (xs.getD (xs.length - 1) 0 < x →
      (evalPchipJS (mkModel xs ys ms x0 x1) c x).1 =
        (evalPchipJS (mkModel xs ys ms x0 x1) c' (xs.getD (xs.length - 1) 0)).1 ∧
      (evalPchipJS (mkModel xs ys ms x0 x1) c x).1 = some (ys.getD (xs.length - 1) 0)) := by
  obtain ⟨z0, hz0⟩ := hfirst
  obtain ⟨z1, hz1⟩ := hlast
  have hr0 : round3 (xs.getD 0 0) = xs.getD 0 0 := by rw [hz0]; exact round3_grid z0
  have hr1 : round3 (xs.getD (xs.length - 1) 0) = xs.getD (xs.length - 1) 0 := by
    rw [hz1]; exact round3_grid z1
  rw [evalPchipJS_cache_indep hc, evalPchipJS_cache_indep hc', evalPchipJS_cache_indep hc']
  constructor
  · intro hx
    rw [evalPchipJS_knot_aux xs ys ms x0 x1 hs hy hm 0 (by omega) hr0]
    exact ⟨evalPchipJS_clamp_aux xs ys ms x0 x1 hs hn hy hm 0 (Or.inl rfl) hr0 x
      (Or.inl ⟨rfl, hx⟩), evalPchipJS_clamp_aux xs ys ms x0 x1 hs hn hy hm 0 (Or.inl rfl) hr0 x
      (Or.inl ⟨rfl, hx⟩)⟩
  · intro hx
    rw [evalPchipJS_knot_aux xs ys ms x0 x1 hs hy hm (xs.length - 1) (by omega) hr1]
    exact ⟨evalPchipJS_clamp_aux xs ys ms x0 x1 hs hn hy hm _ (Or.inr rfl) hr1 x
      (Or.inr ⟨rfl, hx⟩), evalPchipJS_clamp_aux xs ys ms x0 x1 hs hn hy hm _ (Or.inr rfl) hr1 x
      (Or.inr ⟨rfl, hx⟩)⟩

/-- C3 (amended) at knots `[0, 10]`: the query `11` lies above the last knot and gets
`y[1] = 10`, the value at the knot `10`. -/
theorem evalPchipJS_outside_knots_witness :
    (evalPchipJS (mkModel [0, 10] [0, 10] [1, 1] 2 8) [] 11).1 =
        (evalPchipJS (mkModel [0, 10] [0, 10] [1, 1] 2 8) [] 10).1 ∧
      (evalPchipJS (mkModel [0, 10] [0, 10] [1, 1] 2 8) [] 11).1 = some 10 :=
  (evalPchipJS_outside_knots [0, 10] [0, 10] [1, 1] 2 8 (by norm_num [List.Sorted]) (by simp)
    rfl rfl ⟨0, by norm_num⟩ ⟨10000, by norm_num⟩ [] [] CacheReachable.fresh
    CacheReachable.fresh 11).2 (by norm_num)

/-- C3 fails as stated. First model: knots `[0, 10]` on the line `y = x`, domain bounds
`x0 = 2`, `x1 = 8`; the query `9` is outside `[2, 8]` but gets `9`, not the value `8` at the
bound. Second model: knots `[0, 0.0004]` with `x0`, `x1` equal to the end knots; the query
`0.0007` is above the domain and gets `1`, while the upper bound `0.0004` itself gets `0`. -/
theorem evalPchipJS_outside_domain_counterexample :
    ((max (2 : ℚ) 8 < 9) ∧
      (evalPchipJS (mkModel [0, 10] [0, 10] [1, 1] 2 8) [] 9).1 = some 9 ∧
      (evalPchipJS (mkModel [0, 10] [0, 10] [1, 1] 2 8) [] (max 2 8)).1 = some 8 ∧
      (evalPchipJS (mkModel [0, 10] [0, 10] [1, 1] 2 8) [] 9).1 ≠
        (evalPchipJS (mkModel [0, 10] [0, 10] [1, 1] 2 8) [] (max 2 8)).1) ∧
    ((max (0 : ℚ) (1 / 2500) < 7 / 10000) ∧
      (evalPchipJS (mkModel [0, 1 / 2500] [0, 1] [0, 0] 0 (1 / 2500)) [] (7 / 10000)).1 = some 1 ∧
      (evalPchipJS (mkModel [0, 1 / 2500] [0, 1] [0, 0] 0 (1 / 2500)) []
        (max 0 (1 / 2500))).1 = some 0 ∧
      (evalPchipJS (mkModel [0, 1 / 2500] [0, 1] [0, 0] 0 (1 / 2500)) [] (7 / 10000)).1 ≠
        (evalPchipJS (mkModel [0, 1 / 2500] [0, 1] [0, 0] 0 (1 / 2500)) []
          (max 0 (1 / 2500))).1) := by
  have r9 : round3 9 = 9 := by unfold round3; norm_num
  have r8 : round3 8 = 8 := by unfold round3; norm_num
  have ra : round3 (7 / 10000) = 1 / 1000 := by unfold round3; norm_num
  have rb : round3 (1 / 2500) = 0 := by unfold round3; norm_num
  have m1 : max (2 : ℚ) 8 = 8 := by norm_num
  have m2 : max (0 : ℚ) (1 / 2500) = 1 / 2500 := by norm_num
  have e1 : (evalPchipJS (mkModel [0, 10] [0, 10] [1, 1] 2 8) [] 9).1 = some 9 := by
    rw [evalPchipJS_two_knots _ _ _ _ _ _ _ _ _ (by norm_num), r9]
    norm_num [hermiteSpec]
  have e2 : (evalPchipJS (mkModel [0, 10] [0, 10] [1, 1] 2 8) [] (max 2 8)).1 = some 8 := by
    rw [m1, evalPchipJS_two_knots _ _ _ _ _ _ _ _ _ (by norm_num), r8]
    norm_num [hermiteSpec]
  have e3 : (evalPchipJS (mkModel [0, 1 / 2500] [0, 1] [0, 0] 0 (1 / 2500)) []
      (7 / 10000)).1 = some 1 := by
    rw [evalPchipJS_two_knots _ _ _ _ _ _ _ _ _ (by norm_num), ra]
    norm_num [hermiteSpec]
  have e4 : (evalPchipJS (mkModel [0, 1 / 2500] [0, 1] [0, 0] 0 (1 / 2500)) []
      (max 0 (1 / 2500))).1 = some 0 := by
    rw [m2, evalPchipJS_two_knots _ _ _ _ _ _ _ _ _ (by norm_num), rb]
    norm_num [hermiteSpec]
  refine ⟨⟨by norm_num, e1, e2, ?_⟩, ⟨by norm_num, e3, e4, ?_⟩⟩
  · rw [e1, e2]; norm_num
  · rw [e3, e4]; norm_num


/-! ## Theorems: the octave-band aggregator -/

theorem zip_edges_eq {K : Type} (l : List K) (f g : K → K) :
    l.zip ((l.map f).zip (l.map g)) = l.map (fun c => (c, f c, g c)) := by
  induction l with
  | nil => rfl
  | cons a t ih => simp [ih]

theorem zip_bands_eq {K α : Type} (e : α → K) (f g : K → K) :
    ∀ (cs : List K) (vs : List α),
      ((vs.take (min cs.length vs.length)).map e).zip ((cs.map f).zip (cs.map g)) =
        (cs.zip vs).map (fun p => (e p.2, f p.1, g p.1)) := by
  intro cs
  induction cs with
  | nil => intro vs; simp
  | cons a t ih =>
    intro vs
    cases vs with
    | nil => simp
    | cons v vt =>
      have := ih vt
      simp only [List.length_cons, Nat.succ_min_succ, List.take_succ_cons, List.map_cons,
        List.zip_cons_cons, this]

theorem P0_2_pos {K : Type} [LinearOrderedField K] : (0 : K) < P0_2 := by
  unfold P0_2
  positivity

/-- The inner loop adds, to its start value, the energy of the bands lying inside the
coarse band, when every band of positive width is inside it or does not overlap it. -/
theorem foldl_accumulate_clean {K : Type} [LinearOrderedField K] (loC hiC : K) :
    ∀ (bands : List (K × K × K)) (init : K),
      (∀ b ∈ bands, 0 ≤ b.1 ∧ (0 < b.1 → b.2.1 < b.2.2 →
        (loC ≤ b.2.1 ∧ b.2.2 ≤ hiC) ∨ min hiC b.2.2 ≤ max loC b.2.1)) →
      bands.foldl (accumulateBand loC hiC) init =
        init + (bands.map (fun b =>
          if b.2.1 < b.2.2 ∧ loC ≤ b.2.1 ∧ b.2.2 ≤ hiC then b.1 else 0)).sum := by
  intro bands
  induction bands with
  | nil => intro init _; simp
  | cons b t ih =>
    intro init h
    have hb := h b (List.mem_cons_self _ _)
    have ht : ∀ b ∈ t, 0 ≤ b.1 ∧ (0 < b.1 → b.2.1 < b.2.2 →
        (loC ≤ b.2.1 ∧ b.2.2 ≤ hiC) ∨ min hiC b.2.2 ≤ max loC b.2.1) :=
      fun b' hb' => h b' (List.mem_cons_of_mem _ hb')
    rw [List.foldl_cons, ih _ ht, List.map_cons, List.sum_cons, ← add_assoc]
    congr 1
    obtain ⟨E, loF, hiF⟩ := b
    obtain ⟨hE, hcl⟩ := hb
    simp only at hE hcl ⊢
    unfold accumulateBand
    simp only
    by_cases hE0 : E ≤ 0
    · have hEz : E = 0 := le_antisymm hE0 hE
      rw [if_pos hE0, hEz]
      simp
    · rw [if_neg hE0]
      by_cases hw : loF < hiF
      · rw [if_neg (not_not.mpr hw)]
        rcases hcl (lt_of_not_le hE0) hw with ⟨h1, h2⟩ | hdis
        · have hne : hiF - loF ≠ 0 := by linarith
          have hin : loF < hiF ∧ loC ≤ loF ∧ hiF ≤ hiC := ⟨hw, h1, h2⟩
          rw [max_eq_right h1, min_eq_right h2, if_neg (not_le.mpr hw),
            if_neg hne, div_self hne, if_pos one_pos, mul_one]
          simp [hin]
        · have hnot : ¬ (loF < hiF ∧ loC ≤ loF ∧ hiF ≤ hiC) := by
            rintro ⟨_, h1, h2⟩
            rw [max_eq_right h1, min_eq_right h2] at hdis
            exact absurd hw (not_lt.mpr hdis)
          rw [if_pos hdis]
          simp [hnot]
      · have hnot : ¬ (loF < hiF ∧ loC ≤ loF ∧ hiF ≤ hiC) := fun h => hw h.1
        rw [if_pos hw]
        simp [hnot]


theorem zip_fst_snd {α β : Type} (l : List (α × β)) :
    (l.map Prod.fst).zip (l.map Prod.snd) = l := by
  induction l with
  | nil => rfl
  | cons a t ih => simp [ih]

theorem fineEnergy_nonneg {K : Type} [LinearOrderedField K] (M : JsMath K)
    (hnn : ∀ x : K, 0 ≤ M.pow10 x) (v : Option K) : 0 ≤ fineEnergy M v := by
  cases v with
  | none => simp [fineEnergy]
  | some d => exact mul_nonneg P0_2_pos.le (hnn _)

/-- The output of the aggregator, as a list of pairs, for finite resolutions and
non-empty inputs. -/
theorem downsample_pairs {K : Type} [LinearOrderedField K] [FloorRing K] (M : JsMath K)
    (fineCenters : List K) (fineValuesDb : List (Option K)) (fineN coarseN : K)
    (hK : fineCenters.zip fineValuesDb ≠ []) :
    (downsampleSpectrumBands M fineCenters fineValuesDb (some fineN) (some coarseN)).1.zip
      (downsampleSpectrumBands M fineCenters fineValuesDb (some fineN) (some coarseN)).2 =
    (iecMakeCenters M coarseN 20 20000).filterMap (fun c =>
      if 0 < coarseEnergy (c / iecEdgeRatio M coarseN) (c * iecEdgeRatio M coarseN)
          ((fineCenters.zip fineValuesDb).map (fun p =>
            (fineEnergy M p.2, p.1 / iecEdgeRatio M fineN, p.1 * iecEdgeRatio M fineN)))
      then some (c, 10 * M.log10
        (coarseEnergy (c / iecEdgeRatio M coarseN) (c * iecEdgeRatio M coarseN)
          ((fineCenters.zip fineValuesDb).map (fun p =>
            (fineEnergy M p.2, p.1 / iecEdgeRatio M fineN, p.1 * iecEdgeRatio M fineN)))
          / P0_2))
      else none) := by
  have hKn : min fineCenters.length fineValuesDb.length ≠ 0 := by
    intro h
    apply hK
    rw [← List.length_eq_zero, List.length_zip]
    exact h
  unfold downsampleSpectrumBands
  simp only [hKn, if_false]
  by_cases hcc : (iecMakeCenters M coarseN 20 20000).length = 0
  · have : iecMakeCenters M coarseN 20 20000 = [] := List.length_eq_zero.mp hcc
    simp [this]
  · simp only [hcc, if_false, zip_fst_snd]
    unfold iecBandEdgesFromCenters
    simp only
    rw [zip_edges_eq, zip_bands_eq, List.filterMap_map]
    rfl

/-- Accumulated energy of the coarse band centred at `fc` when every contributing fine
band is inside it or does not overlap it. -/
theorem coarseEnergy_clean {K : Type} [LinearOrderedField K] [FloorRing K] (M : JsMath K)
    (hnn : ∀ x : K, 0 ≤ M.pow10 x)
    (fineCenters : List K) (fineValuesDb : List (Option K)) (fineN lo hi : K)
    (hclean : ∀ p ∈ fineCenters.zip fineValuesDb, p.2 ≠ none →
      finePositiveWidth M fineN p.1 →
      fineInside M fineN lo hi p.1 ∨ fineDisjoint M fineN lo hi p.1) :
    coarseEnergy lo hi ((fineCenters.zip fineValuesDb).map (fun p =>
        (fineEnergy M p.2, p.1 / iecEdgeRatio M fineN, p.1 * iecEdgeRatio M fineN))) =
      containedEnergySpec M fineCenters fineValuesDb fineN lo hi := by
  unfold coarseEnergy
  rw [foldl_accumulate_clean, zero_add]
  · unfold containedEnergySpec
    rw [List.map_map]
    congr 1
    apply List.map_congr_left
    intro p _
    rcases p with ⟨c, _ | d⟩
    · simp [fineEnergy]
    · simp [fineEnergy, energySpec, P0_2]
  · intro b hb
    rw [List.mem_map] at hb
    obtain ⟨p, hp, rfl⟩ := hb
    refine ⟨fineEnergy_nonneg M hnn _, ?_⟩
    intro hE hw
    have hne : p.2 ≠ none := by
      intro h
      rw [h] at hE
      simp [fineEnergy] at hE
    exact hclean p hp hne hw

/-- C4: energy conservation of `downsampleSpectrumBands` in exact arithmetic, with
`Math.pow(10, ·)` positive and a right inverse of `Math.log10` on positive numbers. For a
coarse centre `fc` such that every fine band of finite level and positive width is entirely
inside the coarse band `[fc/g, fc*g]` or does not overlap it, and at least one is inside,
the band is emitted and its level `L` satisfies
`pRef^2 * 10^(L/10) = sum of pRef^2 * 10^(dB_i/10)` over the contained fine bands. -/
theorem downsample_energy_conservation {K : Type} [LinearOrderedField K] [FloorRing K]
    (M : JsMath K) (hinv : ∀ z : K, 0 < z → M.pow10 (M.log10 z) = z)
    (hpos : ∀ x : K, 0 < M.pow10 x)
    (fineCenters : List K) (fineValuesDb : List (Option K)) (fineN coarseN fc : K)
    (hfc : fc ∈ iecMakeCenters M coarseN 20 20000)
    (hclean : ∀ p ∈ fineCenters.zip fineValuesDb, p.2 ≠ none →
      finePositiveWidth M fineN p.1 →
      fineInside M fineN (fc / iecEdgeRatio M coarseN) (fc * iecEdgeRatio M coarseN) p.1 ∨
      fineDisjoint M fineN (fc / iecEdgeRatio M coarseN) (fc * iecEdgeRatio M coarseN) p.1)
    (hsome : ∃ p ∈ fineCenters.zip fineValuesDb, p.2 ≠ none ∧
      finePositiveWidth M fineN p.1 ∧
      fineInside M fineN (fc / iecEdgeRatio M coarseN) (fc * iecEdgeRatio M coarseN) p.1) :
    (∃ L : K, (fc, L) ∈
      (downsampleSpectrumBands M fineCenters fineValuesDb (some fineN) (some coarseN)).1.zip
      (downsampleSpectrumBands M fineCenters fineValuesDb (some fineN) (some coarseN)).2) ∧
    ∀ L : K, (fc, L) ∈
      (downsampleSpectrumBands M fineCenters fineValuesDb (some fineN) (some coarseN)).1.zip
      (downsampleSpectrumBands M fineCenters fineValuesDb (some fineN) (some coarseN)).2 →
      energySpec M L = containedEnergySpec M fineCenters fineValuesDb fineN
        (fc / iecEdgeRatio M coarseN) (fc * iecEdgeRatio M coarseN) := by
  have hK : fineCenters.zip fineValuesDb ≠ [] := by
    obtain ⟨p, hp, -⟩ := hsome
    exact List.ne_nil_of_mem hp
  have hE := coarseEnergy_clean M (fun x => (hpos x).le) fineCenters fineValuesDb fineN
    (fc / iecEdgeRatio M coarseN) (fc * iecEdgeRatio M coarseN) hclean
  have hEpos : 0 < containedEnergySpec M fineCenters fineValuesDb fineN
      (fc / iecEdgeRatio M coarseN) (fc * iecEdgeRatio M coarseN) := by
    obtain ⟨p, hp, hne, hw, hin⟩ := hsome
    obtain ⟨c, v⟩ := p
    obtain ⟨d, rfl⟩ := Option.ne_none_iff_exists'.mp hne
    unfold containedEnergySpec
    have hterm : 0 < energySpec M d := mul_pos (by positivity) (hpos _)
    refine lt_of_lt_of_le hterm ?_
    apply List.single_le_sum
    · intro x hx
      rw [List.mem_map] at hx
      obtain ⟨q, -, rfl⟩ := hx
      rcases q with ⟨c', _ | d'⟩
      · simp
      · simp only
        split_ifs
        · exact mul_nonneg (by positivity) (hpos _).le
        · exact le_refl _
    · rw [List.mem_map]
      refine ⟨(c, some d), hp, ?_⟩
      simp only
      rw [if_pos ⟨hw, hin.1, hin.2⟩]
  rw [downsample_pairs M fineCenters fineValuesDb fineN coarseN hK]
  constructor
  · refine ⟨10 * M.log10 (containedEnergySpec M fineCenters fineValuesDb fineN
      (fc / iecEdgeRatio M coarseN) (fc * iecEdgeRatio M coarseN) / P0_2), ?_⟩
    rw [List.mem_filterMap]
    refine ⟨fc, hfc, ?_⟩
    rw [hE, if_pos hEpos]
  · intro L hL
    rw [List.mem_filterMap] at hL
    obtain ⟨c, -, hc⟩ := hL
    split_ifs at hc with h0
    · injection hc with hc
      injection hc with hc1 hc2
      subst hc1
      rw [hE] at hc2
      rw [← hc2]
      unfold energySpec
      have h10 : (10 : K) * M.log10 (containedEnergySpec M fineCenters fineValuesDb fineN
          (c / iecEdgeRatio M coarseN) (c * iecEdgeRatio M coarseN) / P0_2) / 10 =
          M.log10 (containedEnergySpec M fineCenters fineValuesDb fineN
          (c / iecEdgeRatio M coarseN) (c * iecEdgeRatio M coarseN) / P0_2) := by
        field_simp
      rw [h10, hinv _ (div_pos hEpos P0_2_pos)]
      have hP : (P0_2 : K) = (20 / 10 ^ 6) ^ 2 := rfl
      rw [← hP]
      field_simp [P0_2_pos.ne']

theorem realMath_inv (z : ℝ) (hz : 0 < z) : realMath.pow10 (realMath.log10 z) = z :=
  Real.rpow_logb (by norm_num) (by norm_num) hz

theorem realMath_pos (x : ℝ) : 0 < realMath.pow10 x :=
  Real.rpow_pos_of_pos (by norm_num) x

theorem realMath_pow10_lt {a b : ℝ} (h : a < b) : realMath.pow10 a < realMath.pow10 b :=
  Real.rpow_lt_rpow_of_exponent_lt (by norm_num) h

theorem realMath_pow10_zero : realMath.pow10 0 = 1 := Real.rpow_zero 10

theorem bpd_three : iecBandsPerDecadeFromNpo (3 : ℝ) = 10 := by
  unfold iecBandsPerDecadeFromNpo
  rw [Int.floor_eq_iff]
  norm_num

theorem bpd_fortyeight : iecBandsPerDecadeFromNpo (48 : ℝ) = 160 := by
  unfold iecBandsPerDecadeFromNpo
  rw [Int.floor_eq_iff]
  norm_num

/-- Scanning on from an exact hit never changes the best index. -/
theorem nearest_foldl_exact {K : Type} [LinearOrderedField K] (mans : List K) (m : K)
    (js : List Nat) (i : Nat) :
    js.foldl (nearestStep mans m) (i, some 0) = (i, some 0) := by
  induction js with
  | nil => rfl
  | cons j t ih =>
    rw [List.foldl_cons]
    have : nearestStep mans m (i, some 0) j = (i, some 0) := by
      unfold nearestStep
      simp only
      rw [if_neg (not_lt.mpr (abs_nonneg _))]
    rw [this]
    exact ih

/-- A mantissa equal to the first table entry snaps to index 0. -/
theorem nearestIndex_first {K : Type} [LinearOrderedField K] (a : K) (t : List K) :
    nearestIndex (a :: t) a = 0 := by
  unfold nearestIndex
  rw [List.length_cons, List.range_succ_eq_map, List.foldl_cons]
  have : nearestStep (a :: t) a (0, none) 0 = (0, some 0) := by
    simp [nearestStep]
  rw [this, nearest_foldl_exact]

theorem thousand_mem_centers : (1000 : ℝ) ∈ iecMakeCenters realMath 3 20 20000 := by
  have hlog20 : Real.logb 10 20 ≤ 3 := by
    rw [Real.logb_le_iff_le_rpow (by norm_num) (by norm_num)]
    norm_num
  have hlog20000 : (3 : ℝ) ≤ Real.logb 10 20000 := by
    rw [Real.le_logb_iff_rpow_le (by norm_num) (by norm_num)]
    norm_num
  have hmin : max (20 : ℝ) (1 / 10 ^ 12) = 20 := by norm_num
  have hmax : max (20000 : ℝ) (1 / 10 ^ 12) = 20000 := by norm_num
  have hkMin : ⌈((10 : Int) : ℝ) * realMath.log10 20⌉ ≤ 30 := by
    rw [Int.ceil_le]
    have : realMath.log10 20 = Real.logb 10 20 := rfl
    rw [this]
    push_cast
    linarith
  have hkMax : 30 ≤ ⌊((10 : Int) : ℝ) * realMath.log10 20000⌋ := by
    rw [Int.le_floor]
    have : realMath.log10 20000 = Real.logb 10 20000 := rfl
    rw [this]
    push_cast
    linarith
  have hp : realMath.pow10 (((30 : Int) : ℝ) / ((10 : Int) : ℝ)) = 1000 := by
    show (10 : ℝ) ^ (((30 : Int) : ℝ) / ((10 : Int) : ℝ)) = 1000
    have : (((30 : Int) : ℝ) / ((10 : Int) : ℝ)) = ((3 : ℕ) : ℝ) := by norm_num
    rw [this, Real.rpow_natCast]
    norm_num
  have he : ⌊realMath.log10 1000⌋ = 3 := by
    have : realMath.log10 1000 = ((3 : Int) : ℝ) := by
      show Real.logb 10 1000 = ((3 : Int) : ℝ)
      have h : (1000 : ℝ) = 10 ^ ((3 : ℕ) : ℝ) := by rw [Real.rpow_natCast]; norm_num
      rw [h, Real.logb_rpow (by norm_num) (by norm_num)]
      norm_num
    rw [this, Int.floor_intCast]
  have hp3 : realMath.pow10 ((3 : Int) : ℝ) = 1000 := by
    show (10 : ℝ) ^ (((3 : Int) : ℝ)) = 1000
    have : (((3 : Int) : ℝ)) = ((3 : ℕ) : ℝ) := by norm_num
    rw [this, Real.rpow_natCast]
    norm_num
  have hr6 : round6 (1000 : ℝ) = 1000 := by
    unfold round6
    have : ⌊(1000 : ℝ) * 10 ^ 6 + 1 / 2⌋ = 1000000000 := by
      rw [Int.floor_eq_iff]
      norm_num
    rw [this]
    norm_num
  unfold iecMakeCenters
  simp only [bpd_three, hmin, hmax]
  rw [if_neg (not_lt.mpr (le_trans hkMin hkMax))]
  rw [List.mem_filter]
  refine ⟨?_, by norm_num⟩
  unfold iecSnapToRenard
  have htab : IEC_RENARD_MANTISSAS (K := ℝ) 10 = some [100 / 100, 125 / 100, 160 / 100,
      200 / 100, 250 / 100, 315 / 100, 400 / 100, 500 / 100, 630 / 100, 800 / 100] := by
    simp [IEC_RENARD_MANTISSAS]
  simp only [htab]
  rw [if_neg (by simp)]
  rw [(List.perm_insertionSort _ _).mem_iff, List.mem_dedup, List.mem_map]
  refine ⟨1000, ?_, hr6⟩
  rw [List.mem_filterMap]
  refine ⟨1000, ?_, ?_⟩
  · rw [List.mem_map]
    refine ⟨(30 : Int), ?_, hp⟩

    rw [List.mem_map]
    refine ⟨(30 - ⌈((10 : Int) : ℝ) * realMath.log10 20⌉).toNat, ?_, ?_⟩
    · rw [List.mem_range]
      omega
    · omega
  · rw [if_pos (by norm_num)]
    simp only [he, hp3]
    have hm : (1000 : ℝ) / 1000 = 100 / 100 := by norm_num
    rw [hm, nearestIndex_first]
    simp

theorem edgeRatio_fine_gt_one : 1 < iecEdgeRatio realMath 48 := by
  unfold iecEdgeRatio
  rw [bpd_fortyeight]
  have h := @realMath_pow10_lt 0 (1 / (2 * ((160 : Int) : ℝ))) (by norm_num)
  rwa [realMath_pow10_zero] at h

theorem edgeRatio_fine_lt_coarse : iecEdgeRatio realMath 48 < iecEdgeRatio realMath 3 := by
  unfold iecEdgeRatio
  rw [bpd_fortyeight, bpd_three]
  exact realMath_pow10_lt (by norm_num)

theorem fine_band_inside_example :
    finePositiveWidth realMath 48 1000 ∧
    fineInside realMath 48 (1000 / iecEdgeRatio realMath 3) (1000 * iecEdgeRatio realMath 3)
      1000 := by
  have h1 := edgeRatio_fine_gt_one
  have h2 := edgeRatio_fine_lt_coarse
  have h0 : (0 : ℝ) < iecEdgeRatio realMath 48 := by linarith
  refine ⟨?_, ?_, ?_⟩
  · unfold finePositiveWidth
    have ha : 1000 / iecEdgeRatio realMath 48 < 1000 := by
      rw [div_lt_iff₀ h0]
      nlinarith
    have hb : (1000 : ℝ) < 1000 * iecEdgeRatio realMath 48 := by nlinarith
    linarith
  · exact div_le_div_of_nonneg_left (by norm_num) h0 h2.le
  · nlinarith

/-- C4 at the 1/48-octave band centred at 1000 Hz with level 30 dB, aggregated to
1/3 octave over the reals: the coarse band at 1000 Hz is emitted with the energy of that
fine band. -/
theorem downsample_energy_conservation_witness :
    (∃ L : ℝ, ((1000 : ℝ), L) ∈
      (downsampleSpectrumBands realMath [1000] [some 30] (some 48) (some 3)).1.zip
      (downsampleSpectrumBands realMath [1000] [some 30] (some 48) (some 3)).2) ∧
    ∀ L : ℝ, ((1000 : ℝ), L) ∈
      (downsampleSpectrumBands realMath [1000] [some 30] (some 48) (some 3)).1.zip
      (downsampleSpectrumBands realMath [1000] [some 30] (some 48) (some 3)).2 →
      energySpec realMath L = containedEnergySpec realMath [1000] [some 30] 48
        (1000 / iecEdgeRatio realMath 3) (1000 * iecEdgeRatio realMath 3) :=
  downsample_energy_conservation realMath realMath_inv realMath_pos [1000] [some 30] 48 3 1000
    thousand_mem_centers
    (by
      intro p hp _ _
      simp only [List.zip_cons_cons, List.zip_nil_right, List.mem_singleton] at hp
      rw [hp]
      exact Or.inl fine_band_inside_example.2)
    ⟨(1000, some 30), by simp, by simp, fine_band_inside_example.1, fine_band_inside_example.2⟩


/-! ## Theorems: the fetch coalescer -/

theorem mem_foldl_jsSet (k : Key) (l : List Key) :
    ∀ acc : List Key,
      k ∈ l.foldl (fun acc k => if k ∈ acc then acc else acc ++ [k]) acc ↔ k ∈ acc ∨ k ∈ l := by
  induction l with
  | nil => intro acc; simp
  | cons a t ih =>
    intro acc
    rw [List.foldl_cons, ih]
    by_cases h : a ∈ acc
    · rw [if_pos h]
      constructor
      · rintro (h1 | h1)
        · exact Or.inl h1
        · exact Or.inr (List.mem_cons_of_mem _ h1)
      · rintro (h1 | h1)
        · exact Or.inl h1
        · rcases List.mem_cons.mp h1 with h2 | h2
          · exact Or.inl (h2 ▸ h)
          · exact Or.inr h2
    · rw [if_neg h]
      simp only [List.mem_append, List.mem_singleton, List.mem_cons]
      tauto

theorem mem_jsSetOf (k : Key) (l : List Key) : k ∈ jsSetOf l ↔ k ∈ l := by
  unfold jsSetOf
  rw [mem_foldl_jsSet]
  simp

theorem mem_toKeySet (k : Key) (arr : List Key) :
    k ∈ toKeySet arr ↔ k ∈ arr ∧ isIntegerPair k = true := by
  unfold toKeySet
  rw [mem_jsSetOf, List.mem_filter]

theorem wantedOf_integer (sList : List Series) (k : Key) (h : k ∈ wantedOf sList) :
    isIntegerPair k = true := by
  unfold wantedOf at h
  rw [mem_jsSetOf, List.mem_map] at h
  obtain ⟨s, hs, rfl⟩ := h
  rw [List.mem_filter] at hs
  exact hs.2

/-- The three ways a call of `requestAndRenderSpectrum` can go: render from the cache,
queue a rerun behind the fetch in flight, or issue a fetch. -/
theorem requestAndRenderSpectrum_cases {μ : Type} (s : SpecState μ) (sList : List Series)
    (forceFull : Bool) :
    ((∀ k ∈ wantedOf sList, cacheHas s.spectrumModelCache k = true) ∧
      (requestAndRenderSpectrum s sList forceFull).2.2 = none ∧
      (requestAndRenderSpectrum s sList forceFull).2.1 =
        [Effect.loading false, Effect.build forceFull] ∧
      (requestAndRenderSpectrum s sList forceFull).1.specFetchInFlight = s.specFetchInFlight ∧
      (requestAndRenderSpectrum s sList forceFull).1.specRerunQueued = s.specRerunQueued ∧
      (requestAndRenderSpectrum s sList forceFull).1.pendingKeys = [] ∧
      (requestAndRenderSpectrum s sList forceFull).1.spectrumModelCache = s.spectrumModelCache ∧
      (requestAndRenderSpectrum s sList forceFull).1.specTimers = s.specTimers) ∨
    ((∃ k ∈ wantedOf sList, cacheHas s.spectrumModelCache k = false) ∧
      s.specFetchInFlight = true ∧
      (requestAndRenderSpectrum s sList forceFull).2.2 = none ∧
      (requestAndRenderSpectrum s sList forceFull).2.1 = [Effect.build true] ∧
      (requestAndRenderSpectrum s sList forceFull).1 =
        { s with lastWantedHash := some (wantedHashOf (wantedOf sList)),
                 specRerunQueued := true }) ∨
    ((∃ k ∈ wantedOf sList, cacheHas s.spectrumModelCache k = false) ∧
      s.specFetchInFlight = false ∧
      (requestAndRenderSpectrum s sList forceFull).2.2 = some ⟨wantedOf sList, forceFull,
        if 0 < s.pendingKeys.length then s.pendingKeys.filter isIntegerPair
        else wantedOf sList⟩ ∧
      (requestAndRenderSpectrum s sList forceFull).2.1 =
        (if (if 0 < s.pendingKeys.length then s.pendingKeys.filter isIntegerPair
            else wantedOf sList).length = 0 then []
          else [Effect.fetch (if 0 < s.pendingKeys.length then s.pendingKeys.filter isIntegerPair
            else wantedOf sList)]) ∧
      (requestAndRenderSpectrum s sList forceFull).1 =
        { s with lastWantedHash := some (wantedHashOf (wantedOf sList)),
                 specFetchInFlight := true }) := by
  unfold requestAndRenderSpectrum
  by_cases h0 : sList.length = 0
  · left
    have hs : sList = [] := List.length_eq_zero.mp h0
    subst hs
    simp [renderFromCache, wantedOf, jsSetOf]
  · rw [if_neg h0]
    simp only
    by_cases h1 : (wantedOf sList).length = 0
    · left
      have hw : wantedOf sList = [] := List.length_eq_zero.mp h1
      simp [renderFromCache, hw]
    · rw [if_neg h1]
      by_cases hall : (wantedOf sList).all (fun k => cacheHas s.spectrumModelCache k) = true
      · left
        have hall' : ∀ k ∈ wantedOf sList, cacheHas s.spectrumModelCache k = true := by
          simpa [List.all_eq_true] using hall
        refine ⟨hall', ?_⟩
        by_cases hh : s.lastWantedHash = some (wantedHashOf (wantedOf sList))
        · rw [if_pos ⟨hh, hall⟩]
          simp [renderFromCache]
        · rw [if_neg (fun h => hh h.1), if_pos hall]
          simp [renderFromCache]
      · right
        have hex : ∃ k ∈ wantedOf sList, cacheHas s.spectrumModelCache k = false := by
          simpa [List.all_eq_true] using hall
        rw [if_neg (fun h => hall h.2), if_neg hall]
        by_cases hfl : s.specFetchInFlight = true
        · left
          refine ⟨hex, hfl, ?_⟩
          simp [hfl]
        · right
          have hfl' : s.specFetchInFlight = false := by simpa using hfl
          refine ⟨hex, hfl', ?_⟩
          simp [hfl']

theorem finallyBlock_fields {μ : Type} (s : SpecState μ) :
    (finallyBlock s).1.specFetchInFlight = false ∧
    (finallyBlock s).1.pendingKeys = s.pendingKeys ∧
    (finallyBlock s).1.missingKeys = s.missingKeys ∧
    (finallyBlock s).1.spectrumModelCache = s.spectrumModelCache ∧
    (finallyBlock s).1.specTimers = s.specTimers ∧
    (finallyBlock s).1.specEpoch = s.specEpoch := by
  unfold finallyBlock
  simp only
  split_ifs <;> simp

theorem tryBody_pending {μ : Type} (s : SpecState μ) (call : Suspended)
    (outcome : FetchOutcome μ) (k : Key) (hk : k ∈ (tryBody s call outcome).1.pendingKeys) :
    k ∈ s.pendingKeys ∨ k ∈ call.wantedArr := by
  unfold tryBody at hk
  cases hf : fetchSpectrumModelsForPairs s.spectrumModelCache call.pairsToRequest outcome with
  | none =>
    rw [hf] at hk
    exact Or.inl hk
  | some p =>
    obtain ⟨cache, res⟩ := p
    rw [hf] at hk
    simp only at hk
    right
    split_ifs at hk
    · simp only [specSetTimeout] at hk
      rw [mem_jsSetOf, List.mem_filter] at hk
      exact hk.1
    · simp only at hk
      rw [mem_jsSetOf, List.mem_filter] at hk
      exact hk.1

/-- A call keeps the invariant. -/
theorem inv_call {μ : Type} (st : SpecState μ) (aw : List Suspended) (sList : List Series)
    (forceFull : Bool) (h : Inv (⟨st, aw⟩ : System μ)) :
    Inv (⟨(requestAndRenderSpectrum st sList forceFull).1,
      aw ++ (requestAndRenderSpectrum st sList forceFull).2.2.toList⟩ : System μ) := by
  obtain ⟨hsf, hpk, hwk⟩ := h
  simp only at hsf hpk hwk
  rcases requestAndRenderSpectrum_cases st sList forceFull with
    ⟨-, h2, -, h4, -, h6, -, -⟩ | ⟨-, hfl, h2, -, h5⟩ | ⟨-, hfl, h2, -, h5⟩
  · refine ⟨?_, ?_, ?_⟩
    · simp only [h2, h4, Option.toList, List.append_nil]
      exact hsf
    · simp only [h6]
      intro k hk
      simp at hk
    · simp only [h2, Option.toList, List.append_nil]
      exact hwk
  · refine ⟨?_, ?_, ?_⟩
    · simp only [h2, h5, Option.toList, List.append_nil]
      exact hsf
    · simp only [h5]
      exact hpk
    · simp only [h2, Option.toList, List.append_nil]
      exact hwk
  · have haw : aw = [] := by
      rcases hsf with ⟨-, h⟩ | ⟨h, -⟩
      · exact h
      · rw [hfl] at h; exact absurd h (by simp)
    subst haw
    refine ⟨?_, ?_, ?_⟩
    · right
      simp only [h2, h5, Option.toList, List.nil_append]
      exact ⟨trivial, _, rfl⟩
    · simp only [h5]
      exact hpk
    · simp only [h2, Option.toList, List.nil_append, List.mem_singleton]
      intro c hc k hk
      rw [hc] at hk
      exact wantedOf_integer sList k hk

theorem fireTimer_cases {μ : Type} (s : SpecState μ) (t : SpecTimer) (sList : List Series) :
    fireTimer s t sList = requestAndRenderSpectrum (removeTimer s t.id) sList false ∨
    fireTimer s t sList = (removeTimer s t.id, [], none) := by
  unfold fireTimer
  simp only
  by_cases h1 : t.myEpoch = (removeTimer s t.id).specEpoch
  · rw [if_pos h1]
    cases t.kind with
    | retry =>
      simp only
      by_cases h2 : (removeTimer s t.id).spectrumEnabled = true
      · rw [if_pos h2]; exact Or.inl rfl
      · rw [if_neg h2]; exact Or.inr rfl
    | cleanup => exact Or.inr rfl
  · rw [if_neg h1]; exact Or.inr rfl

/-- Every step keeps the invariant. -/
theorem inv_step {μ : Type} (sys : System μ) (ev : Event μ) (h : Inv sys) :
    Inv (sys.step ev).1 := by
  cases ev with
  | call sList forceFull =>
    exact inv_call sys.st sys.awaiting sList forceFull h
  | settle i outcome =>
    unfold System.step
    simp only
    cases hg : sys.awaiting.get? i with
    | none => exact h
    | some call =>
      simp only
      obtain ⟨hsf, hpk, hwk⟩ := h
      have hmem : call ∈ sys.awaiting := List.get?_mem hg
      rcases hsf with ⟨-, haw⟩ | ⟨-, c, haw⟩
      · rw [haw] at hmem; simp at hmem
      · have hi : i = 0 := by
          rw [haw] at hg
          cases i with
          | zero => rfl
          | succ n => simp at hg
        subst hi
        have hfin := finallyBlock_fields (tryBody sys.st call outcome).1
        refine ⟨?_, ?_, ?_⟩
        · left
          refine ⟨hfin.1, ?_⟩
          simp [haw]
        · intro k hk
          simp only [resumeAfterFetch] at hk
          rw [hfin.2.1] at hk
          rcases tryBody_pending sys.st call outcome k hk with h1 | h1
          · exact hpk k h1
          · exact hwk call hmem k h1
        · simp [haw]
  | setEnabledFlag b => exact h
  | bumpEpoch => exact h
  | fire id sList =>
    unfold System.step
    simp only
    cases hg : sys.st.specTimers.find? (fun t => decide (t.id = id)) with
    | none => exact h
    | some t =>
      simp only
      have h1 : Inv (⟨removeTimer sys.st t.id, sys.awaiting⟩ : System μ) := h
      rcases fireTimer_cases sys.st t sList with hc | hc
      · rw [hc]
        exact inv_call _ _ sList false h1
      · rw [hc]
        simpa using h1

theorem inv_of_reachable {μ : Type} {sys : System μ} (h : Reachable sys) : Inv sys := by
  induction h with
  | init =>
    refine ⟨Or.inl ⟨rfl, rfl⟩, ?_, ?_⟩
    · intro k hk; simp [System.initial, SpecState.initial] at hk
    · intro c hc; simp [System.initial] at hc
  | step sys ev _ ih => exact inv_step sys ev ih

theorem reachable_run {μ : Type} (evs : List (Event μ)) :
    ∀ sys : System μ, Reachable sys → Reachable (sys.run evs).1 := by
  unfold System.run
  suffices h : ∀ (sys : System μ) (acc : List Effect), Reachable sys →
      Reachable (evs.foldl (fun acc ev => ((acc.1.step ev).1, acc.2 ++ (acc.1.step ev).2))
        (sys, acc)).1 from fun sys hs => h sys [] hs
  induction evs with
  | nil => intro sys acc hs; exact hs
  | cons ev t ih =>
    intro sys acc hs
    rw [List.foldl_cons]
    exact ih _ _ (Reachable.step sys ev hs)

/-- C5 (amended): in a reachable system with no fetch in flight, `requestAndRenderSpectrum`
issues no fetch when every wanted key is cached, and otherwise issues exactly one batched
fetch, which is its only request to the surroundings: for all the wanted pairs when the
pending set is empty, for exactly the pending pairs when it is not. -/
theorem coalescer_fetch_request {μ : Type} (sys : System μ) (hr : Reachable sys)
    (hfl : sys.st.specFetchInFlight = false) (sList : List Series) (forceFull : Bool) :
    ((∀ k ∈ wantedOf sList, cacheHas sys.st.spectrumModelCache k = true) →
      ∀ pairs, Effect.fetch pairs ∉ (requestAndRenderSpectrum sys.st sList forceFull).2.1) ∧
    ((∃ k ∈ wantedOf sList, cacheHas sys.st.spectrumModelCache k = false) →
      (requestAndRenderSpectrum sys.st sList forceFull).2.1 =
        [Effect.fetch (if 0 < sys.st.pendingKeys.length then sys.st.pendingKeys
          else wantedOf sList)]) := by
  obtain ⟨-, hpk, -⟩ := inv_of_reachable hr
  have hfilter : sys.st.pendingKeys.filter isIntegerPair = sys.st.pendingKeys :=
    List.filter_eq_self.mpr hpk
  rcases requestAndRenderSpectrum_cases sys.st sList forceFull with
    ⟨hall, -, h3, -⟩ | ⟨-, hfl', -⟩ | ⟨hex, -, -, h4, -⟩
  · constructor
    · intro _ pairs hmem
      rw [h3] at hmem
      simp at hmem
    · rintro ⟨k, hk, hc⟩
      rw [hall k hk] at hc
      exact absurd hc (by simp)
  · rw [hfl] at hfl'
    exact absurd hfl' (by simp)
  · constructor
    · intro hall
      obtain ⟨k, hk, hc⟩ := hex
      rw [hall k hk] at hc
      exact absurd hc (by simp)
    · intro _
      rw [h4, hfilter]
      have hne : (if 0 < sys.st.pendingKeys.length then sys.st.pendingKeys
          else wantedOf sList).length ≠ 0 := by
        split_ifs with hp
        · omega
        · obtain ⟨k, hk, -⟩ := hex
          intro h0
          rw [List.length_eq_zero] at h0
          rw [h0] at hk
          simp at hk
      rw [if_neg hne]

/-- C5 (amended) on the specification's example: with `1_1` cached and the pending set
empty, the call for the wanted set `{1_1, 1_2}` issues the single request `[1_1, 1_2]`. -/
theorem coalescer_fetch_request_witness :
    (requestAndRenderSpectrum systemCachedA.st [seriesA, seriesB] false).2.1 =
      [Effect.fetch (if 0 < systemCachedA.st.pendingKeys.length
        then systemCachedA.st.pendingKeys else wantedOf [seriesA, seriesB])] :=
  (coalescer_fetch_request systemCachedA (reachable_run _ _ Reachable.init) (by decide)
    [seriesA, seriesB] false).2 ⟨keyB, by decide, by decide⟩

/-- C5 fails as stated: after `1_1` has been fetched and cached, with no fetch in flight,
the call for the wanted set `{1_1, 1_2}` requests `[1_1, 1_2]`, not only the uncached
`1_2`. -/
theorem coalescer_fetch_request_counterexample :
    systemCachedA.st.specFetchInFlight = false ∧
    cacheHas systemCachedA.st.spectrumModelCache keyA = true ∧
    cacheHas systemCachedA.st.spectrumModelCache keyB = false ∧
    wantedOf [seriesA, seriesB] = [keyA, keyB] ∧
    (requestAndRenderSpectrum systemCachedA.st [seriesA, seriesB] false).2.1 =
      [Effect.fetch [keyA, keyB]] ∧
    (requestAndRenderSpectrum systemCachedA.st [seriesA, seriesB] false).2.1 ≠
      [Effect.fetch [keyB]] := by
  decide

theorem tryBody_flags {μ : Type} (s : SpecState μ) (call : Suspended)
    (outcome : FetchOutcome μ) :
    (tryBody s call outcome).1.specRerunQueued = s.specRerunQueued ∧
    (tryBody s call outcome).1.spectrumEnabled = s.spectrumEnabled ∧
    (tryBody s call outcome).1.specEpoch = s.specEpoch := by
  unfold tryBody
  cases fetchSpectrumModelsForPairs s.spectrumModelCache call.pairsToRequest outcome with
  | none => exact ⟨rfl, rfl, rfl⟩
  | some p =>
    simp only
    split_ifs <;> exact ⟨rfl, rfl, rfl⟩

/-- C6 (amended): single flight. In every reachable system at most one call is suspended on
a fetch, and one is exactly when the in-flight flag is set. A call made while the flag is set
suspends nothing and issues no fetch; it sets the rerun flag when some wanted key is
uncached and leaves it as it is when all are cached. When the fetch settles the in-flight
flag is cleared and the `finally` block runs after the `try` body: with the rerun flag set
and the spectrum enabled it clears the flag and does exactly one follow-up rebuild,
otherwise it leaves the flag and does nothing. -/
theorem coalescer_single_flight {μ : Type} (sys : System μ) (hr : Reachable sys)
    (sList : List Series) (forceFull : Bool) (call : Suspended) (outcome : FetchOutcome μ) :
    (sys.awaiting.length ≤ 1 ∧
      (sys.st.specFetchInFlight = true ↔ sys.awaiting.length = 1)) ∧
    (sys.st.specFetchInFlight = true →
      (requestAndRenderSpectrum sys.st sList forceFull).2.2 = none ∧
      (∀ pairs, Effect.fetch pairs ∉ (requestAndRenderSpectrum sys.st sList forceFull).2.1) ∧
      ((∃ k ∈ wantedOf sList, cacheHas sys.st.spectrumModelCache k = false) →
        (requestAndRenderSpectrum sys.st sList forceFull).1.specRerunQueued = true) ∧
      ((∀ k ∈ wantedOf sList, cacheHas sys.st.spectrumModelCache k = true) →
        (requestAndRenderSpectrum sys.st sList forceFull).1.specRerunQueued =
          sys.st.specRerunQueued)) ∧
    ((resumeAfterFetch sys.st call outcome).1.specFetchInFlight = false ∧
      (resumeAfterFetch sys.st call outcome).2.1 =
        (tryBody sys.st call outcome).2.1 ++ (finallyBlock (tryBody sys.st call outcome).1).2 ∧
      (sys.st.specRerunQueued = true ∧ sys.st.spectrumEnabled = true →
        (resumeAfterFetch sys.st call outcome).1.specRerunQueued = false ∧
        (finallyBlock (tryBody sys.st call outcome).1).2 = [Effect.build true]) ∧
      (¬ (sys.st.specRerunQueued = true ∧ sys.st.spectrumEnabled = true) →
        (resumeAfterFetch sys.st call outcome).1.specRerunQueued = sys.st.specRerunQueued ∧
        (finallyBlock (tryBody sys.st call outcome).1).2 = [])) := by
  refine ⟨?_, ?_, ?_⟩
  · obtain ⟨hsf, -, -⟩ := inv_of_reachable hr
    rcases hsf with ⟨h1, h2⟩ | ⟨h1, c, h2⟩
    · rw [h1, h2]; simp
    · rw [h1, h2]; simp
  · intro hfl
    rcases requestAndRenderSpectrum_cases sys.st sList forceFull with
      ⟨hall, h2, h3, -, h5, -⟩ | ⟨hex, -, h2, h3, h5⟩ | ⟨-, hfl', -⟩
    · refine ⟨h2, ?_, ?_, fun _ => h5⟩
      · intro pairs hmem
        rw [h3] at hmem
        simp at hmem
      · rintro ⟨k, hk, hc⟩
        rw [hall k hk] at hc
        exact absurd hc (by simp)
    · refine ⟨h2, ?_, ?_, ?_⟩
      · intro pairs hmem
        rw [h3] at hmem
        simp at hmem
      · intro _
        rw [h5]
      · intro hall
        obtain ⟨k, hk, hc⟩ := hex
        rw [hall k hk] at hc
        exact absurd hc (by simp)
    · rw [hfl] at hfl'
      exact absurd hfl' (by simp)
  · obtain ⟨hq, he, -⟩ := tryBody_flags sys.st call outcome
    refine ⟨(finallyBlock_fields _).1, rfl, ?_, ?_⟩
    · rintro ⟨h1, h2⟩
      simp [resumeAfterFetch, finallyBlock, hq, he, h1, h2]
    · intro hn
      have hb : (sys.st.specRerunQueued && sys.st.spectrumEnabled) = false := by
        cases h1 : sys.st.specRerunQueued <;> cases h2 : sys.st.spectrumEnabled <;> simp_all
      simp [resumeAfterFetch, finallyBlock, hq, he, hb]

/-- C6 (amended) in the system where `1_1` is cached and nothing is in flight. -/
theorem coalescer_single_flight_witness :
    systemCachedA.awaiting.length ≤ 1 ∧
      (systemCachedA.st.specFetchInFlight = true ↔ systemCachedA.awaiting.length = 1) :=
  (coalescer_single_flight systemCachedA (reachable_run _ _ Reachable.init) [seriesA] false
    ⟨[keyA], false, [keyA]⟩ FetchOutcome.failed).1

/-- C6 fails as stated, twice. A call made while a fetch is in flight whose wanted keys are
all cached (`1_1`, while `1_2` is being fetched) does not set the rerun flag. And when a rerun is queued
and the spectrum is switched off before the fetch settles, no follow-up rebuild runs and the
rerun flag stays set. -/
theorem coalescer_single_flight_counterexample :
    ((systemCachedA.run [Event.call [seriesB] false]).1.st.specFetchInFlight = true ∧
      (systemCachedA.run [Event.call [seriesB] false,
        Event.call [seriesA] false]).1.st.specRerunQueued = false) ∧
    (((System.initial Unit).run [Event.setEnabledFlag true, Event.call [seriesA] false,
        Event.call [seriesA] false]).1.st.specRerunQueued = true ∧
      ((System.initial Unit).run [Event.setEnabledFlag true, Event.call [seriesA] false,
        Event.call [seriesA] false, Event.setEnabledFlag false]).1.awaiting.length = 1 ∧
      (((System.initial Unit).run [Event.setEnabledFlag true, Event.call [seriesA] false,
        Event.call [seriesA] false, Event.setEnabledFlag false]).1.step
          (Event.settle 0 (FetchOutcome.ok ⟨[⟨some 1, some 1, some ()⟩], [], []⟩))).2 =
        [Effect.build false, Effect.loading false] ∧
      (((System.initial Unit).run [Event.setEnabledFlag true, Event.call [seriesA] false,
        Event.call [seriesA] false, Event.setEnabledFlag false]).1.step
          (Event.settle 0 (FetchOutcome.ok ⟨[⟨some 1, some 1, some ()⟩], [], []⟩))).1.st.specRerunQueued
        = true) := by
  decide

/-- C7, the code at the failing input: wanted `{1_1, 1_2}`, spectrum enabled. The first
response flags `1_1` missing and leaves `1_2` in preparation; the retry timer requests only
`1_2`; its response flags nothing, and `1_1` is now in the pending set and no longer in the
missing set; the next retry requests `1_1` again. -/
theorem missing_pair_becomes_pending :
    ((System.initial Unit).run [Event.setEnabledFlag true,
      Event.call [seriesA, seriesB] false,
      Event.settle 0 (FetchOutcome.ok ⟨[], [keyA], []⟩)]).1.st.pendingKeys = [keyB] ∧
    ((System.initial Unit).run [Event.setEnabledFlag true,
      Event.call [seriesA, seriesB] false,
      Event.settle 0 (FetchOutcome.ok ⟨[], [keyA], []⟩)]).1.st.missingKeys = [keyA] ∧
    ((System.initial Unit).run [Event.setEnabledFlag true,
      Event.call [seriesA, seriesB] false,
      Event.settle 0 (FetchOutcome.ok ⟨[], [keyA], []⟩),
      Event.fire 1 [seriesA, seriesB],
      Event.settle 0 (FetchOutcome.ok ⟨[], [], []⟩)]).1.st.pendingKeys = [keyA, keyB] ∧
    ((System.initial Unit).run [Event.setEnabledFlag true,
      Event.call [seriesA, seriesB] false,
      Event.settle 0 (FetchOutcome.ok ⟨[], [keyA], []⟩),
      Event.fire 1 [seriesA, seriesB],
      Event.settle 0 (FetchOutcome.ok ⟨[], [], []⟩)]).1.st.missingKeys = [] ∧
    ((System.initial Unit).run [Event.setEnabledFlag true,
      Event.call [seriesA, seriesB] false,
      Event.settle 0 (FetchOutcome.ok ⟨[], [keyA], []⟩),
      Event.fire 1 [seriesA, seriesB],
      Event.settle 0 (FetchOutcome.ok ⟨[], [], []⟩),
      Event.fire 2 [seriesA, seriesB]]).2 =
      [Effect.fetch [keyA, keyB], Effect.build false, Effect.loading true,
        Effect.fetch [keyB], Effect.build false, Effect.loading true,
        Effect.fetch [keyA, keyB]] := by
  decide

/-- C8 (amended): the processing of a fetch response does not read the epoch. Whatever the
epoch has become since the fetch was issued, the response is processed as if it had not
changed: same cache, pending set, missing set, requests to the surroundings and outcome;
the epoch itself is left as it is. -/
theorem response_ignores_epoch {μ : Type} (s : SpecState μ) (call : Suspended)
    (outcome : FetchOutcome μ) (e : Nat) :
    (resumeAfterFetch { s with specEpoch := e } call outcome).1.spectrumModelCache =
      (resumeAfterFetch s call outcome).1.spectrumModelCache ∧
    (resumeAfterFetch { s with specEpoch := e } call outcome).1.pendingKeys =
      (resumeAfterFetch s call outcome).1.pendingKeys ∧
    (resumeAfterFetch { s with specEpoch := e } call outcome).1.missingKeys =
      (resumeAfterFetch s call outcome).1.missingKeys ∧
    (resumeAfterFetch { s with specEpoch := e } call outcome).2 =
      (resumeAfterFetch s call outcome).2 ∧
    (resumeAfterFetch { s with specEpoch := e } call outcome).1.specEpoch = e := by
  unfold resumeAfterFetch tryBody
  simp only
  cases fetchSpectrumModelsForPairs s.spectrumModelCache call.pairsToRequest outcome with
  | none =>
    simp only [finallyBlock]
    split_ifs <;> simp
  | some p =>
    simp only [finallyBlock, specSetTimeout]
    split_ifs <;> simp

/-- C8 fails as stated: the fetch for `{1_1, 1_2, 1_3}` is issued at epoch 0, the epoch is
bumped to 1 while it is in flight, and the response (model for `1_1`, `1_2` missing) still
fills the cache, the missing set and the pending set. -/
theorem stale_response_counterexample :
    ((System.initial Unit).run [Event.call [seriesA, seriesB, seriesC] false]).1.st.specEpoch
      = 0 ∧
    ((System.initial Unit).run [Event.call [seriesA, seriesB, seriesC] false,
      Event.bumpEpoch]).1.st.specEpoch = 1 ∧
    ((System.initial Unit).run [Event.call [seriesA, seriesB, seriesC] false,
      Event.bumpEpoch]).1.st.spectrumModelCache = [] ∧
    ((System.initial Unit).run [Event.call [seriesA, seriesB, seriesC] false,
      Event.bumpEpoch]).1.st.pendingKeys = [] ∧
    ((System.initial Unit).run [Event.call [seriesA, seriesB, seriesC] false,
      Event.bumpEpoch]).1.st.missingKeys = [] ∧
    ((System.initial Unit).run [Event.call [seriesA, seriesB, seriesC] false,
      Event.bumpEpoch,
      Event.settle 0 (FetchOutcome.ok ⟨[⟨some 1, some 1, some ()⟩], [keyB], []⟩)]
      ).1.st.spectrumModelCache = [(keyA, ())] ∧
    ((System.initial Unit).run [Event.call [seriesA, seriesB, seriesC] false,
      Event.bumpEpoch,
      Event.settle 0 (FetchOutcome.ok ⟨[⟨some 1, some 1, some ()⟩], [keyB], []⟩)]
      ).1.st.pendingKeys = [keyC] ∧
    ((System.initial Unit).run [Event.call [seriesA, seriesB, seriesC] false,
      Event.bumpEpoch,
      Event.settle 0 (FetchOutcome.ok ⟨[⟨some 1, some 1, some ()⟩], [keyB], []⟩)]
      ).1.st.missingKeys = [keyB] := by
  decide

/-- C9: after a successful response to a request for at least one pair, the cache is the
old cache with the returned models stored, the pending set is exactly the wanted keys that
are neither in that cache nor flagged missing by the response, and the missing set is
exactly the set the response flags; so every wanted key is cached, missing or pending, and
a pending key is neither cached nor missing. -/
theorem response_partitions_wanted {μ : Type} (s : SpecState μ) (call : Suspended)
    (data : FetchData μ) (hp : call.pairsToRequest ≠ []) :
    (resumeAfterFetch s call (FetchOutcome.ok data)).2.2 = Settled.resolved ∧
    (resumeAfterFetch s call (FetchOutcome.ok data)).1.spectrumModelCache =
      storeModels s.spectrumModelCache data.models ∧
    (∀ k, k ∈ (resumeAfterFetch s call (FetchOutcome.ok data)).1.pendingKeys ↔
      (k ∈ call.wantedArr ∧
        cacheHas (resumeAfterFetch s call (FetchOutcome.ok data)).1.spectrumModelCache k = false ∧
        k ∉ toKeySet data.missing)) ∧
    (∀ k, k ∈ (resumeAfterFetch s call (FetchOutcome.ok data)).1.missingKeys ↔
      k ∈ toKeySet data.missing) ∧
    (∀ k ∈ call.wantedArr,
      cacheHas (resumeAfterFetch s call (FetchOutcome.ok data)).1.spectrumModelCache k = true ∨
      k ∈ (resumeAfterFetch s call (FetchOutcome.ok data)).1.missingKeys ∨
      k ∈ (resumeAfterFetch s call (FetchOutcome.ok data)).1.pendingKeys) ∧
    (∀ k ∈ (resumeAfterFetch s call (FetchOutcome.ok data)).1.pendingKeys,
      cacheHas (resumeAfterFetch s call (FetchOutcome.ok data)).1.spectrumModelCache k = false ∧
      k ∉ (resumeAfterFetch s call (FetchOutcome.ok data)).1.missingKeys) := by
  have hlen : call.pairsToRequest.length ≠ 0 := by
    intro h; exact hp (List.length_eq_zero.mp h)
  have hf : fetchSpectrumModelsForPairs s.spectrumModelCache call.pairsToRequest
      (FetchOutcome.ok data) = some (storeModels s.spectrumModelCache data.models,
        ⟨(data.models.filter (fun item => item.model.isSome)).length,
          toKeySet data.missing, toKeySet data.rebuilding⟩) := by
    unfold fetchSpectrumModelsForPairs
    rw [if_neg hlen]
  have hfin := finallyBlock_fields (tryBody s call (FetchOutcome.ok data)).1
  have hcache : (resumeAfterFetch s call (FetchOutcome.ok data)).1.spectrumModelCache =
      storeModels s.spectrumModelCache data.models := by
    simp only [resumeAfterFetch]
    rw [hfin.2.2.2.1]
    unfold tryBody
    rw [hf]
    simp only
    split_ifs <;> rfl
  have hpend : ∀ k, k ∈ (resumeAfterFetch s call (FetchOutcome.ok data)).1.pendingKeys ↔
      (k ∈ call.wantedArr ∧ cacheHas (storeModels s.spectrumModelCache data.models) k = false ∧
        k ∉ toKeySet data.missing) := by
    intro k
    simp only [resumeAfterFetch]
    rw [hfin.2.1]
    unfold tryBody
    rw [hf]
    simp only
    split_ifs <;> simp [specSetTimeout, mem_jsSetOf, List.mem_filter]
  have hmiss : ∀ k, k ∈ (resumeAfterFetch s call (FetchOutcome.ok data)).1.missingKeys ↔
      k ∈ toKeySet data.missing := by
    intro k
    simp only [resumeAfterFetch]
    rw [hfin.2.2.1]
    unfold tryBody
    rw [hf]
    simp only
    split_ifs <;> simp [specSetTimeout, mem_jsSetOf]
  refine ⟨?_, hcache, ?_, hmiss, ?_, ?_⟩
  · simp only [resumeAfterFetch]
    unfold tryBody
    rw [hf]
  · intro k
    rw [hcache]
    exact hpend k
  · intro k hk
    rw [hcache]
    by_cases h1 : cacheHas (storeModels s.spectrumModelCache data.models) k = true
    · exact Or.inl h1
    · by_cases h2 : k ∈ toKeySet data.missing
      · exact Or.inr (Or.inl ((hmiss k).mpr h2))
      · exact Or.inr (Or.inr ((hpend k).mpr ⟨hk, by simpa using h1, h2⟩))
  · intro k hk
    rw [hcache]
    obtain ⟨-, h1, h2⟩ := (hpend k).mp hk
    exact ⟨h1, fun h => h2 ((hmiss k).mp h)⟩

/-- C9 on a response to the request for `{1_1, 1_2, 1_3}` that brings the model of `1_1`
and flags `1_2` missing. -/
theorem response_partitions_wanted_witness :
    (resumeAfterFetch (SpecState.initial Unit) ⟨[keyA, keyB, keyC], false, [keyA, keyB, keyC]⟩
      (FetchOutcome.ok ⟨[⟨some 1, some 1, some ()⟩], [keyB], []⟩)).2.2 = Settled.resolved :=
  (response_partitions_wanted (SpecState.initial Unit)
    ⟨[keyA, keyB, keyC], false, [keyA, keyB, keyC]⟩
    ⟨[⟨some 1, some 1, some ()⟩], [keyB], []⟩ (by decide)).1

/-- C10: when the fetch awaited by a call fails, the call rejects, the in-flight flag is
cleared, no timer is registered, and the cache, the pending set and the missing set are
left as they were; the part of the call before the `await` had left them, and the timers,
as they were too. -/
theorem fetch_failure_contained {μ : Type} (s s1 : SpecState μ) (sList : List Series)
    (forceFull : Bool) (eff : List Effect) (call : Suspended)
    (hcall : requestAndRenderSpectrum s sList forceFull = (s1, eff, some call))
    (s' : SpecState μ) (outcome : FetchOutcome μ)
    (hfail : fetchSpectrumModelsForPairs s'.spectrumModelCache call.pairsToRequest outcome
      = none) :
    (s1.spectrumModelCache = s.spectrumModelCache ∧ s1.pendingKeys = s.pendingKeys ∧
      s1.missingKeys = s.missingKeys ∧ s1.specTimers = s.specTimers) ∧
    ((resumeAfterFetch s' call outcome).2.2 = Settled.rejected ∧
      (resumeAfterFetch s' call outcome).1.specFetchInFlight = false ∧
      (resumeAfterFetch s' call outcome).1.specTimers = s'.specTimers ∧
      (resumeAfterFetch s' call outcome).1.spectrumModelCache = s'.spectrumModelCache ∧
      (resumeAfterFetch s' call outcome).1.pendingKeys = s'.pendingKeys ∧
      (resumeAfterFetch s' call outcome).1.missingKeys = s'.missingKeys) := by
  constructor
  · rcases requestAndRenderSpectrum_cases s sList forceFull with
      ⟨-, h2, -⟩ | ⟨-, -, h2, -⟩ | ⟨-, -, -, -, h5⟩
    · rw [hcall] at h2; simp at h2
    · rw [hcall] at h2; simp at h2
    · rw [hcall] at h5
      simp only at h5
      rw [h5]
      exact ⟨rfl, rfl, rfl, rfl⟩
  · have htb : tryBody s' call outcome = (s', [], Settled.rejected) := by
      unfold tryBody
      rw [hfail]
    have hfin := finallyBlock_fields s'
    simp only [resumeAfterFetch, htb]
    exact ⟨trivial, hfin.1, hfin.2.2.2.2.1, hfin.2.2.2.1, hfin.2.1, hfin.2.2.1⟩

/-- C10 on the first call for `{1_1}` whose fetch fails. -/
theorem fetch_failure_contained_witness :
    (resumeAfterFetch (requestAndRenderSpectrum (SpecState.initial Unit) [seriesA] false).1
        ⟨[keyA], false, [keyA]⟩ FetchOutcome.failed).2.2 = Settled.rejected ∧
      (resumeAfterFetch (requestAndRenderSpectrum (SpecState.initial Unit) [seriesA] false).1
        ⟨[keyA], false, [keyA]⟩ FetchOutcome.failed).1.specFetchInFlight = false ∧
      (resumeAfterFetch (requestAndRenderSpectrum (SpecState.initial Unit) [seriesA] false).1
        ⟨[keyA], false, [keyA]⟩ FetchOutcome.failed).1.specTimers =
        (requestAndRenderSpectrum (SpecState.initial Unit) [seriesA] false).1.specTimers ∧
      (resumeAfterFetch (requestAndRenderSpectrum (SpecState.initial Unit) [seriesA] false).1
        ⟨[keyA], false, [keyA]⟩ FetchOutcome.failed).1.spectrumModelCache =
        (requestAndRenderSpectrum (SpecState.initial Unit) [seriesA] false).1.spectrumModelCache ∧
      (resumeAfterFetch (requestAndRenderSpectrum (SpecState.initial Unit) [seriesA] false).1
        ⟨[keyA], false, [keyA]⟩ FetchOutcome.failed).1.pendingKeys =
        (requestAndRenderSpectrum (SpecState.initial Unit) [seriesA] false).1.pendingKeys ∧
      (resumeAfterFetch (requestAndRenderSpectrum (SpecState.initial Unit) [seriesA] false).1
        ⟨[keyA], false, [keyA]⟩ FetchOutcome.failed).1.missingKeys =
        (requestAndRenderSpectrum (SpecState.initial Unit) [seriesA] false).1.missingKeys :=
  (fetch_failure_contained (SpecState.initial Unit)
    (requestAndRenderSpectrum (SpecState.initial Unit) [seriesA] false).1 [seriesA] false
    [Effect.fetch [keyA]] ⟨[keyA], false, [keyA]⟩ (by rfl)
    (requestAndRenderSpectrum (SpecState.initial Unit) [seriesA] false).1 FetchOutcome.failed
    (by rfl)).2


/-! ## Theorems: epoch-guarded timers -/


theorem requestAndRenderSpectrum_timers {μ : Type} (s : SpecState μ) (sList : List Series)
    (forceFull : Bool) :
    (requestAndRenderSpectrum s sList forceFull).1.specTimers = s.specTimers ∧
    (requestAndRenderSpectrum s sList forceFull).1.specEpoch = s.specEpoch := by
  unfold requestAndRenderSpectrum
  simp only [renderFromCache]
  split_ifs <;> simp

theorem tryBody_timers {μ : Type} (s : SpecState μ) (call : Suspended)
    (outcome : FetchOutcome μ) :
    (tryBody s call outcome).1.specEpoch = s.specEpoch ∧
    ((tryBody s call outcome).1.specTimers = s.specTimers ∨
      (tryBody s call outcome).1.specTimers =
        s.specTimers ++ [⟨s.nextTimerId, s.specEpoch, TimerKind.retry⟩]) := by
  unfold tryBody
  cases hf : fetchSpectrumModelsForPairs s.spectrumModelCache call.pairsToRequest outcome with
  | none => simp
  | some p =>
    obtain ⟨cache, res⟩ := p
    simp only
    split_ifs
    · simp [specSetTimeout]
    · simp

theorem resumeAfterFetch_timers {μ : Type} (s : SpecState μ) (call : Suspended)
    (outcome : FetchOutcome μ) :
    (resumeAfterFetch s call outcome).1.specEpoch = s.specEpoch ∧
    ((resumeAfterFetch s call outcome).1.specTimers = s.specTimers ∨
      (resumeAfterFetch s call outcome).1.specTimers =
        s.specTimers ++ [⟨s.nextTimerId, s.specEpoch, TimerKind.retry⟩]) := by
  unfold resumeAfterFetch
  simp only
  obtain ⟨-, -, -, -, ht, he⟩ := finallyBlock_fields (tryBody s call outcome).1
  rw [ht, he]
  exact tryBody_timers s call outcome

theorem fireTimer_timers {μ : Type} (s : SpecState μ) (t : SpecTimer) (sList : List Series) :
    (fireTimer s t sList).1.specTimers = (removeTimer s t.id).specTimers ∧
    (fireTimer s t sList).1.specEpoch = s.specEpoch := by
  rcases fireTimer_cases s t sList with h | h
  · rw [h]
    exact requestAndRenderSpectrum_timers _ _ _
  · rw [h]
    exact ⟨rfl, rfl⟩

theorem retryTimers_removeTimer {μ : Type} (s : SpecState μ) (id : Nat) :
    (retryTimers (removeTimer s id)).length ≤ (retryTimers s).length := by
  unfold retryTimers removeTimer
  simp only
  have hc : List.filter (fun t => decide (t.kind = TimerKind.retry))
      (List.filter (fun u => decide (u.id ≠ id)) s.specTimers) =
      List.filter (fun u => decide (u.id ≠ id))
        (List.filter (fun t => decide (t.kind = TimerKind.retry)) s.specTimers) := by
    rw [List.filter_filter, List.filter_filter]
    congr 1
    funext a
    exact Bool.and_comm _ _
  rw [hc]
  exact List.length_filter_le _ _

theorem retryTimers_congr {μ : Type} {s s1 : SpecState μ} (h : s1.specTimers = s.specTimers) :
    retryTimers s1 = retryTimers s := by
  unfold retryTimers
  rw [h]

theorem toggleSpectrumUI_timers {μ : Type} (sys : System μ) (shown hasRoot isFs : Bool)
    (sList : List Series) :
    (retryTimers (toggleSpectrumUI sys shown hasRoot isFs sList).1.st).length ≤
      (retryTimers sys.st).length ∧
    sys.st.specEpoch ≤ (toggleSpectrumUI sys shown hasRoot isFs sList).1.st.specEpoch := by
  unfold toggleSpectrumUI
  simp only
  cases hasRoot with
  | false => simp [retryTimers]
  | true =>
    cases shown with
    | true =>
      simp only [if_true]
      obtain ⟨h1, h2⟩ := requestAndRenderSpectrum_timers
        (specBumpEpochAndClearTimers { sys.st with spectrumEnabled := true }) sList false
      rw [retryTimers_congr h1, h2]
      simp [retryTimers, specBumpEpochAndClearTimers]
    | false =>
      cases isFs <;> simp [retryTimers, specBumpEpochAndClearTimers, specSetTimeout]

theorem setEnabled_timers {μ : Type} (sys : System μ) (enabled hasRoot isFs : Bool)
    (sList : List Series) :
    (retryTimers (setEnabled sys enabled hasRoot isFs sList).1.st).length ≤
      (retryTimers sys.st).length ∧
    sys.st.specEpoch ≤ (setEnabled sys enabled hasRoot isFs sList).1.st.specEpoch := by
  unfold setEnabled
  by_cases h : enabled = sys.st.spectrumEnabled
  · rw [if_pos h]
    cases enabled with
    | true =>
      simp only [if_true]
      obtain ⟨h1, h2⟩ := requestAndRenderSpectrum_timers sys.st sList true
      rw [retryTimers_congr h1, h2]
      exact ⟨le_refl _, le_refl _⟩
    | false => exact ⟨le_refl _, le_refl _⟩
  · rw [if_neg h]
    exact toggleSpectrumUI_timers _ _ _ _ _

theorem coalescerStep_timers {μ : Type} (sys : System μ) (ev : CoalescerEvent μ) :
    (retryTimers (coalescerStep sys ev).1.st).length ≤
      (retryTimers sys.st).length + retryBudget ev ∧
    sys.st.specEpoch ≤ (coalescerStep sys ev).1.st.specEpoch := by
  cases ev with
  | request sList forceFull =>
    obtain ⟨h1, h2⟩ := requestAndRenderSpectrum_timers sys.st sList forceFull
    simp only [coalescerStep, System.step, retryBudget]
    rw [retryTimers_congr h1, h2]
    exact ⟨le_refl _, le_refl _⟩
  | response i outcome =>
    simp only [coalescerStep, System.step, retryBudget]
    cases hg : sys.awaiting.get? i with
    | none => exact ⟨Nat.le_succ _, le_refl _⟩
    | some call =>
      simp only
      obtain ⟨he, ht | ht⟩ := resumeAfterFetch_timers sys.st call outcome
      · rw [retryTimers_congr ht, he]
        exact ⟨Nat.le_succ _, le_refl _⟩
      · rw [he]
        refine ⟨?_, le_refl _⟩
        unfold retryTimers
        rw [ht]
        simp
  | timer id sList =>
    simp only [coalescerStep, System.step, retryBudget]
    cases hf : sys.st.specTimers.find? (fun t => decide (t.id = id)) with
    | none => exact ⟨le_refl _, le_refl _⟩
    | some t =>
      simp only
      obtain ⟨h1, h2⟩ := fireTimer_timers sys.st t sList
      rw [retryTimers_congr h1, h2]
      exact ⟨retryTimers_removeTimer _ _, le_refl _⟩
  | setEnabled enabled hasRoot isFs sList =>
    simp only [coalescerStep, retryBudget]
    exact setEnabled_timers _ _ _ _ _
  | frame myEpoch =>
    simp only [coalescerStep, retryBudget, toggleFrame]
    split_ifs <;> simp [retryTimers, specSetTimeout]

theorem coalescerReachable_run {μ : Type} (evs : List (CoalescerEvent μ)) :
    ∀ sys : System μ, CoalescerReachable sys → CoalescerReachable (coalescerRun sys evs) := by
  unfold coalescerRun
  induction evs with
  | nil => intro sys hs; exact hs
  | cons ev t ih =>
    intro sys hs
    rw [List.foldl_cons]
    exact ih _ (CoalescerReachable.step sys ev hs)


theorem jsSetOf_ne_nil (l : List Key) : jsSetOf l ≠ [] ↔ l ≠ [] := by
  constructor
  · intro h hl
    rw [hl] at h
    exact h rfl
  · intro h hs
    obtain ⟨k, hk⟩ := List.exists_mem_of_ne_nil l h
    have := (mem_jsSetOf k l).mpr hk
    rw [hs] at this
    simp at this
/-- The response path registers the retry timer exactly when it resolves and leaves the
pending set non-empty, after the timers that were there. -/
theorem tryBody_timers_exact {μ : Type} (s : SpecState μ) (call : Suspended)
    (outcome : FetchOutcome μ) :
    (tryBody s call outcome).1.specTimers = s.specTimers ++
      (if (tryBody s call outcome).2.2 = Settled.resolved ∧
          (tryBody s call outcome).1.pendingKeys ≠ []
        then [⟨s.nextTimerId, s.specEpoch, TimerKind.retry⟩] else []) := by
  unfold tryBody
  cases hf : fetchSpectrumModelsForPairs s.spectrumModelCache call.pairsToRequest outcome with
  | none => simp
  | some p =>
    obtain ⟨cache, res⟩ := p
    simp only
    by_cases hp : 0 < (call.wantedArr.filter
        (fun k => !cacheHas cache k && !decide (k ∈ res.missingKeys))).length
    · have hne : call.wantedArr.filter
          (fun k => !cacheHas cache k && !decide (k ∈ res.missingKeys)) ≠ [] := by
        intro h
        rw [h] at hp
        simp at hp
      simp only [hp, decide_True, if_true, specSetTimeout]
      rw [if_pos ⟨trivial, (jsSetOf_ne_nil _).mpr hne⟩]
    · have he : call.wantedArr.filter
          (fun k => !cacheHas cache k && !decide (k ∈ res.missingKeys)) = [] := by
        rw [← List.length_eq_zero]
        omega
      simp only [hp, decide_False, Bool.false_eq_true, if_false]
      rw [if_neg]
      · simp
      · rintro ⟨-, h⟩
        apply h
        rw [he]
        rfl

theorem resumeAfterFetch_timers_exact {μ : Type} (s : SpecState μ) (call : Suspended)
    (outcome : FetchOutcome μ) :
    (resumeAfterFetch s call outcome).1.specTimers = s.specTimers ++
      (if (resumeAfterFetch s call outcome).2.2 = Settled.resolved ∧
          (resumeAfterFetch s call outcome).1.pendingKeys ≠ []
        then [⟨s.nextTimerId, s.specEpoch, TimerKind.retry⟩] else []) := by
  have h := tryBody_timers_exact s call outcome
  obtain ⟨-, hp, -, -, ht, -⟩ := finallyBlock_fields (tryBody s call outcome).1
  unfold resumeAfterFetch
  simp only
  rw [ht, hp]
  exact h

theorem retryTimers_removeTimer_eq {μ : Type} (s : SpecState μ) (id : Nat) :
    retryTimers (removeTimer s id) =
      (retryTimers s).filter (fun u => decide (u.id ≠ id)) := by
  unfold retryTimers removeTimer
  simp only
  rw [List.filter_filter, List.filter_filter]
  congr 1
  funext a
  exact Bool.and_comm _ _

theorem retryTimers_append {μ : Type} (s s1 : SpecState μ) (l : List SpecTimer)
    (h : s1.specTimers = s.specTimers ++ l) :
    retryTimers s1 = retryTimers s ++ l.filter (fun t => decide (t.kind = TimerKind.retry)) := by
  unfold retryTimers
  rw [h, List.filter_append]

theorem toggleSpectrumUI_retry {μ : Type} (sys : System μ) (shown isFs : Bool)
    (sList : List Series) :
    retryTimers (toggleSpectrumUI sys shown true isFs sList).1.st = [] ∧
    (toggleSpectrumUI sys shown true isFs sList).1.st.specEpoch = sys.st.specEpoch + 1 := by
  unfold toggleSpectrumUI
  simp only [if_true]
  cases shown with
  | true =>
    simp only [if_true]
    obtain ⟨h1, h2⟩ := requestAndRenderSpectrum_timers
      (specBumpEpochAndClearTimers { sys.st with spectrumEnabled := true }) sList false
    rw [retryTimers_congr h1, h2]
    simp [retryTimers, specBumpEpochAndClearTimers]
  | false =>
    cases isFs <;> simp [retryTimers, specBumpEpochAndClearTimers, specSetTimeout]

theorem setEnabled_retry {μ : Type} (sys : System μ) (enabled hasRoot isFs : Bool)
    (sList : List Series) :
    ((enabled = sys.st.spectrumEnabled ∨ hasRoot = false) →
      retryTimers (setEnabled sys enabled hasRoot isFs sList).1.st = retryTimers sys.st) ∧
    ((enabled ≠ sys.st.spectrumEnabled ∧ hasRoot = true) →
      retryTimers (setEnabled sys enabled hasRoot isFs sList).1.st = [] ∧
      (setEnabled sys enabled hasRoot isFs sList).1.st.specEpoch = sys.st.specEpoch + 1) := by
  unfold setEnabled
  constructor
  · intro h
    by_cases he : enabled = sys.st.spectrumEnabled
    · rw [if_pos he]
      cases enabled with
      | true =>
        simp only [if_true]
        exact retryTimers_congr (requestAndRenderSpectrum_timers sys.st sList true).1
      | false => rfl
    · rw [if_neg he]
      rcases h with h | h
      · exact absurd h he
      · rw [h]
        unfold toggleSpectrumUI
        simp [retryTimers]
  · rintro ⟨he, hr⟩
    rw [if_neg he, hr]
    exact toggleSpectrumUI_retry _ _ _ _

theorem response_retry {μ : Type} (sys : System μ) (i : Nat) (outcome : FetchOutcome μ)
    (call : Suspended) (h : sys.awaiting.get? i = some call) :
    (coalescerStep sys (CoalescerEvent.response i outcome)).1.st =
      (resumeAfterFetch sys.st call outcome).1 := by
  simp only [coalescerStep, System.step, h]

theorem timer_retry {μ : Type} (sys : System μ) (id : Nat) (sList : List Series) :
    retryTimers (coalescerStep sys (CoalescerEvent.timer id sList)).1.st =
      (retryTimers sys.st).filter (fun u => decide (u.id ≠ id)) := by
  simp only [coalescerStep, System.step]
  cases hf : sys.st.specTimers.find? (fun t => decide (t.id = id)) with
  | none =>
    simp only
    rw [List.find?_eq_none] at hf
    symm
    rw [List.filter_eq_self]
    intro t ht
    have ht1 : t ∈ sys.st.specTimers := (List.mem_filter.mp ht).1
    simpa using hf t ht1
  | some t =>
    simp only
    have hid : t.id = id := by simpa using List.find?_some hf
    rw [retryTimers_congr (fireTimer_timers sys.st t sList).1, retryTimers_removeTimer_eq, hid]

/-- Over a run the retry timers grow by at most the number of responses in it. -/
theorem coalescerRun_retry_bound {μ : Type} (evs : List (CoalescerEvent μ)) :
    ∀ sys : System μ, (retryTimers (coalescerRun sys evs).st).length ≤
      (retryTimers sys.st).length + (evs.map retryBudget).sum := by
  induction evs with
  | nil => intro sys; simp [coalescerRun]
  | cons ev t ih =>
    intro sys
    have h1 := (coalescerStep_timers sys ev).1
    have h2 := ih (coalescerStep sys ev).1
    have hrun : coalescerRun sys (ev :: t) = coalescerRun (coalescerStep sys ev).1 t := rfl
    rw [hrun, List.map_cons, List.sum_cons]
    omega

/-- C11 (amended): how a step of the coalescer changes the outstanding retry timers. A
call of `requestAndRenderSpectrum`, an animation frame and a `setEnabled` that does not
toggle leave them as they are; a fetch response keeps the earlier ones and appends exactly
one when it resolves and leaves the pending set non-empty, none otherwise (so none when the
fetch failed); the firing of timer `id` removes the timer `id` and no other; a `setEnabled`
that toggles bumps the epoch and leaves none. So a retry timer disappears only by its own
firing or by an epoch bump, and their number grows by at most one per step, only on a
response; over a run it is bounded by the number of responses, not by one. -/
theorem retry_timers_per_step {μ : Type} (sys : System μ) (ev : CoalescerEvent μ) :
    (retryTimers (coalescerStep sys ev).1.st).length ≤
      (retryTimers sys.st).length + retryBudget ev ∧
    (∀ evs : List (CoalescerEvent μ), (retryTimers (coalescerRun sys evs).st).length ≤
      (retryTimers sys.st).length + (evs.map retryBudget).sum) ∧
    (∀ sList forceFull,
      retryTimers (coalescerStep sys (CoalescerEvent.request sList forceFull)).1.st =
        retryTimers sys.st) ∧
    (∀ myEpoch,
      retryTimers (coalescerStep sys (CoalescerEvent.frame myEpoch)).1.st =
        retryTimers sys.st) ∧
    (∀ i outcome call, sys.awaiting.get? i = some call →
      retryTimers (coalescerStep sys (CoalescerEvent.response i outcome)).1.st =
        retryTimers sys.st ++
          (if (resumeAfterFetch sys.st call outcome).2.2 = Settled.resolved ∧
              (coalescerStep sys (CoalescerEvent.response i outcome)).1.st.pendingKeys ≠ []
            then [⟨sys.st.nextTimerId, sys.st.specEpoch, TimerKind.retry⟩] else [])) ∧
    (∀ i outcome, sys.awaiting.get? i = none →
      retryTimers (coalescerStep sys (CoalescerEvent.response i outcome)).1.st =
        retryTimers sys.st) ∧
    (∀ id sList,
      retryTimers (coalescerStep sys (CoalescerEvent.timer id sList)).1.st =
        (retryTimers sys.st).filter (fun u => decide (u.id ≠ id))) ∧
    (∀ enabled hasRoot isFs sList,
      ((enabled = sys.st.spectrumEnabled ∨ hasRoot = false) →
        retryTimers (coalescerStep sys
          (CoalescerEvent.setEnabled enabled hasRoot isFs sList)).1.st = retryTimers sys.st) ∧
      ((enabled ≠ sys.st.spectrumEnabled ∧ hasRoot = true) →
        retryTimers (coalescerStep sys
          (CoalescerEvent.setEnabled enabled hasRoot isFs sList)).1.st = [] ∧
        (coalescerStep sys
          (CoalescerEvent.setEnabled enabled hasRoot isFs sList)).1.st.specEpoch =
          sys.st.specEpoch + 1)) ∧
    (∀ t ∈ retryTimers sys.st,
      t ∈ retryTimers (coalescerStep sys ev).1.st ∨
      (∃ sList, ev = CoalescerEvent.timer t.id sList) ∨
      (coalescerStep sys ev).1.st.specEpoch = sys.st.specEpoch + 1) := by
  have hreq : ∀ sList forceFull,
      retryTimers (coalescerStep sys (CoalescerEvent.request sList forceFull)).1.st =
        retryTimers sys.st := by
    intro sList forceFull
    simp only [coalescerStep, System.step]
    exact retryTimers_congr (requestAndRenderSpectrum_timers sys.st sList forceFull).1
  have hframe : ∀ myEpoch,
      retryTimers (coalescerStep sys (CoalescerEvent.frame myEpoch)).1.st =
        retryTimers sys.st := by
    intro myEpoch
    simp only [coalescerStep, toggleFrame]
    split_ifs <;> simp [retryTimers, specSetTimeout]
  have hresp : ∀ i outcome call, sys.awaiting.get? i = some call →
      retryTimers (coalescerStep sys (CoalescerEvent.response i outcome)).1.st =
        retryTimers sys.st ++
          (if (resumeAfterFetch sys.st call outcome).2.2 = Settled.resolved ∧
              (coalescerStep sys (CoalescerEvent.response i outcome)).1.st.pendingKeys ≠ []
            then [⟨sys.st.nextTimerId, sys.st.specEpoch, TimerKind.retry⟩] else []) := by
    intro i outcome call h
    rw [response_retry sys i outcome call h,
      retryTimers_append sys.st _ _ (resumeAfterFetch_timers_exact sys.st call outcome)]
    congr 1
    split_ifs <;> simp
  have hnone : ∀ i outcome, sys.awaiting.get? i = none →
      retryTimers (coalescerStep sys (CoalescerEvent.response i outcome)).1.st =
        retryTimers sys.st := by
    intro i outcome h
    simp only [coalescerStep, System.step, h]
  have hset := fun enabled hasRoot isFs sList =>
    setEnabled_retry sys enabled hasRoot isFs sList
  refine ⟨(coalescerStep_timers sys ev).1, fun evs => coalescerRun_retry_bound evs sys,
    hreq, hframe, hresp, hnone, timer_retry sys, hset, ?_⟩
  intro t ht
  cases ev with
  | request sList forceFull => left; rw [hreq]; exact ht
  | frame myEpoch => left; rw [hframe]; exact ht
  | response i outcome =>
    left
    cases hg : sys.awaiting.get? i with
    | none => rw [hnone i outcome hg]; exact ht
    | some call => rw [hresp i outcome call hg]; exact List.mem_append_left _ ht
  | timer id sList =>
    by_cases hid : t.id = id
    · right; left
      exact ⟨sList, by rw [hid]⟩
    · left
      rw [timer_retry, List.mem_filter]
      exact ⟨ht, by simpa using hid⟩
  | setEnabled enabled hasRoot isFs sList =>
    by_cases hc : enabled = sys.st.spectrumEnabled ∨ hasRoot = false
    · left
      have := (hset enabled hasRoot isFs sList).1 hc
      simp only [coalescerStep] at this ⊢
      rw [this]
      exact ht
    · right; right
      have hc2 : enabled ≠ sys.st.spectrumEnabled ∧ hasRoot = true := by
        constructor
        · exact fun h => hc (Or.inl h)
        · cases hasRoot with
          | true => rfl
          | false => exact absurd (Or.inr rfl) hc
      have := ((hset enabled hasRoot isFs sList).2 hc2).2
      simpa only [coalescerStep] using this

/-- C11 fails as stated: the spectrum is switched on for the series `1_1`, the response
leaves the pair pending (first retry timer), the chart is rendered again before the timer
fires, which fetches again, and the second response leaves the pair pending too: two retry
timers of the current epoch are outstanding in a reachable state. -/
theorem two_retry_timers_counterexample :
    CoalescerReachable (coalescerRun (System.initial Unit)
      [CoalescerEvent.setEnabled true true false [seriesA],
       CoalescerEvent.response 0 (FetchOutcome.ok ⟨[], [], []⟩),
       CoalescerEvent.request [seriesA] true,
       CoalescerEvent.response 0 (FetchOutcome.ok ⟨[], [], []⟩)]) ∧
    retryTimers (coalescerRun (System.initial Unit)
      [CoalescerEvent.setEnabled true true false [seriesA],
       CoalescerEvent.response 0 (FetchOutcome.ok ⟨[], [], []⟩),
       CoalescerEvent.request [seriesA] true,
       CoalescerEvent.response 0 (FetchOutcome.ok ⟨[], [], []⟩)]).st =
      [⟨1, 1, TimerKind.retry⟩, ⟨2, 1, TimerKind.retry⟩] ∧
    (coalescerRun (System.initial Unit)
      [CoalescerEvent.setEnabled true true false [seriesA],
       CoalescerEvent.response 0 (FetchOutcome.ok ⟨[], [], []⟩),
       CoalescerEvent.request [seriesA] true,
       CoalescerEvent.response 0 (FetchOutcome.ok ⟨[], [], []⟩)]).st.specEpoch = 1 :=
  ⟨coalescerReachable_run _ _ CoalescerReachable.init, by decide, by decide⟩

/-- C12: a timer registered by `specSetTimeout` captures the epoch of that moment; its
callback runs the wrapped function exactly when the captured epoch equals `__specEpoch`,
and then on the state without the timer; the timer firing of the coalescer is this callback
around the timer's function; `specBumpEpochAndClearTimers` adds exactly one to the epoch and
leaves no timer; no step of the coalescer decreases the epoch. -/
theorem spec_timer_epoch_guard {μ α : Type} (fn : SpecState μ → α) (s : SpecState μ)
    (kind : TimerKind) (t : SpecTimer) (sList : List Series) (sys : System μ)
    (ev : CoalescerEvent μ) :
    (specSetTimeout s kind).specTimers =
      s.specTimers ++ [⟨s.nextTimerId, s.specEpoch, kind⟩] ∧
    ((specTimerCallback fn s t).2.isSome = true ↔ t.myEpoch = s.specEpoch) ∧
    ((specTimerCallback fn s t).2.isSome = true →
      (specTimerCallback fn s t).2 = some (fn (removeTimer s t.id))) ∧
    (specTimerCallback fn s t).1 = removeTimer s t.id ∧
    fireTimer s t sList =
      ((specTimerCallback (timerFunction t.kind sList) s t).2).getD
        (removeTimer s t.id, [], none) ∧
    (specBumpEpochAndClearTimers s).specEpoch = s.specEpoch + 1 ∧
    (specBumpEpochAndClearTimers s).specTimers = [] ∧
    sys.st.specEpoch ≤ (coalescerStep sys ev).1.st.specEpoch := by
  refine ⟨rfl, ?_, ?_, ?_, ?_, rfl, rfl, (coalescerStep_timers sys ev).2⟩
  · unfold specTimerCallback
    simp only
    by_cases h : t.myEpoch = (removeTimer s t.id).specEpoch
    · rw [if_pos h]
      simpa using h
    · rw [if_neg h]
      simpa using h
  · unfold specTimerCallback
    simp only
    split_ifs <;> simp
  · unfold specTimerCallback
    simp only
    split_ifs <;> rfl
  · unfold specTimerCallback fireTimer timerFunction
    simp only
    by_cases h : t.myEpoch = (removeTimer s t.id).specEpoch
    · rw [if_pos h, if_pos h]
      cases t.kind <;> rfl
    · rw [if_neg h, if_neg h]
      rfl


/-! ## Theorems: the playback scheduler -/

theorem tickLoop_lt (buffer : AudioBuffer) (raw limit : ℚ) (s : PlayerState)
    (h : s.nextStartTime < limit) :
    tickLoop buffer raw limit s = tickLoop buffer raw limit
      { scheduleSegment s (some buffer) s.nextStartTime with
        nextStartTime := s.nextStartTime + max (1 / 1000) raw } := by
  rw [tickLoop, if_pos h]

theorem tickLoop_ge (buffer : AudioBuffer) (raw limit : ℚ) (s : PlayerState)
    (h : limit ≤ s.nextStartTime) : tickLoop buffer raw limit s = s := by
  rw [tickLoop, if_neg (not_lt.mpr h)]

theorem scheduleSegment_some (s : PlayerState) (b : AudioBuffer) (when : ℚ) :
    scheduleSegment s (some b) when =
      { s with ctx := true,
               activeNodes := s.activeNodes ++ [segmentOf s.sampleRate b when] } := by
  simp [scheduleSegment, segmentOf, PlayerState.initial]

theorem segmentOf_fields (sr : ℚ) (b : AudioBuffer) (when : ℚ) :
    (segmentOf sr b when).start = when ∧ (segmentOf sr b when).buffer = b ∧
    (segmentOf sr b when).cf = crossfadeOf b ∧
    (segmentOf sr b when).fadeInEnd = when + crossfadeOf b ∧
    (segmentOf sr b when).fadeOutStart = when + b.duration - crossfadeOf b ∧
    32 ≤ (segmentOf sr b when).samples := by
  simp [scheduleSegment, segmentOf, PlayerState.initial, crossfadeOf]

/-- The loop of `schedulerTick` as an arithmetic progression. -/
theorem tickLoop_spec (b : AudioBuffer) (raw limit : ℚ) (s : PlayerState) :
    ∃ n : Nat,
      (tickLoop b raw limit s).nextStartTime = s.nextStartTime + n * max (1 / 1000) raw ∧
      (tickLoop b raw limit s).activeNodes = s.activeNodes ++ (List.range n).map
        (fun (k : Nat) => segmentOf s.sampleRate b (s.nextStartTime + k * max (1 / 1000) raw)) ∧
      (∀ k : Nat, k < n → s.nextStartTime + k * max (1 / 1000) raw < limit) ∧
      limit ≤ s.nextStartTime + n * max (1 / 1000) raw ∧
      (n = 0 ↔ limit ≤ s.nextStartTime) ∧
      (tickLoop b raw limit s).playing = s.playing ∧
      (tickLoop b raw limit s).cache = s.cache ∧
      (tickLoop b raw limit s).schedulerTimer = s.schedulerTimer ∧
      (tickLoop b raw limit s).sampleRate = s.sampleRate := by
  induction s using tickLoop.induct b raw limit with
  | case1 x hlt ih =>
    obtain ⟨n, h1, h2, h3, h4, -, h6, h7, h8, h9⟩ := ih
    refine ⟨n + 1, ?_, ?_, ?_, ?_, ?_, ?_, ?_, ?_, ?_⟩
    · rw [tickLoop_lt b raw limit x hlt, h1]
      push_cast
      ring
    · rw [tickLoop_lt b raw limit x hlt, h2, scheduleSegment_some, List.range_succ_eq_map]
      simp only [List.map_cons, List.map_map, List.append_assoc, List.singleton_append]
      congr 1
      congr 1
      · simp
      · apply List.map_congr_left
        intro k _
        simp only [Function.comp]
        congr 1
        push_cast
        ring
    · intro k hk
      cases k with
      | zero => simpa using hlt
      | succ j =>
        have := h3 j (by omega)
        simp only at this
        push_cast
        linarith
    · simp only at h4
      push_cast
      linarith
    · constructor
      · intro h; omega
      · intro h; exact absurd hlt (not_lt.mpr h)
    · rw [tickLoop_lt b raw limit x hlt, h6, scheduleSegment_some]
    · rw [tickLoop_lt b raw limit x hlt, h7, scheduleSegment_some]
    · rw [tickLoop_lt b raw limit x hlt, h8, scheduleSegment_some]
    · rw [tickLoop_lt b raw limit x hlt, h9, scheduleSegment_some]
  | case2 x hge =>
    have hge' : limit ≤ x.nextStartTime := not_lt.mp hge
    refine ⟨0, ?_, ?_, ?_, ?_, ?_, ?_, ?_, ?_, ?_⟩ <;>
      simp [tickLoop_ge b raw limit x hge', hge']


theorem stepOf_pos (b : AudioBuffer) : 0 < stepOf b :=
  lt_max_of_lt_left (by norm_num)

theorem stepOf_two_gt (b : AudioBuffer) : b.duration < 2 * stepOf b := by
  have h1 : (1 : ℚ) / 1000 ≤ stepOf b := le_max_left _ _
  have h2 : b.duration - crossfadeOf b ≤ stepOf b := le_max_right _ _
  have h3 : crossfadeOf b ≤ b.duration * (49 / 100) := min_le_right _ _
  by_cases hd : 0 < b.duration
  · linarith
  · linarith

theorem stepOf_eq (b : AudioBuffer) (h : 1 / 1000 ≤ b.duration - crossfadeOf b) :
    stepOf b = b.duration - crossfadeOf b := max_eq_right h

theorem schedulerTick_idle (s : PlayerState) (buffer : Option AudioBuffer) (now : ℚ)
    (h : s.playing = none) : schedulerTick s buffer now = s := by
  unfold schedulerTick
  rw [h]

theorem schedulerTick_playing (s : PlayerState) (b : AudioBuffer) (now : ℚ)
    (h : s.playing.isSome = true) :
    schedulerTick s (some b) now =
      tickLoop b (b.duration - crossfadeOf b) (now + SCHEDULE_AHEAD_SEC)
        { s with ctx := true } := by
  unfold schedulerTick
  cases hp : s.playing with
  | none => rw [hp] at h; simp at h
  | some p => rfl

/-- One tick appends an arithmetic progression of segments. -/
theorem schedulerTick_spec (s : PlayerState) (b : AudioBuffer) (now : ℚ) :
    ∃ n : Nat,
      (schedulerTick s (some b) now).nextStartTime = s.nextStartTime + n * stepOf b ∧
      (schedulerTick s (some b) now).activeNodes = s.activeNodes ++ (List.range n).map
        (fun (k : Nat) => segmentOf s.sampleRate b (s.nextStartTime + k * stepOf b)) ∧
      (schedulerTick s (some b) now).playing = s.playing ∧
      (schedulerTick s (some b) now).cache = s.cache ∧
      (schedulerTick s (some b) now).schedulerTimer = s.schedulerTimer ∧
      (schedulerTick s (some b) now).sampleRate = s.sampleRate ∧
      (s.playing.isSome = true →
        (n = 0 ↔ now + SCHEDULE_AHEAD_SEC ≤ s.nextStartTime) ∧
        (∀ k : Nat, k < n → s.nextStartTime + k * stepOf b < now + SCHEDULE_AHEAD_SEC) ∧
        now + SCHEDULE_AHEAD_SEC ≤ s.nextStartTime + n * stepOf b) := by
  by_cases hp : s.playing.isSome = true
  · rw [schedulerTick_playing s b now hp]
    obtain ⟨n, h1, h2, h3, h4, h5, h6, h7, h8, h9⟩ :=
      tickLoop_spec b (b.duration - crossfadeOf b) (now + SCHEDULE_AHEAD_SEC)
        { s with ctx := true }
    exact ⟨n, h1, h2, h6, h7, h8, h9, fun _ => ⟨h5, h3, h4⟩⟩
  · have hn : s.playing = none := by
      cases hq : s.playing with
      | none => rfl
      | some p => rw [hq] at hp; simp at hp
    rw [schedulerTick_idle s _ now hn]
    exact ⟨0, by simp, by simp, rfl, rfl, rfl, rfl, fun h => absurd h hp⟩

/-- Successive ticks append one arithmetic progression of segments. -/
theorem tickRun_spec (b : AudioBuffer) (nows : List ℚ) :
    ∀ s : PlayerState, ∃ n : Nat,
      (tickRun b s nows).nextStartTime = s.nextStartTime + n * stepOf b ∧
      (tickRun b s nows).activeNodes = s.activeNodes ++ (List.range n).map
        (fun (k : Nat) => segmentOf s.sampleRate b (s.nextStartTime + k * stepOf b)) ∧
      (tickRun b s nows).sampleRate = s.sampleRate := by
  induction nows with
  | nil => intro s; exact ⟨0, by simp [tickRun], by simp [tickRun], rfl⟩
  | cons now t ih =>
    intro s
    obtain ⟨n, h1, h2, -, -, -, h6, -⟩ := schedulerTick_spec s b now
    obtain ⟨m, g1, g2, g3⟩ := ih (schedulerTick s (some b) now)
    have hrun : tickRun b s (now :: t) = tickRun b (schedulerTick s (some b) now) t := rfl
    refine ⟨n + m, ?_, ?_, ?_⟩
    · rw [hrun, g1, h1]
      push_cast
      ring
    · rw [hrun, g2, h2, h6, h1, List.range_add, List.map_append, List.append_assoc,
        List.map_map]
      congr 2
      apply List.map_congr_left
      intro k _
      simp only [Function.comp]
      congr 1
      push_cast
      ring
    · rw [hrun, g3, h6]

/-- Indices of a strictly increasing list any two of whose members are less than two
apart: at most two. -/
theorem length_le_two_of_close (l : List Nat) (hs : l.Pairwise (fun a c => a < c))
    (hc : ∀ a ∈ l, ∀ c ∈ l, c < a + 2) : l.length ≤ 2 := by
  match l, hs, hc with
  | [], _, _ => simp
  | [_], _, _ => simp
  | [_, _], _, _ => simp
  | x :: y :: z :: r, hs, hc =>
    exfalso
    have hxy : x < y := (List.pairwise_cons.mp hs).1 y (by simp)
    have hyz : y < z := (List.pairwise_cons.mp (List.pairwise_cons.mp hs).2).1 z (by simp)
    have := hc x (by simp) z (by simp)
    omega

/-- Of segments in arithmetic progression with the scheduler's step, at most two are
audible at any instant. -/
theorem audible_progression (sr : ℚ) (b : AudioBuffer) (a t : ℚ) (n : Nat) :
    (((List.range n).map (fun (k : Nat) => segmentOf sr b (a + k * stepOf b))).filter
      (audibleAt t)).length ≤ 2 := by
  rw [List.filter_map, List.length_map]
  apply length_le_two_of_close
  · exact (List.pairwise_lt_range n).filter _
  · intro x hx z hz
    rw [List.mem_filter] at hx hz
    have hx2 := hx.2
    have hz2 := hz.2
    simp only [Function.comp, audibleAt, decide_eq_true_eq] at hx2 hz2
    obtain ⟨hs1, hb1, -⟩ := segmentOf_fields sr b (a + x * stepOf b)
    obtain ⟨hs2, hb2, -⟩ := segmentOf_fields sr b (a + z * stepOf b)
    rw [hs1, hb1] at hx2
    rw [hs2, hb2] at hz2
    by_contra hcon
    have hge : x + 2 ≤ z := by omega
    have hq : ((x : ℚ) + 2) ≤ (z : ℚ) := by exact_mod_cast hge
    have h2 := stepOf_two_gt b
    have hpos := stepOf_pos b
    nlinarith [mul_le_mul_of_nonneg_right hq hpos.le]


theorem raw_ge_of_duration (b : AudioBuffer) (h : 1 / 510 ≤ b.duration) :
    1 / 1000 ≤ b.duration - crossfadeOf b := by
  have h3 : crossfadeOf b ≤ b.duration * (49 / 100) := min_le_right _ _
  linarith

theorem tickRun_dropped (b : AudioBuffer) (s : PlayerState) (nows : List ℚ) :
    ∃ n : Nat, (tickRun b s nows).activeNodes.drop s.activeNodes.length =
      (List.range n).map
        (fun (k : Nat) => segmentOf s.sampleRate b (s.nextStartTime + k * stepOf b)) := by
  obtain ⟨n, -, h2, -⟩ := tickRun_spec b nows s
  exact ⟨n, by rw [h2, List.drop_left]⟩

/-- Evaluation of a tick that schedules one segment. -/
theorem schedulerTick_one (s : PlayerState) (b : AudioBuffer) (now : ℚ)
    (hp : s.playing.isSome = true) (h1 : s.nextStartTime < now + SCHEDULE_AHEAD_SEC)
    (h2 : now + SCHEDULE_AHEAD_SEC ≤ s.nextStartTime + stepOf b) :
    schedulerTick s (some b) now =
      { s with ctx := true, nextStartTime := s.nextStartTime + stepOf b,
               activeNodes := s.activeNodes ++ [segmentOf s.sampleRate b s.nextStartTime] } := by
  rw [schedulerTick_playing s b now hp, tickLoop_lt b _ _ { s with ctx := true } h1,
    tickLoop_ge b _ _ _ h2, scheduleSegment_some]
  rfl

/-- Evaluation of a tick that schedules two segments. -/
theorem schedulerTick_two (s : PlayerState) (b : AudioBuffer) (now : ℚ)
    (hp : s.playing.isSome = true) (h1 : s.nextStartTime < now + SCHEDULE_AHEAD_SEC)
    (h2 : s.nextStartTime + stepOf b < now + SCHEDULE_AHEAD_SEC)
    (h3 : now + SCHEDULE_AHEAD_SEC ≤ s.nextStartTime + stepOf b + stepOf b) :
    schedulerTick s (some b) now =
      { s with ctx := true, nextStartTime := s.nextStartTime + stepOf b + stepOf b,
               activeNodes := s.activeNodes ++ [segmentOf s.sampleRate b s.nextStartTime,
                 segmentOf s.sampleRate b (s.nextStartTime + stepOf b)] } := by
  rw [schedulerTick_playing s b now hp, tickLoop_lt b _ _ { s with ctx := true } h1,
    tickLoop_lt b _ _ _ h2, tickLoop_ge b _ _ _ h3, scheduleSegment_some,
    scheduleSegment_some]
  simp [stepOf]

/-- C14 (amended): for a clip of duration `D ≥ 1/510` s, with `C = min(0.05, 0.49 D)`,
consecutive segments scheduled by successive ticks start exactly `D - C` apart, and the
fade-out of each begins exactly when the next one starts. -/
theorem segments_start_step_apart (b : AudioBuffer) (hd : 1 / 510 ≤ b.duration)
    (s : PlayerState) (nows : List ℚ) :
    List.Chain' (fun seg next =>
        next.start - seg.start = b.duration - min (5 / 100) (b.duration * (49 / 100)) ∧
        seg.fadeOutStart = next.start)
      ((tickRun b s nows).activeNodes.drop s.activeNodes.length) := by
  obtain ⟨n, hn⟩ := tickRun_dropped b s nows
  rw [hn, List.chain'_map]
  have hstep : stepOf b = b.duration - crossfadeOf b := stepOf_eq b (raw_ge_of_duration b hd)
  have hcf : crossfadeOf b = min (5 / 100) (b.duration * (49 / 100)) := rfl
  cases n with
  | zero => simp
  | succ m =>
    rw [List.chain'_range_succ]
    intro k _
    obtain ⟨hs1, -, -, -, hf1, -⟩ := segmentOf_fields s.sampleRate b (s.nextStartTime + k * stepOf b)
    obtain ⟨hs2, -⟩ := segmentOf_fields s.sampleRate b (s.nextStartTime + (k.succ : Nat) * stepOf b)
    rw [hs1, hs2, hf1, ← hcf]
    push_cast
    rw [hstep]
    constructor <;> ring

/-- C14 (amended) on the specification's example: for `D = 2` s the segments of the
session `fanA`, two of them after the ticks at 0 s and 1.7 s, start 1.95 s apart. -/
theorem segments_start_step_apart_witness :
    ((tickRun clipTwoSeconds sessionFanA [0, 17 / 10]).activeNodes.map (fun seg => seg.start)
      = [1 / 10, 41 / 20]) ∧
    List.Chain' (fun seg next =>
        next.start - seg.start = clipTwoSeconds.duration -
          min (5 / 100) (clipTwoSeconds.duration * (49 / 100)) ∧
        seg.fadeOutStart = next.start)
      ((tickRun clipTwoSeconds sessionFanA [0, 17 / 10]).activeNodes.drop
        sessionFanA.activeNodes.length) ∧
    clipTwoSeconds.duration - min (5 / 100) (clipTwoSeconds.duration * (49 / 100)) = 39 / 20 := by
  refine ⟨?_, segments_start_step_apart clipTwoSeconds (by norm_num [clipTwoSeconds])
    sessionFanA [0, 17 / 10], by norm_num [clipTwoSeconds]⟩
  have hstep : stepOf clipTwoSeconds = 39 / 20 := by
    norm_num [stepOf, crossfadeOf, clipTwoSeconds, LOOP_CROSSFADE_SEC]
  have e1 : tickRun clipTwoSeconds sessionFanA [0, 17 / 10] =
      schedulerTick (schedulerTick sessionFanA (some clipTwoSeconds) 0)
        (some clipTwoSeconds) (17 / 10) := rfl
  rw [e1, schedulerTick_one sessionFanA clipTwoSeconds 0 (by rfl)
    (by norm_num [sessionFanA, SCHEDULE_AHEAD_SEC, PlayerState.initial])
    (by rw [hstep]; norm_num [sessionFanA, SCHEDULE_AHEAD_SEC, PlayerState.initial])]
  rw [schedulerTick_one _ clipTwoSeconds (17 / 10) (by rfl)
    (by rw [hstep]; norm_num [sessionFanA, SCHEDULE_AHEAD_SEC, PlayerState.initial])
    (by rw [hstep]; norm_num [sessionFanA, SCHEDULE_AHEAD_SEC, PlayerState.initial])]
  simp only [sessionFanA, PlayerState.initial, List.nil_append, List.map_cons, List.map_nil,
    List.cons_append, (segmentOf_fields _ _ _).1, hstep]
  norm_num

/-- C14 fails as stated: for a clip of 1 ms the step is the floor 0.001 s of the code, not
`D - C = 0.00051` s; the tick at 0.6015 s of a session whose horizon is 1 s schedules
segments at 1 s and 1.001 s, and the fade-out of the first starts at 1.00051 s. -/
theorem short_clip_step_counterexample :
    0 < clipOneMilli.duration ∧
    clipOneMilli.duration - min (5 / 100) (clipOneMilli.duration * (49 / 100)) = 51 / 100000 ∧
    (schedulerTick { sessionFanA with nextStartTime := 1 } (some clipOneMilli)
      (6015 / 10000)).activeNodes.map (fun seg => (seg.start, seg.fadeOutStart)) =
      [(1, 100051 / 100000), (1001 / 1000, 100151 / 100000)] := by
  have hstep : stepOf clipOneMilli = 1 / 1000 := by
    norm_num [stepOf, crossfadeOf, clipOneMilli, LOOP_CROSSFADE_SEC]
  have hcf : crossfadeOf clipOneMilli = 49 / 100000 := by
    norm_num [crossfadeOf, clipOneMilli, LOOP_CROSSFADE_SEC]
  refine ⟨by norm_num [clipOneMilli], by norm_num [clipOneMilli], ?_⟩
  rw [schedulerTick_two _ clipOneMilli _ (by rfl)
    (by norm_num [sessionFanA, SCHEDULE_AHEAD_SEC, PlayerState.initial])
    (by rw [hstep]; norm_num [sessionFanA, SCHEDULE_AHEAD_SEC, PlayerState.initial])
    (by rw [hstep]; norm_num [sessionFanA, SCHEDULE_AHEAD_SEC, PlayerState.initial])]
  simp only [sessionFanA, PlayerState.initial, List.nil_append,
    List.map_cons, List.map_nil, (segmentOf_fields _ _ _).1,
    (segmentOf_fields _ _ _).2.2.2.2.1, hcf, hstep]
  norm_num [clipOneMilli]

/-- C15: of the segments scheduled by successive ticks for a clip, each audible only
strictly between its start and its start plus the duration of the clip, at most two are
audible at any instant. -/
theorem at_most_two_segments_audible (b : AudioBuffer) (s : PlayerState) (nows : List ℚ)
    (t : ℚ) :
    (((tickRun b s nows).activeNodes.drop s.activeNodes.length).filter
      (audibleAt t)).length ≤ 2 := by
  obtain ⟨n, hn⟩ := tickRun_dropped b s nows
  rw [hn]
  exact audible_progression s.sampleRate b s.nextStartTime t n

/-- C16: the loop of `schedulerTick` is a total function; in a live session a tick
schedules `n` segments at `nextStartTime + k * step`, `k < n`, every one of them before
`now + 0.4`; `n = 0` exactly when `nextStartTime ≥ now + 0.4`; on return the horizon is at
least `now + 0.4`, and below `now + 0.4 + step` when a segment was scheduled. -/
theorem schedulerTick_reaches_horizon (s : PlayerState) (b : AudioBuffer) (now : ℚ)
    (hp : s.playing.isSome = true) :
    ∃ n : Nat,
      (schedulerTick s (some b) now).nextStartTime = s.nextStartTime + n * stepOf b ∧
      (schedulerTick s (some b) now).activeNodes = s.activeNodes ++ (List.range n).map
        (fun (k : Nat) => segmentOf s.sampleRate b (s.nextStartTime + k * stepOf b)) ∧
      (n = 0 ↔ now + 4 / 10 ≤ s.nextStartTime) ∧
      (∀ k : Nat, k < n → s.nextStartTime + k * stepOf b < now + 4 / 10) ∧
      now + 4 / 10 ≤ (schedulerTick s (some b) now).nextStartTime ∧
      (s.nextStartTime < now + 4 / 10 →
        (schedulerTick s (some b) now).nextStartTime < now + 4 / 10 + stepOf b) := by
  obtain ⟨n, h1, h2, -, -, -, -, h7⟩ := schedulerTick_spec s b now
  obtain ⟨h3, h4, h5⟩ := h7 hp
  have hah : SCHEDULE_AHEAD_SEC = 4 / 10 := by norm_num [SCHEDULE_AHEAD_SEC]
  rw [hah] at h3 h4 h5
  refine ⟨n, h1, h2, h3, h4, by rw [h1]; exact h5, ?_⟩
  intro hlt
  have hn : n ≠ 0 := fun h0 => absurd (h3.mp h0) (not_le.mpr hlt)
  have hk := h4 (n - 1) (by omega)
  have hcast : ((n - 1 : Nat) : ℚ) = (n : ℚ) - 1 := by
    rw [Nat.cast_sub (by omega)]
    simp
  rw [hcast] at hk
  rw [h1]
  linarith

/-- C16 on the first tick of the session `fanA` with a clip of 2 s. -/
theorem schedulerTick_reaches_horizon_witness :
    ∃ n : Nat,
      (schedulerTick sessionFanA (some clipTwoSeconds) 0).nextStartTime =
        sessionFanA.nextStartTime + n * stepOf clipTwoSeconds ∧
      (schedulerTick sessionFanA (some clipTwoSeconds) 0).activeNodes =
        sessionFanA.activeNodes ++ (List.range n).map
          (fun (k : Nat) => segmentOf sessionFanA.sampleRate clipTwoSeconds
            (sessionFanA.nextStartTime + k * stepOf clipTwoSeconds)) ∧
      (n = 0 ↔ 0 + 4 / 10 ≤ sessionFanA.nextStartTime) ∧
      (∀ k : Nat, k < n →
        sessionFanA.nextStartTime + k * stepOf clipTwoSeconds < 0 + 4 / 10) ∧
      0 + 4 / 10 ≤ (schedulerTick sessionFanA (some clipTwoSeconds) 0).nextStartTime ∧
      (sessionFanA.nextStartTime < 0 + 4 / 10 →
        (schedulerTick sessionFanA (some clipTwoSeconds) 0).nextStartTime <
          0 + 4 / 10 + stepOf clipTwoSeconds) :=
  schedulerTick_reaches_horizon sessionFanA clipTwoSeconds 0 (by rfl)


theorem stop_fields (s : PlayerState) (now : ℚ) :
    (stop s now).1.playing = none ∧ (stop s now).1.schedulerTimer = none ∧
    (stop s now).1.cache = s.cache ∧ (stop s now).1.ctx = s.ctx ∧
    (stop s now).1.sampleRate = s.sampleRate ∧
    (stop s now).1.nextStartTime = s.nextStartTime ∧
    (∀ m c r, PlayerEffect.fetchClip m c r ∉ (stop s now).2) := by
  unfold stop stopSources clearScheduler
  cases hc : s.ctx <;> simp [hc]

theorem isPlaying_of_none (s : PlayerState) (h : s.playing = none) (n : String) :
    isPlaying s n = false := by
  unfold isPlaying
  rw [h]

theorem playAfterResume_fields (s : PlayerState) (name : String) (key : ClipKey) (rpm : ℚ)
    (buffer : AudioBuffer) (now : ℚ) :
    (playAfterResume s name key rpm buffer now).1.playing = some ⟨name, key, rpm⟩ ∧
    (playAfterResume s name key rpm buffer now).1.schedulerTimer = some buffer ∧
    (playAfterResume s name key rpm buffer now).1.cache = s.cache ∧
    (playAfterResume s name key rpm buffer now).2 = PlayResult.playing key := by
  obtain ⟨n, -, -, h3, h4, -⟩ := schedulerTick_spec
    { s with playing := some ⟨name, key, rpm⟩, nextStartTime := now + START_DELAY_SEC }
    buffer now
  exact ⟨h3, rfl, h4, rfl⟩

theorem play_toggle (s : PlayerState) (name : String) (modelId conditionId : Int) (rpm now : ℚ)
    (hlive : isPlaying s name = true) (hrpm : 0 < rpm) :
    play s name modelId conditionId (some rpm) now =
      ((stop s now).1, (stop s now).2, PlayStep.done PlayResult.stopped) := by
  unfold play
  simp only
  rw [if_neg (not_le.mpr hrpm), if_pos hlive]

theorem play_other (s : PlayerState) (name : String) (modelId conditionId : Int) (rpm now : ℚ)
    (hother : isPlaying s name = false) (hrpm : 0 < rpm) :
    play s name modelId conditionId (some rpm) now =
      ((stop s now).1,
        (stop s now).2 ++ (fetchBufferStart (stop s now).1 modelId conditionId rpm).2,
        PlayStep.await (PlayAwait.clip name (clipKeyOf modelId conditionId rpm) rpm
          (fetchBufferStart (stop s now).1 modelId conditionId rpm).1)) := by
  unfold play
  simp only
  rw [if_neg (not_le.mpr hrpm), if_neg (by simp [hother])]

/-- C13: when a session with identity `name` is live, `play` for that identity with a
finite positive RPM returns `{ state: 'stopped' }`, leaves no live session and no
lookahead timer, requests no clip and leaves the clip cache as it was; and the session a
completed `play` for `name` installs is live for `name`, so a second `play` for `name`
takes this path: idle, playing, idle. -/
theorem play_toggle_stops (s : PlayerState) (name : String) (modelId conditionId : Int)
    (rpm now : ℚ) (hlive : isPlaying s name = true) (hrpm : 0 < rpm) :
    (play s name modelId conditionId (some rpm) now).2.2 = PlayStep.done PlayResult.stopped ∧
    (∀ n, isPlaying (play s name modelId conditionId (some rpm) now).1 n = false) ∧
    (play s name modelId conditionId (some rpm) now).1.playing = none ∧
    (play s name modelId conditionId (some rpm) now).1.schedulerTimer = none ∧
    (∀ m c r, PlayerEffect.fetchClip m c r ∉
      (play s name modelId conditionId (some rpm) now).2.1) ∧
    (play s name modelId conditionId (some rpm) now).1.cache = s.cache ∧
    (∀ (s0 : PlayerState) (key : ClipKey) (r : ℚ) (buf : AudioBuffer) (now0 : ℚ),
      isPlaying (playAfterResume s0 name key r buf now0).1 name = true) := by
  rw [play_toggle s name modelId conditionId rpm now hlive hrpm]
  obtain ⟨h1, h2, h3, -, -, -, h7⟩ := stop_fields s now
  refine ⟨rfl, isPlaying_of_none _ h1, h1, h2, h7, h3, ?_⟩
  intro s0 key r buf now0
  unfold isPlaying
  rw [(playAfterResume_fields s0 name key r buf now0).1]
  simp

/-- C13 on the specification's example: from the idle player, `play("fanA", 1200)` runs to
a live session `fanA`, and the second `play("fanA", 1200)` stops it without a request. -/
theorem play_toggle_stops_witness :
    isPlaying (PlayerState.initial 48000) "fanA" = false ∧
    isPlaying (playAfterResume (PlayerState.initial 48000) "fanA" (1, 1, 1200) 1200
      clipTwoSeconds 0).1 "fanA" = true ∧
    (play (playAfterResume (PlayerState.initial 48000) "fanA" (1, 1, 1200) 1200
      clipTwoSeconds 0).1 "fanA" 1 1 (some 1200) 3).2.2 = PlayStep.done PlayResult.stopped ∧
    (∀ n, isPlaying (play (playAfterResume (PlayerState.initial 48000) "fanA" (1, 1, 1200)
      1200 clipTwoSeconds 0).1 "fanA" 1 1 (some 1200) 3).1 n = false) ∧
    (∀ m c r, PlayerEffect.fetchClip m c r ∉
      (play (playAfterResume (PlayerState.initial 48000) "fanA" (1, 1, 1200) 1200
        clipTwoSeconds 0).1 "fanA" 1 1 (some 1200) 3).2.1) :=
  have hlive : isPlaying (playAfterResume (PlayerState.initial 48000) "fanA" (1, 1, 1200)
      1200 clipTwoSeconds 0).1 "fanA" = true := by
    unfold isPlaying
    rw [(playAfterResume_fields _ _ _ _ _ _).1]
    simp
  have h := play_toggle_stops (playAfterResume (PlayerState.initial 48000) "fanA"
    (1, 1, 1200) 1200 clipTwoSeconds 0).1 "fanA" 1 1 1200 3 hlive (by norm_num)
  ⟨by decide, hlive, h.1, h.2.1, h.2.2.2.2.1⟩

theorem fetchBufferResume_failed (s : PlayerState) (key : ClipKey) (outcome : ClipOutcome)
    (hfail : ∀ buf, outcome ≠ ClipOutcome.ok buf) :
    ∃ err, (fetchBufferResume s key outcome).2 = Except.error err ∧
      (fetchBufferResume s key outcome).1.playing = s.playing ∧
      (fetchBufferResume s key outcome).1.schedulerTimer = s.schedulerTimer ∧
      (fetchBufferResume s key outcome).1.cache = s.cache ∧
      (fetchBufferResume s key outcome).1.activeNodes = s.activeNodes ∧
      (fetchBufferResume s key outcome).1.nextStartTime = s.nextStartTime := by
  cases outcome with
  | ok buf => exact absurd rfl (hfail buf)
  | httpError status body => exact ⟨_, rfl, rfl, rfl, rfl, rfl, rfl⟩
  | networkError msg => exact ⟨_, rfl, rfl, rfl, rfl, rfl, rfl⟩
  | decodeError msg => exact ⟨_, rfl, rfl, rfl, rfl, rfl, rfl⟩

/-- C18: a call of `play` that goes to the provider has stopped the session that was live,
cleared the lookahead timer and left the cache as it was before it awaits the clip; when
the request or the decoding then fails, the call rejects with the error of `fetchBuffer`
and touches neither the session, the timer, the cache nor the schedule; and the `catch`
block of the click handler calls `stop`, after which no session is live and no timer is
installed. -/
theorem clip_failure_leaves_idle (s : PlayerState) (name : String)
    (modelId conditionId : Int) (rpm now : ℚ) (hrpm : 0 < rpm)
    (hother : isPlaying s name = false)
    (hmiss : clipHas s.cache (clipKeyOf modelId conditionId rpm) = false)
    (s' : PlayerState) (outcome : ClipOutcome) (hfail : ∀ buf, outcome ≠ ClipOutcome.ok buf)
    (s'' : PlayerState) (now' : ℚ) :
    ((play s name modelId conditionId (some rpm) now).2.2 = PlayStep.await
        (PlayAwait.clip name (clipKeyOf modelId conditionId rpm) rpm none) ∧
      (play s name modelId conditionId (some rpm) now).1.playing = none ∧
      (∀ n, isPlaying (play s name modelId conditionId (some rpm) now).1 n = false) ∧
      (play s name modelId conditionId (some rpm) now).1.schedulerTimer = none ∧
      (play s name modelId conditionId (some rpm) now).1.cache = s.cache) ∧
    (∃ err,
      (playAfterClip s' name (clipKeyOf modelId conditionId rpm) rpm none outcome).2.2 =
        PlayStep.done (PlayResult.rejected err) ∧
      (playAfterClip s' name (clipKeyOf modelId conditionId rpm) rpm none outcome).1.playing =
        s'.playing ∧
      (playAfterClip s' name (clipKeyOf modelId conditionId rpm) rpm none
        outcome).1.schedulerTimer = s'.schedulerTimer ∧
      (playAfterClip s' name (clipKeyOf modelId conditionId rpm) rpm none outcome).1.cache =
        s'.cache ∧
      (playAfterClip s' name (clipKeyOf modelId conditionId rpm) rpm none
        outcome).1.activeNodes = s'.activeNodes ∧
      (playAfterClip s' name (clipKeyOf modelId conditionId rpm) rpm none
        outcome).1.nextStartTime = s'.nextStartTime ∧
      (onPlayRejected s'' err now').1.playing = none ∧
      (onPlayRejected s'' err now').1.schedulerTimer = none ∧
      (onPlayRejected s'' err now').1.cache = s''.cache) := by
  constructor
  · rw [play_other s name modelId conditionId rpm now hother hrpm]
    obtain ⟨h1, h2, h3, -⟩ := stop_fields s now
    have hfb : fetchBufferStart (stop s now).1 modelId conditionId rpm =
        (none, [PlayerEffect.fetchClip modelId conditionId rpm]) := by
      unfold fetchBufferStart
      rw [h3, hmiss]
      simp
    simp only [hfb]
    exact ⟨trivial, h1, isPlaying_of_none _ h1, h2, h3⟩
  · obtain ⟨err, he, g1, g2, g3, g4, g5⟩ :=
      fetchBufferResume_failed s' (clipKeyOf modelId conditionId rpm) outcome hfail
    obtain ⟨h1, h2, h3, -⟩ := stop_fields s'' now'
    refine ⟨err, ?_, ?_, ?_, ?_, ?_, ?_, h1, h2, h3⟩ <;>
    · unfold playAfterClip
      simp only
      generalize fetchBufferResume s' (clipKeyOf modelId conditionId rpm) outcome = r at *
      obtain ⟨r1, r2⟩ := r
      simp only at he
      subst he
      first | rfl | assumption

/-- C18 on a live session `fanA` and a `play` for `fanB` whose request ends with HTTP 500:
the call rejects with the message `HTTP 500`. -/
theorem clip_failure_leaves_idle_witness :
    (play sessionFanA "fanB" 2 1 (some 900) 5).1.playing = none ∧
    (∀ n, isPlaying (play sessionFanA "fanB" 2 1 (some 900) 5).1 n = false) ∧
    (play sessionFanA "fanB" 2 1 (some 900) 5).1.schedulerTimer = none ∧
    (play sessionFanA "fanB" 2 1 (some 900) 5).1.cache = sessionFanA.cache ∧
    ∃ err,
      (playAfterClip (play sessionFanA "fanB" 2 1 (some 900) 5).1 "fanB" (clipKeyOf 2 1 900)
        900 none (ClipOutcome.httpError 500 none)).2.2 =
        PlayStep.done (PlayResult.rejected err) :=
  have h := clip_failure_leaves_idle sessionFanA "fanB" 2 1 900 5 (by norm_num) (by decide)
    (by rfl) (play sessionFanA "fanB" 2 1 (some 900) 5).1 (ClipOutcome.httpError 500 none)
    (by intro buf; simp) (play sessionFanA "fanB" 2 1 (some 900) 5).1 6
  ⟨h.1.2.1, h.1.2.2.1, h.1.2.2.2.1, h.1.2.2.2.2, h.2.imp (fun _ he => he.1)⟩


theorem clipHas_eq_isSome (cache : List (ClipKey × AudioBuffer)) (k : ClipKey) :
    clipHas cache k = (clipGet cache k).isSome := by
  unfold clipHas clipGet
  induction cache with
  | nil => rfl
  | cons e t ih =>
    by_cases h : e.1 = k
    · simp [List.find?, h]
    · simp only [List.any_cons, List.find?, h, decide_False, Bool.false_or]
      exact ih

theorem clipGet_clipSet_same (cache : List (ClipKey × AudioBuffer)) (k : ClipKey)
    (buf : AudioBuffer) : clipGet (clipSet cache k buf) k = some buf := by
  unfold clipSet
  by_cases hh : clipHas cache k = true
  · rw [if_pos hh]
    unfold clipHas at hh
    unfold clipGet
    induction cache with
    | nil => simp at hh
    | cons e t ih =>
      by_cases h : e.1 = k
      · simp [List.find?, h]
      · have ht : t.any (fun e => decide (e.1 = k)) = true := by
          simpa [List.any_cons, h] using hh
        rw [List.map_cons, if_neg h, List.find?_cons_of_neg]
        · exact ih ht
        · simpa using h
  · rw [if_neg hh]
    have hn : clipGet cache k = none := by
      have := clipHas_eq_isSome cache k
      cases hg : clipGet cache k with
      | none => rfl
      | some b => rw [hg] at this; simp [this] at hh
    unfold clipGet at hn ⊢
    rw [List.find?_append]
    cases hf : List.find? (fun e => decide (e.1 = k)) cache with
    | none => simp [List.find?]
    | some e => rw [hf] at hn; simp at hn

theorem clipGet_clipSet_other (cache : List (ClipKey × AudioBuffer)) (k key : ClipKey)
    (buf : AudioBuffer) (h : k ≠ key) : clipGet (clipSet cache key buf) k = clipGet cache k := by
  unfold clipSet
  by_cases hh : clipHas cache key = true
  · rw [if_pos hh]
    unfold clipGet
    clear hh
    induction cache with
    | nil => rfl
    | cons e t ih =>
      by_cases he : e.1 = key
      · have hek : ¬ e.1 = k := fun h2 => h (h2.symm.trans he)
        have hkk : ¬ key = k := fun h2 => h h2.symm
        rw [List.map_cons, if_pos he, List.find?_cons_of_neg, List.find?_cons_of_neg]
        · exact ih
        · simpa using hek
        · simpa using hkk
      · rw [List.map_cons, if_neg he]
        by_cases hek : e.1 = k
        · rw [List.find?_cons_of_pos, List.find?_cons_of_pos] <;> simpa using hek
        · rw [List.find?_cons_of_neg, List.find?_cons_of_neg]
          · exact ih
          · simpa using hek
          · simpa using hek
  · rw [if_neg hh]
    unfold clipGet
    rw [List.find?_append]
    cases hf : List.find? (fun e => decide (e.1 = k)) cache with
    | none =>
      have hkk : ¬ key = k := fun h2 => h h2.symm
      simp [List.find?, hkk]
    | some e => simp

/-- A step of the player leaves the cache as it was, or is the completion of a request for
a key, which stores the decoded buffer under that key. -/
theorem playerStep_cache (p : Player) (ev : PlayerEvent) :
    (playerStep p ev).1.st.cache = p.st.cache ∨
    ∃ (i : Nat) (name : String) (key : ClipKey) (rpm : ℚ) (buf : AudioBuffer) (now : ℚ),
      ev = PlayerEvent.settled i (ClipOutcome.ok buf) now ∧
      p.awaiting.get? i = some (PlayAwait.clip name key rpm none) ∧
      (playerStep p ev).1.st.cache = clipSet p.st.cache key buf := by
  cases ev with
  | play name modelId conditionId rpm now =>
    left
    unfold playerStep play
    cases rpm with
    | none => rfl
    | some r =>
      simp only
      obtain ⟨-, -, h3, -⟩ := stop_fields p.st now
      split_ifs <;> simp [h3]
  | settled i outcome now =>
    unfold playerStep
    simp only
    cases hg : p.awaiting.get? i with
    | none => left; rfl
    | some a =>
      cases a with
      | clip name key rpm cached =>
        cases cached with
        | some buf => left; rfl
        | none =>
          cases outcome with
          | ok buf => right; exact ⟨i, name, key, rpm, buf, now, rfl, hg, rfl⟩
          | httpError status body => left; rfl
          | networkError msg => left; rfl
          | decodeError msg => left; rfl
      | resume name key rpm buffer =>
        left
        exact (playAfterResume_fields p.st name key rpm buffer now).2.2.1
  | stop now =>
    left
    exact (stop_fields p.st now).2.2.1
  | tick now =>
    left
    unfold playerStep
    simp only
    cases ht : p.st.schedulerTimer with
    | none => rfl
    | some b =>
      obtain ⟨n, -, -, -, h4, -⟩ := schedulerTick_spec p.st b now
      exact h4
  | ended k => left; rfl

theorem playerReachable_run (sampleRate : ℚ) (evs : List PlayerEvent) :
    ∀ p : Player, PlayerReachable sampleRate p →
      PlayerReachable sampleRate (playerRun p evs) := by
  unfold playerRun
  induction evs with
  | nil => intro p hp; exact hp
  | cons ev t ih =>
    intro p hp
    rw [List.foldl_cons]
    exact ih _ (PlayerReachable.step p ev hp)


/-- C20 (amended): `fetchBuffer` requests the clip exactly when its key is absent from
the cache, and on a hit returns the cached buffer without a request; once a request has
succeeded the key maps to the decoded buffer; no step of the player removes a key from
the cache; and the buffer under a key changes only when a request for that same key
completes, which replaces the entry if another request for the key completed meanwhile. -/
theorem clip_cache_entries_persist (p : Player) (ev : PlayerEvent) (k : ClipKey)
    (b : AudioBuffer) (hk : clipGet p.st.cache k = some b) (s : PlayerState)
    (modelId conditionId : Int) (rpm : ℚ) (key : ClipKey) (buf : AudioBuffer) :
    ((fetchBufferStart s modelId conditionId rpm).2 =
        [PlayerEffect.fetchClip modelId conditionId rpm] ↔
      clipHas s.cache (clipKeyOf modelId conditionId rpm) = false) ∧
    ((fetchBufferStart s modelId conditionId rpm).2 = [] ↔
      clipHas s.cache (clipKeyOf modelId conditionId rpm) = true) ∧
    (clipHas s.cache (clipKeyOf modelId conditionId rpm) = true →
      (fetchBufferStart s modelId conditionId rpm).1 =
        clipGet s.cache (clipKeyOf modelId conditionId rpm) ∧
      (clipGet s.cache (clipKeyOf modelId conditionId rpm)).isSome = true) ∧
    clipGet (fetchBufferResume s key (ClipOutcome.ok buf)).1.cache key = some buf ∧
    (∃ b1, clipGet (playerStep p ev).1.st.cache k = some b1) ∧
    (clipGet (playerStep p ev).1.st.cache k ≠ some b →
      ∃ (i : Nat) (name : String) (r : ℚ) (b1 : AudioBuffer) (now : ℚ),
        ev = PlayerEvent.settled i (ClipOutcome.ok b1) now ∧
        p.awaiting.get? i = some (PlayAwait.clip name k r none)) := by
  refine ⟨?_, ?_, ?_, clipGet_clipSet_same _ _ _, ?_, ?_⟩
  · unfold fetchBufferStart
    by_cases h : clipHas s.cache (clipKeyOf modelId conditionId rpm) = true
    · simp [h]
    · simp [h]
  · unfold fetchBufferStart
    by_cases h : clipHas s.cache (clipKeyOf modelId conditionId rpm) = true
    · simp [h]
    · simp [h]
  · intro h
    unfold fetchBufferStart
    rw [if_pos h]
    exact ⟨rfl, by rw [← clipHas_eq_isSome]; exact h⟩
  · rcases playerStep_cache p ev with h | ⟨i, name, key1, r, b1, now, -, -, h⟩
    · exact ⟨b, by rw [h]; exact hk⟩
    · by_cases hkk : k = key1
      · exact ⟨b1, by rw [h, hkk]; exact clipGet_clipSet_same _ _ _⟩
      · exact ⟨b, by rw [h, clipGet_clipSet_other _ _ _ _ hkk]; exact hk⟩
  · intro hne
    rcases playerStep_cache p ev with h | ⟨i, name, key1, r, b1, now, h1, h2, h⟩
    · rw [h] at hne
      exact absurd hk hne
    · by_cases hkk : k = key1
      · subst hkk
        exact ⟨i, name, r, b1, now, h1, h2⟩
      · rw [h, clipGet_clipSet_other _ _ _ _ hkk] at hne
        exact absurd hk hne

/-- The player after the overlapping requests: the first has completed, the second is
still awaited. -/
theorem overlapping_requests_run :
    playerRun ⟨PlayerState.initial 48000, []⟩ overlappingRequests =
      ⟨playerCached,
        [PlayAwait.clip "fanA" (1, 1, 1200) 1200 none,
         PlayAwait.resume "fanA" (1, 1, 1200) 1200 ⟨7, 2⟩]⟩ := by
  have hkey : clipKeyOf 1 1 1200 = (1, 1, 1200) := by
    norm_num [clipKeyOf, Int.floor_eq_iff]
  norm_num [overlappingRequests, playerCached, playerRun, playerStep, play, isPlaying,
    PlayerState.initial, stop, stopSources, clearScheduler, fetchBufferStart, clipHas, hkey,
    playAfterClip, fetchBufferResume, clipSet]

/-- C20 (amended) on the cached clip `1_1_1200`: a request for 1200.3 RPM rounds to the
same key and is served from the cache, and a call of `stop` keeps the entry. -/
theorem clip_cache_entries_persist_witness :
    clipGet playerCached.cache (1, 1, 1200) = some ⟨7, 2⟩ ∧
    clipKeyOf 1 1 (12003 / 10) = (1, 1, 1200) ∧
    ((fetchBufferStart playerCached 1 1 (12003 / 10)).2 = [] ↔
      clipHas playerCached.cache (clipKeyOf 1 1 (12003 / 10)) = true) ∧
    (∃ b1, clipGet (playerStep ⟨playerCached, []⟩ (PlayerEvent.stop 3)).1.st.cache
      (1, 1, 1200) = some b1) :=
  have h := clip_cache_entries_persist ⟨playerCached, []⟩ (PlayerEvent.stop 3) (1, 1, 1200)
    ⟨7, 2⟩ (by rfl) playerCached 1 1 (12003 / 10) (1, 1, 1200) ⟨7, 2⟩
  ⟨by rfl, by norm_num [clipKeyOf, Int.floor_eq_iff], h.2.1, h.2.2.2.2.1⟩

/-- C20 fails as stated: two calls of `play` for the clip `1_1_1200` both miss the cache
and both go to the provider; the first completion stores the buffer 7 under the key, the
second completion replaces it by the buffer 8, in a reachable player. -/
theorem clip_cache_entry_replaced_counterexample :
    PlayerReachable 48000 (playerRun ⟨PlayerState.initial 48000, []⟩ overlappingRequests) ∧
    (playerStep ⟨PlayerState.initial 48000, []⟩
      (PlayerEvent.play "fanA" 1 1 (some 1200) 0)).2.1 = [PlayerEffect.fetchClip 1 1 1200] ∧
    (playerStep (playerStep ⟨PlayerState.initial 48000, []⟩
        (PlayerEvent.play "fanA" 1 1 (some 1200) 0)).1
      (PlayerEvent.play "fanA" 1 1 (some 1200) 1)).2.1 = [PlayerEffect.fetchClip 1 1 1200] ∧
    clipGet (playerRun ⟨PlayerState.initial 48000, []⟩ overlappingRequests).st.cache
      (1, 1, 1200) = some ⟨7, 2⟩ ∧
    clipGet (playerStep (playerRun ⟨PlayerState.initial 48000, []⟩ overlappingRequests)
      (PlayerEvent.settled 0 (ClipOutcome.ok ⟨8, 2⟩) 3)).1.st.cache (1, 1, 1200) =
      some ⟨8, 2⟩ := by
  have hkey : clipKeyOf 1 1 1200 = (1, 1, 1200) := by
    norm_num [clipKeyOf, Int.floor_eq_iff]
  refine ⟨playerReachable_run 48000 _ _ PlayerReachable.init, ?_, ?_, ?_, ?_⟩
  · norm_num [playerStep, play, isPlaying, PlayerState.initial, stop, stopSources,
      clearScheduler, fetchBufferStart, clipHas, hkey]
  · norm_num [playerStep, play, isPlaying, PlayerState.initial, stop, stopSources,
      clearScheduler, fetchBufferStart, clipHas, hkey]
  · rw [overlapping_requests_run]
    rfl
  · rw [overlapping_requests_run]
    rfl



theorem digitChar_isDigit (d : Nat) (h : d < 10) : (Nat.digitChar d).isDigit = true := by
  interval_cases d <;> decide

theorem toDigitsCore_isDigit (fuel : Nat) :
    ∀ (n : Nat) (ds : List Char), (∀ c ∈ ds, c.isDigit = true) →
      ∀ c ∈ Nat.toDigitsCore 10 fuel n ds, c.isDigit = true := by
  induction fuel with
  | zero => intro n ds h; simpa [Nat.toDigitsCore] using h
  | succ f ih =>
    intro n ds h
    have hd : ∀ c ∈ Nat.digitChar (n % 10) :: ds, c.isDigit = true := by
      intro c hc
      rcases List.mem_cons.mp hc with rfl | hc
      · exact digitChar_isDigit _ (Nat.mod_lt _ (by norm_num))
      · exact h c hc
    unfold Nat.toDigitsCore
    simp only
    split_ifs
    · exact hd
    · exact ih _ _ hd

theorem httpMessage_chars (status : Nat) :
    ∀ c ∈ ("HTTP " ++ toString status).toList, c ∈ "HTTP ".toList ∨ c.isDigit = true := by
  intro c hc
  have e : ("HTTP " ++ toString status).toList = "HTTP ".toList ++ Nat.toDigits 10 status := by
    simp [String.toList, toString, Nat.repr, String.data_append]
    rfl
  rw [e] at hc
  rcases List.mem_append.mp hc with h | h
  · exact Or.inl h
  · exact Or.inr (toDigitsCore_isDigit _ _ [] (by simp) c h)

theorem jsIncludes_httpMessage (status : Nat) (t : String) (c : Char) (hc : c ∈ t.toList)
    (h1 : c ∉ "HTTP ".toList) (h2 : c.isDigit = false) :
    jsIncludes ("HTTP " ++ toString status) t = false := by
  unfold jsIncludes
  rw [decide_eq_false_iff_not]
  intro hin
  rcases httpMessage_chars status c (hin.subset hc) with h | h
  · exact h1 h
  · rw [h2] at h; simp at h

theorem isNoValidSegment_httpMessage (status : Nat) (code : Option String) :
    isNoValidSegmentError ⟨"HTTP " ++ toString status, code⟩ = false := by
  unfold isNoValidSegmentError
  simp only
  have h1 := jsIncludes_httpMessage status "无法匹配到有效的音频数据" (Char.ofNat 26080)
    (by decide) (by decide) (by decide)
  have h2 := jsIncludes_httpMessage status "Cannot match valid audio data" (Char.ofNat 67)
    (by decide) (by decide) (by decide)
  have hne : "HTTP " ++ toString status ≠ "" := by
    intro h
    have := congrArg String.length h
    simp [String.length_append] at this
    exact absurd this.1 (by decide)
  rw [if_pos hne, h1, h2]
  simp

theorem jsIncludes_empty (t : String) (ht : t ≠ "") : jsIncludes "" t = false := by
  unfold jsIncludes
  rw [decide_eq_false_iff_not]
  intro hin
  have hl : t.toList.length ≤ ([] : List Char).length := hin.length_le
  have h0 : t.toList = [] := List.length_eq_zero.mp (Nat.le_zero.mp hl)
  apply ht
  cases t with
  | mk d =>
    simp only [String.toList] at h0
    subst h0
    rfl

/-- C19 (amended): on a non-OK status `fetchBuffer`, and with it `play`, rejects with an
error whose `errorCode` is the provider's `error_code` when that is a non-empty string and
`null` otherwise, and whose message is the provider's `error_message` when that is a
non-empty string and `HTTP <status>` otherwise; the test of the click handler for the
failure "no valid segment" gives on this error what it gives on the provider's fields. -/
theorem http_failure_classification (s : PlayerState) (name : String) (key : ClipKey) (rpm : ℚ)
    (status : Nat) (body : Option ErrorBody) :
    (fetchBufferResume s key (ClipOutcome.httpError status body)).2 =
      Except.error (httpFailure status body) ∧
    (playAfterClip s name key rpm none (ClipOutcome.httpError status body)).2.2 =
      PlayStep.done (PlayResult.rejected (httpFailure status body)) ∧
    (∀ j code, body = some j → j.error_code = some code → code ≠ "" →
      (httpFailure status body).errorCode = some code) ∧
    (∀ j msg, body = some j → j.error_message = some msg → msg ≠ "" →
      (httpFailure status body).message = msg) ∧
    ((httpFailure status body).errorCode = none ↔
      (body = none ∨ ∃ j, body = some j ∧ (j.error_code = none ∨ j.error_code = some ""))) ∧
    ((body = none ∨ ∃ j, body = some j ∧
        (j.error_message = none ∨ j.error_message = some "")) →
      (httpFailure status body).message = "HTTP " ++ toString status) ∧
    isNoValidSegmentError (httpFailure status body) =
      (match body with
      | none => false
      | some j =>
        decide (j.error_code = some "AUDIO_GENERATION_FAILED") &&
          (jsIncludes (j.error_message.getD "") "无法匹配到有效的音频数据" ||
            jsIncludes (j.error_message.getD "") "Cannot match valid audio data")) := by
  refine ⟨rfl, rfl, ?_, ?_, ?_, ?_, ?_⟩
  · rintro j code rfl hc hne
    simp [httpFailure, jsTruthy, hc, hne]
  · rintro j msg rfl hm hne
    simp [httpFailure, jsTruthy, hm, hne]
  · cases body with
    | none => simp [httpFailure]
    | some j =>
      rcases j with ⟨m, c⟩
      cases c with
      | none => simp [httpFailure, jsTruthy]
      | some code =>
        by_cases hc : code = ""
        · simp [httpFailure, jsTruthy, hc]
        · simp [httpFailure, jsTruthy, hc]
  · rintro (rfl | ⟨j, rfl, hm | hm⟩)
    · rfl
    · simp [httpFailure, jsTruthy, hm]
    · simp [httpFailure, jsTruthy, hm]
  · cases body with
    | none => exact isNoValidSegment_httpMessage status none
    | some j =>
      rcases j with ⟨m, c⟩
      have hcode : ∀ (msg : String),
          isNoValidSegmentError ⟨msg, if jsTruthy c then c else none⟩ =
            (decide (c = some "AUDIO_GENERATION_FAILED") &&
              (jsIncludes (if msg ≠ "" then msg else "Error") "无法匹配到有效的音频数据" ||
                jsIncludes (if msg ≠ "" then msg else "Error")
                  "Cannot match valid audio data")) := by
        intro msg
        unfold isNoValidSegmentError
        simp only
        cases c with
        | none => simp [jsTruthy]
        | some code =>
          by_cases hc : code = ""
          · subst hc
            simp [jsTruthy]
          · simp [jsTruthy, hc]
      have hfalse : ∀ code : Option String,
          isNoValidSegmentError ⟨"HTTP " ++ toString status, code⟩ = false :=
        isNoValidSegment_httpMessage status
      have he1 := jsIncludes_empty "无法匹配到有效的音频数据" (by decide)
      have he2 := jsIncludes_empty "Cannot match valid audio data" (by decide)
      cases m with
      | none =>
        simp only [httpFailure, jsTruthy, Option.getD_none]
        rw [he1, he2]
        simp only [Bool.false_eq_true, if_false]
        rw [hfalse]
        simp
      | some msg =>
        by_cases hm : msg = ""
        · subst hm
          simp only [httpFailure, jsTruthy, Option.getD_some]
          rw [he1, he2]
          simp only [ne_eq, not_true_eq_false, decide_False, Bool.false_eq_true, if_false]
          rw [hfalse]
          simp
        · have := hcode msg
          simp only [httpFailure, jsTruthy, Option.getD_some, ne_eq, hm, not_false_eq_true,
            decide_True, if_true] at this ⊢
          exact this

/-- C19 fails as stated: a failure body that supplies the `error_code` `""` yields the
`errorCode` `null`, and a body that supplies the `error_message` `HTTP 500` on status 500
yields the same message as a body without one. -/
theorem http_failure_counterexample :
    (httpFailure 500 (some ⟨some "x", some ""⟩)).errorCode = none ∧
    (httpFailure 500 (some ⟨some "HTTP 500", none⟩)).message = "HTTP " ++ toString 500 ∧
    (httpFailure 500 (some ⟨none, none⟩)).message = "HTTP " ++ toString 500 := by
  decide


theorem realTrig_laws : TrigLaws realTrig where
  sin_sq_add_cos_sq := by
    intro t
    have := Real.sin_sq_add_cos_sq t
    simp only [realTrig]
    nlinarith [this]
  sin_zero := Real.sin_zero
  cos_zero := Real.cos_zero
  sin_half_pi := Real.sin_pi_div_two
  cos_half_pi := Real.cos_pi_div_two

theorem makeCurves_getElem {K : Type} [LinearOrderedField K] (T : JsTrig K) (n i : Nat)
    (hi : i < n) :
    (makeCurves T n).1[i]? =
      some (T.sin (((i : K) / max 1 ((n : K) - 1)) * (T.pi / 2))) ∧
    (makeCurves T n).2[i]? =
      some (T.cos (((i : K) / max 1 ((n : K) - 1)) * (T.pi / 2))) := by
  simp [makeCurves, List.getElem?_map, List.getElem?_range hi]

/-- C17: for `n ≥ 2` and `i < n`, `makeCurves(n)` has `fi[i] = sin(π i / (2 (n - 1)))` and
`fo[i] = cos(π i / (2 (n - 1)))`, so `fi[i]² + fo[i]² = 1`, with `fi[0] = 0`,
`fi[n-1] = 1`, `fo[0] = 1` and `fo[n-1] = 0`; exact arithmetic with a sine and a cosine that
obey the laws `TrigLaws`. -/
theorem makeCurves_quarter_wave {K : Type} [LinearOrderedField K] (T : JsTrig K)
    (hT : TrigLaws T) (n : Nat) (hn : 2 ≤ n) (i : Nat) (hi : i < n) :
    (makeCurves T n).1.length = n ∧ (makeCurves T n).2.length = n ∧
    (makeCurves T n).1[i]? = some (T.sin (T.pi * (i : K) / (2 * ((n : K) - 1)))) ∧
    (makeCurves T n).2[i]? = some (T.cos (T.pi * (i : K) / (2 * ((n : K) - 1)))) ∧
    T.sin (T.pi * (i : K) / (2 * ((n : K) - 1))) * T.sin (T.pi * (i : K) / (2 * ((n : K) - 1))) +
      T.cos (T.pi * (i : K) / (2 * ((n : K) - 1))) *
        T.cos (T.pi * (i : K) / (2 * ((n : K) - 1))) = 1 ∧
    (makeCurves T n).1[0]? = some 0 ∧ (makeCurves T n).1[n - 1]? = some 1 ∧
    (makeCurves T n).2[0]? = some 1 ∧ (makeCurves T n).2[n - 1]? = some 0 := by
  have hn1 : (1 : K) ≤ (n : K) - 1 := by
    have : (2 : K) ≤ (n : K) := by exact_mod_cast hn
    linarith
  have hmax : max 1 ((n : K) - 1) = (n : K) - 1 := max_eq_right hn1
  have hne : (n : K) - 1 ≠ 0 := by
    intro h
    rw [h] at hn1
    linarith
  have harg : ∀ j : Nat, ((j : K) / max 1 ((n : K) - 1)) * (T.pi / 2) =
      T.pi * (j : K) / (2 * ((n : K) - 1)) := by
    intro j
    rw [hmax]
    field_simp
    ring
  have hlast : (((n - 1 : Nat) : K) / max 1 ((n : K) - 1)) * (T.pi / 2) = T.pi / 2 := by
    rw [hmax, Nat.cast_sub (by omega), Nat.cast_one, div_self hne, one_mul]
  have hfirst : (((0 : Nat) : K) / max 1 ((n : K) - 1)) * (T.pi / 2) = 0 := by
    simp
  obtain ⟨g1, g2⟩ := makeCurves_getElem T n i hi
  obtain ⟨z1, z2⟩ := makeCurves_getElem T n 0 (by omega)
  obtain ⟨l1, l2⟩ := makeCurves_getElem T n (n - 1) (by omega)
  rw [harg] at g1 g2
  rw [hfirst, hT.sin_zero] at z1
  rw [hfirst, hT.cos_zero] at z2
  rw [hlast, hT.sin_half_pi] at l1
  rw [hlast, hT.cos_half_pi] at l2
  exact ⟨by simp [makeCurves], by simp [makeCurves], g1, g2, hT.sin_sq_add_cos_sq _,
    z1, l1, z2, l2⟩

/-- C17 over the reals for the 32 samples of the shortest curve, at the sample 16. -/
theorem makeCurves_quarter_wave_witness :
    (makeCurves realTrig 32).1[16]? = some (Real.sin (Real.pi * (16 : Nat) / (2 * ((32 : Nat) - 1)))) ∧
    (makeCurves realTrig 32).2[16]? = some (Real.cos (Real.pi * (16 : Nat) / (2 * ((32 : Nat) - 1)))) ∧
    (makeCurves realTrig 32).1[0]? = some 0 ∧ (makeCurves realTrig 32).1[31]? = some 1 ∧
    (makeCurves realTrig 32).2[0]? = some 1 ∧ (makeCurves realTrig 32).2[31]? = some 0 :=
  have h := makeCurves_quarter_wave realTrig realTrig_laws 32 (by decide) 16 (by decide)
  ⟨h.2.2.1, h.2.2.2.1, h.2.2.2.2.2.1, h.2.2.2.2.2.2.1, h.2.2.2.2.2.2.2.1,
    h.2.2.2.2.2.2.2.2⟩


/-! ## Theorems: degenerate models and the point cache -/

theorem round3_idem (x : ℚ) : round3 (round3 x) = round3 x := by
  have h : round3 x = ((⌊x * 1000 + 1 / 2⌋ : ℤ) : ℚ) / 1000 := rfl
  rw [h, round3_grid]

theorem cacheReachable_after (model : Option PchipModel) (qs : List ℚ) :
    CacheReachable model (cacheAfterQueries model qs) := by
  unfold cacheAfterQueries
  suffices h : ∀ c, CacheReachable model c →
      CacheReachable model (qs.foldl (fun c x => (evalPchipJS model c x).2) c) from
    h [] CacheReachable.fresh
  induction qs with
  | nil => intro c hc; exact hc
  | cons q t ih => intro c hc; exact ih _ (CacheReachable.call c q hc)

theorem PointCache.length_set_le (c : PointCache) (k : ℚ) (v : JsNum) :
    (c.set k v).length ≤ c.length + 1 := by
  unfold PointCache.set
  split_ifs <;> simp

theorem PointCache.length_evict (c : PointCache) : c.evict.length ≤ 255 ∨
    (c.evict.length = c.length - 1 ∧ 256 ≤ c.length) := by
  unfold PointCache.evict
  split_ifs with h
  · right
    exact ⟨by simp, h⟩
  · left
    omega

/-- Apart from the single-knot path every call keeps the cache within 256 entries. -/
theorem cache_bound_step (xs ys ms : List ℚ) (x0 x1 : ℚ) (hn : xs.length ≠ 1)
    (c : PointCache) (x : ℚ) (hc : c.length ≤ 256) :
    (evalPchipJS (mkModel xs ys ms x0 x1) c x).2.length ≤ 256 := by
  unfold evalPchipJS mkModel
  simp only
  split_ifs with h1 h2
  · exact hc
  · exact hc
  · have h3 := PointCache.length_set_le c.evict (round3 x) (pchipValue xs ys ms (round3 x))
    show (c.evict.set (round3 x) (pchipValue xs ys ms (round3 x))).length ≤ 256
    rcases PointCache.length_evict c with h | ⟨h, h4⟩ <;> omega

theorem cache_bound_reachable (xs ys ms : List ℚ) (x0 x1 : ℚ) (hn : xs.length ≠ 1)
    (c : PointCache) (hc : CacheReachable (mkModel xs ys ms x0 x1) c) : c.length ≤ 256 := by
  induction hc with
  | fresh => simp
  | call c x _ ih => exact cache_bound_step xs ys ms x0 x1 hn c x ih

/-- The cache of the single-knot example after the first `n` grid queries. -/
theorem singleKnot_cache (n : Nat) :
    cacheAfterQueries singleKnotModel (gridQueries n) =
      (List.range n).map (fun (k : Nat) => ((k : ℚ) / 1000, (some 7 : JsNum))) := by
  induction n with
  | zero => rfl
  | succ n ih =>
    have hq : gridQueries (n + 1) = gridQueries n ++ [(n : ℚ) / 1000] := by
      simp [gridQueries, List.range_succ]
    have hr : round3 ((n : ℚ) / 1000) = (n : ℚ) / 1000 := by
      have := round3_grid (n : ℤ)
      simpa using this
    have hhas : PointCache.has
        ((List.range n).map (fun (k : Nat) => ((k : ℚ) / 1000, (some 7 : JsNum))))
        ((n : ℚ) / 1000) = false := by
      unfold PointCache.has
      rw [List.any_eq_false]
      intro e he
      rw [List.mem_map] at he
      obtain ⟨k, hk, rfl⟩ := he
      have hk' : k < n := List.mem_range.mp hk
      have hne : ((k : ℚ) / 1000) ≠ (n : ℚ) / 1000 := by
        intro h
        have h2 : (k : ℚ) = (n : ℚ) := by linarith
        have h3 : k = n := by exact_mod_cast h2
        omega
      simpa using hne
    unfold cacheAfterQueries at ih ⊢
    rw [hq, List.foldl_append, ih, List.range_succ, List.map_append]
    simp only [List.foldl_cons, List.foldl_nil, List.map_cons, List.map_nil]
    simp only [evalPchipJS, singleKnotModel, mkModel, hr, hhas, PointCache.set]
    simp [jsGet]


/-- C21: `evalPchipJS` is a total function; it returns `NaN` when the model is null or one
of `x`, `y`, `m` is not an array, whatever the cache; on any cache that earlier calls on
the model can have left it returns `NaN` when `x` is empty and `y[0]` for every query when
`x` has exactly one knot. -/
theorem evalPchipJS_degenerate (c : PointCache) (q : ℚ) :
    (evalPchipJS none c q).1 = none ∧
    (∀ pm : PchipModel, pm.x = none ∨ pm.y = none ∨ pm.m = none →
      (evalPchipJS (some pm) c q).1 = none) ∧
    (∀ ys ms x0 x1, CacheReachable (mkModel [] ys ms x0 x1) c →
      (evalPchipJS (mkModel [] ys ms x0 x1) c q).1 = none) ∧
    (∀ a ys ms x0 x1, CacheReachable (mkModel [a] ys ms x0 x1) c →
      (evalPchipJS (mkModel [a] ys ms x0 x1) c q).1 = jsGet ys 0) := by
  refine ⟨rfl, ?_, ?_, ?_⟩
  · rintro ⟨_ | xs, _ | ys, _ | ms, x0, x1⟩ h <;> first | rfl | simp at h
  · intro ys ms x0 x1 hc
    rw [evalPchipJS_cache_indep hc]
    simp [evalPchipJS, mkModel, PointCache.has]
  · intro a ys ms x0 x1 hc
    rw [evalPchipJS_cache_indep hc]
    exact evalPchipJS_fresh_one [a] ys ms x0 x1 q rfl

/-- C22 does not hold of the code: a model with at least two knots, or none, keeps its
point cache within 256 entries, but the single-knot path stores without evicting; after
the 257 queries `0, 0.001, ..., 0.256` the cache of the model `x = [5]`, `y = [7]` holds
257 entries. -/
theorem point_cache_unbounded_single_knot :
    (∀ (xs ys ms : List ℚ) (x0 x1 : ℚ) (c : PointCache), xs.length ≠ 1 →
      CacheReachable (mkModel xs ys ms x0 x1) c → c.length ≤ 256) ∧
    CacheReachable singleKnotModel (cacheAfterQueries singleKnotModel (gridQueries 257)) ∧
    (cacheAfterQueries singleKnotModel (gridQueries 257)).length = 257 := by
  refine ⟨fun xs ys ms x0 x1 c hn hc => cache_bound_reachable xs ys ms x0 x1 hn c hc,
    cacheReachable_after _ _, ?_⟩
  rw [singleKnot_cache]
  simp

/-- C28: on any cache that earlier calls on the model can have left, hits, misses and
evictions included, `evalPchipJS` returns what an evaluation with an empty cache returns
for the query rounded to 3 decimals; rounding a rounded query changes nothing. -/
theorem evalPchipJS_deterministic (model : Option PchipModel) (c : PointCache)
    (hc : CacheReachable model c) (q : ℚ) :
    (evalPchipJS model c q).1 = (evalPchipJS model [] (round3 q)).1 ∧
    round3 (round3 q) = round3 q ∧
    (∀ q1 : ℚ, round3 q1 = round3 q → (evalPchipJS model c q1).1 = (evalPchipJS model c q).1) := by
  refine ⟨?_, round3_idem q, ?_⟩
  · rw [evalPchipJS_cache_indep hc]
    exact evalPchipJS_fresh_congr model (round3_idem q).symm
  · intro q1 h
    rw [evalPchipJS_cache_indep hc, evalPchipJS_cache_indep hc]
    exact evalPchipJS_fresh_congr model h

/-- C28 on the single-knot example after 257 earlier queries, for the query `0.1234`. -/
theorem evalPchipJS_deterministic_witness :
    (evalPchipJS singleKnotModel (cacheAfterQueries singleKnotModel (gridQueries 257))
      (1234 / 10000)).1 =
      (evalPchipJS singleKnotModel [] (round3 (1234 / 10000))).1 :=
  (evalPchipJS_deterministic singleKnotModel
    (cacheAfterQueries singleKnotModel (gridQueries 257)) (cacheReachable_after _ _)
    (1234 / 10000)).1


/-! ## Theorems: the aggregator and the coarse grid -/

theorem filterMap_ite {α β : Type} (p : α → Prop) [DecidablePred p] (g : α → β) (l : List α) :
    l.filterMap (fun a => if p a then some (g a) else none) =
      (l.filter (fun a => decide (p a))).map g := by
  induction l with
  | nil => rfl
  | cons a t ih =>
    by_cases h : p a
    · simp [List.filterMap_cons, h, ih]
    · simp [List.filterMap_cons, h, ih]

/-- The output of the aggregator for finite resolutions: the coarse centres with positive
accumulated energy, and their levels. -/
theorem downsample_eq {K : Type} [LinearOrderedField K] [FloorRing K] (M : JsMath K)
    (fineCenters : List K) (fineValuesDb : List (Option K)) (fineN coarseN : K) :
    downsampleSpectrumBands M fineCenters fineValuesDb (some fineN) (some coarseN) =
      ((iecMakeCenters M coarseN 20 20000).filter (fun c =>
          decide (0 < coarseBandEnergy M fineCenters fineValuesDb fineN coarseN c)),
        ((iecMakeCenters M coarseN 20 20000).filter (fun c =>
          decide (0 < coarseBandEnergy M fineCenters fineValuesDb fineN coarseN c))).map
          (fun c => 10 * M.log10
            (coarseBandEnergy M fineCenters fineValuesDb fineN coarseN c / P0_2))) := by
  by_cases hK : fineCenters.zip fineValuesDb = []
  · have hKn : min fineCenters.length fineValuesDb.length = 0 := by
      rw [← List.length_zip, hK]
      rfl
    have hE : ∀ c, coarseBandEnergy M fineCenters fineValuesDb fineN coarseN c = 0 := by
      intro c
      simp [coarseBandEnergy, fineBands, hK, coarseEnergy]
    unfold downsampleSpectrumBands
    simp [hKn, hE]
  · have hp := downsample_pairs M fineCenters fineValuesDb fineN coarseN hK
    have hlen : (downsampleSpectrumBands M fineCenters fineValuesDb (some fineN)
        (some coarseN)).1.length = (downsampleSpectrumBands M fineCenters fineValuesDb
        (some fineN) (some coarseN)).2.length := by
      unfold downsampleSpectrumBands
      simp only
      split_ifs <;> simp
    have h1 := congrArg (List.map Prod.fst) hp
    have h2 := congrArg (List.map Prod.snd) hp
    rw [List.map_fst_zip _ _ hlen.le] at h1
    rw [List.map_snd_zip _ _ hlen.ge] at h2
    have hf := filterMap_ite
      (fun c => 0 < coarseBandEnergy M fineCenters fineValuesDb fineN coarseN c)
      (fun c => (c, 10 * M.log10
        (coarseBandEnergy M fineCenters fineValuesDb fineN coarseN c / P0_2)))
      (iecMakeCenters M coarseN 20 20000)
    unfold coarseBandEnergy fineBands at hf ⊢
    rw [hf] at h1 h2
    rw [List.map_map] at h1 h2
    apply Prod.ext
    · rw [h1]; exact List.map_id _
    · rw [h2]; rfl

theorem accumulateBand_weight {K : Type} [LinearOrderedField K] (loC hiC Eacc : K)
    (band : K × K × K) :
    accumulateBand loC hiC Eacc band = Eacc ∨
    ∃ w : K, 0 < w ∧ w ≤ 1 ∧ 0 < band.1 ∧ band.2.1 < band.2.2 ∧
      w = (min hiC band.2.2 - max loC band.2.1) / (band.2.2 - band.2.1) ∧
      accumulateBand loC hiC Eacc band = Eacc + band.1 * w := by
  obtain ⟨E, loF, hiF⟩ := band
  unfold accumulateBand
  simp only
  by_cases hE : E ≤ 0
  · left; rw [if_pos hE]
  · rw [if_neg hE]
    by_cases hw : loF < hiF
    · rw [if_neg (not_not.mpr hw)]
      by_cases ho : min hiC hiF ≤ max loC loF
      · left; rw [if_pos ho]
      · rw [if_neg ho]
        have hne : hiF - loF ≠ 0 := by linarith
        have hpos : 0 < hiF - loF := by linarith
        have hov : 0 < min hiC hiF - max loC loF := by
          have := not_le.mp ho
          linarith
        have hle : min hiC hiF - max loC loF ≤ hiF - loF := by
          have h1 : min hiC hiF ≤ hiF := min_le_right _ _
          have h2 : loF ≤ max loC loF := le_max_right _ _
          linarith
        have hwpos : 0 < (min hiC hiF - max loC loF) / (hiF - loF) := div_pos hov hpos
        right
        refine ⟨(min hiC hiF - max loC loF) / (hiF - loF), hwpos, ?_, lt_of_not_le hE, hw,
          rfl, ?_⟩
        · rw [div_le_one hpos]
          exact hle
        · rw [if_neg hne, if_pos hwpos]
    · left; rw [if_pos hw]

theorem foldl_accumulate_bounds {K : Type} [LinearOrderedField K] (loC hiC : K) :
    ∀ (bands : List (K × K × K)) (init : K), (∀ b ∈ bands, 0 ≤ b.1) →
      init ≤ bands.foldl (accumulateBand loC hiC) init ∧
      bands.foldl (accumulateBand loC hiC) init ≤ init + (bands.map (fun b => b.1)).sum := by
  intro bands
  induction bands with
  | nil => intro init _; simp
  | cons b t ih =>
    intro init h
    have hb := h b (List.mem_cons_self _ _)
    obtain ⟨h1, h2⟩ := ih (accumulateBand loC hiC init b)
      (fun b' hb' => h b' (List.mem_cons_of_mem _ hb'))
    rw [List.foldl_cons, List.map_cons, List.sum_cons]
    rcases accumulateBand_weight loC hiC init b with he | ⟨w, hw0, hw1, hE, -, -, he⟩
    · rw [he] at h1 h2 ⊢
      constructor
      · exact h1
      · linarith
    · rw [he] at h1 h2 ⊢
      have hm : 0 ≤ b.1 * w := mul_nonneg hb hw0.le
      have hm1 : b.1 * w ≤ b.1 := by nlinarith
      constructor
      · linarith
      · linarith

theorem fineBands_sum {K : Type} [LinearOrderedField K] [FloorRing K] (M : JsMath K)
    (fineCenters : List K) (fineValuesDb : List (Option K)) (fineN : K) :
    ((fineBands M fineCenters fineValuesDb fineN).map (fun b => b.1)).sum =
      ((fineCenters.zip fineValuesDb).map (fun p => fineEnergy M p.2)).sum := by
  unfold fineBands
  rw [List.map_map]
  rfl

theorem coarseBandEnergy_le {K : Type} [LinearOrderedField K] [FloorRing K] (M : JsMath K)
    (hnn : ∀ x : K, 0 ≤ M.pow10 x)
    (fineCenters : List K) (fineValuesDb : List (Option K)) (fineN coarseN c : K) :
    coarseBandEnergy M fineCenters fineValuesDb fineN coarseN c ≤
      ((fineCenters.zip fineValuesDb).map (fun p => fineEnergy M p.2)).sum := by
  have h := (foldl_accumulate_bounds (c / iecEdgeRatio M coarseN) (c * iecEdgeRatio M coarseN)
    (fineBands M fineCenters fineValuesDb fineN) 0 (by
      intro b hb
      unfold fineBands at hb
      rw [List.mem_map] at hb
      obtain ⟨p, -, rfl⟩ := hb
      exact fineEnergy_nonneg M hnn _)).2
  rw [zero_add, fineBands_sum] at h
  exact h


theorem realMath_laws : MathLaws realMath where
  pow10_pos := realMath_pos
  pow10_log10 := realMath_inv
  log10_pow10 := fun x => Real.logb_rpow (by norm_num) (by norm_num)
  pow10_int := fun n => Real.rpow_intCast 10 n
  pow10_lt := fun _ _ h => realMath_pow10_lt h

theorem nearestStep_inv {K : Type} [LinearOrderedField K] (mans : List K) (m : K) (best : Nat × Option K) (seen : List Nat)
    (j : Nat) (h : NearestInv mans m best seen) :
    NearestInv mans m (nearestStep mans m best j) (j :: seen) := by
  obtain ⟨h1, h2, h3⟩ := h
  unfold nearestStep
  simp only [h1]
  by_cases hlt : |mans.getD j 0 - m| < |mans.getD best.1 0 - m|
  · rw [if_pos hlt]
    refine ⟨rfl, List.mem_cons_self _ _, ?_⟩
    intro i hi
    rcases List.mem_cons.mp hi with rfl | hi
    · exact le_refl _
    · exact le_trans hlt.le (h3 i hi)
  · rw [if_neg hlt]
    refine ⟨h1, List.mem_cons_of_mem _ h2, ?_⟩
    intro i hi
    rcases List.mem_cons.mp hi with rfl | hi
    · exact not_lt.mp hlt
    · exact h3 i hi

theorem nearest_foldl_inv {K : Type} [LinearOrderedField K] (mans : List K) (m : K) :
    ∀ (js : List Nat) (best : Nat × Option K) (seen : List Nat),
      NearestInv mans m best seen →
      ∃ seen1 : List Nat, (∀ j, j ∈ seen1 ↔ j ∈ js ∨ j ∈ seen) ∧
        NearestInv mans m (js.foldl (nearestStep mans m) best) seen1 := by
  intro js
  induction js with
  | nil => intro best seen h; exact ⟨seen, by simp, h⟩
  | cons j t ih =>
    intro best seen h
    obtain ⟨s1, hs1, hinv⟩ := ih _ _ (nearestStep_inv mans m best seen j h)
    refine ⟨s1, ?_, hinv⟩
    intro i
    rw [hs1, List.mem_cons, List.mem_cons]
    tauto

/-- The inner loop of `iecSnapToRenard` returns an index of the table whose entry is
nearest to `m`. -/
theorem nearestIndex_spec {K : Type} [LinearOrderedField K] (mans : List K) (m : K) (hne : mans ≠ []) :
    nearestIndex mans m < mans.length ∧
    ∀ j, j < mans.length →
      |mans.getD (nearestIndex mans m) 0 - m| ≤ |mans.getD j 0 - m| := by
  obtain ⟨n, hn⟩ : ∃ n, mans.length = n + 1 :=
    ⟨mans.length - 1, by have := List.length_pos.mpr hne; omega⟩
  unfold nearestIndex
  rw [hn, List.range_succ_eq_map, List.foldl_cons]
  have h0 : NearestInv mans m (nearestStep mans m (0, none) 0) [0] := by
    unfold nearestStep NearestInv
    simp
  obtain ⟨s1, hs1, h1, h2, h3⟩ := nearest_foldl_inv mans m ((List.range n).map Nat.succ) _ [0] h0
  have hmem : ∀ j, j ∈ s1 ↔ j < n + 1 := by
    intro j
    rw [hs1, List.mem_map, List.mem_singleton]
    constructor
    · rintro (⟨i, hi, rfl⟩ | rfl)
      · have := List.mem_range.mp hi
        omega
      · omega
    · intro hj
      cases j with
      | zero => right; rfl
      | succ i => left; exact ⟨i, List.mem_range.mpr (by omega), rfl⟩
  exact ⟨(hmem _).mp h2, fun j hj => h3 j ((hmem j).mpr hj)⟩

theorem round6_grid {K : Type} [LinearOrderedField K] [FloorRing K] (z : Int) : round6 ((z : K) / 10 ^ 6) = (z : K) / 10 ^ 6 := by
  unfold round6
  have h : ⌊(z : K) / 10 ^ 6 * 10 ^ 6 + 1 / 2⌋ = z := by
    rw [Int.floor_eq_iff]
    have : (z : K) / 10 ^ 6 * 10 ^ 6 = z := by field_simp
    rw [this]
    constructor <;> norm_num
  rw [h]


theorem table_cases {K : Type} [LinearOrderedField K] (bpd : Int) (mans : List K)
    (h : IEC_RENARD_MANTISSAS bpd = some mans) :
    0 < bpd ∧ mans ≠ [] ∧ ∀ m ∈ mans, ∃ a : Int, m = (a : K) / 100 := by
  unfold IEC_RENARD_MANTISSAS at h
  have key : ∀ l : List Int, mans = l.map (fun (a : Int) => (a : K) / 100) → l ≠ [] →
      mans ≠ [] ∧ ∀ m ∈ mans, ∃ a : Int, m = (a : K) / 100 := by
    intro l hl hne
    subst hl
    refine ⟨by simpa using hne, ?_⟩
    intro m hm
    rw [List.mem_map] at hm
    obtain ⟨a, -, rfl⟩ := hm
    exact ⟨a, rfl⟩
  split_ifs at h with h3 h10 h20 h40
  · refine ⟨by omega, key [100, 200, 500] ?_ (by simp)⟩
    rw [← Option.some.inj h]
    simp
  · refine ⟨by omega, key [100, 125, 160, 200, 250, 315, 400, 500, 630, 800] ?_ (by simp)⟩
    rw [← Option.some.inj h]
    simp
  · refine ⟨by omega, key [100, 112, 125, 140, 160, 180, 200, 224, 250, 280, 315, 355, 400,
      450, 500, 560, 630, 710, 800, 900] ?_ (by simp)⟩
    rw [← Option.some.inj h]
    simp
  · refine ⟨by omega, key [100, 106, 112, 118, 125, 132, 140, 150, 160, 170, 180, 190, 200,
      212, 224, 236, 250, 265, 280, 300, 315, 335, 355, 375, 400, 425, 450, 475, 500, 530, 560,
      600, 630, 670, 710, 750, 800, 850, 900, 950] ?_ (by simp)⟩
    rw [← Option.some.inj h]
    simp

theorem snap_eq {K : Type} [LinearOrderedField K] [FloorRing K] (M : JsMath K)
    (vals : List K) (bpd : Int) (mans : List K)
    (h : IEC_RENARD_MANTISSAS bpd = some mans) (hne : mans ≠ []) :
    iecSnapToRenard M vals bpd =
      (((vals.filterMap (fun f =>
        if 0 < f then
          some (mans.getD (nearestIndex mans (f / M.pow10 ((⌊M.log10 f⌋ : Int) : K))) 0 *
            M.pow10 ((⌊M.log10 f⌋ : Int) : K))
        else none)).map round6).dedup).insertionSort (· ≤ ·) := by
  unfold iecSnapToRenard
  rw [h]
  simp only
  rw [if_neg (by simpa [List.length_eq_zero] using hne)]

theorem snap_sorted {K : Type} [LinearOrderedField K] [FloorRing K] (M : JsMath K)
    (vals : List K) (bpd : Int) (mans : List K)
    (h : IEC_RENARD_MANTISSAS bpd = some mans) (hne : mans ≠ []) :
    (iecSnapToRenard M vals bpd).Sorted (· < ·) := by
  rw [snap_eq M vals bpd mans h hne]
  apply List.Sorted.lt_of_le (List.sorted_insertionSort _ _)
  rw [(List.perm_insertionSort _ _).nodup_iff]
  exact List.nodup_dedup _

theorem makeCenters_sorted {K : Type} [LinearOrderedField K] [FloorRing K] (M : JsMath K)
    (n fmin fmax : K) (mans : List K)
    (h : IEC_RENARD_MANTISSAS (iecBandsPerDecadeFromNpo n) = some mans) :
    (iecMakeCenters M n fmin fmax).Sorted (· < ·) := by
  unfold iecMakeCenters
  simp only
  split_ifs
  · exact List.sorted_nil
  · exact List.Sorted.filter _ (snap_sorted M _ _ mans h (table_cases _ mans h).2.1)

/-- Where an element of the coarse grid comes from. -/
theorem makeCenters_mem {K : Type} [LinearOrderedField K] [FloorRing K] (M : JsMath K)
    (n fmin fmax : K) (mans : List K)
    (h : IEC_RENARD_MANTISSAS (iecBandsPerDecadeFromNpo n) = some mans)
    (c : K) (hc : c ∈ iecMakeCenters M n fmin fmax) :
    fmin ≤ c ∧ c ≤ fmax ∧
    ∃ k : Int,
      ⌈((iecBandsPerDecadeFromNpo n : Int) : K) * M.log10 (max fmin (1 / 10 ^ 12))⌉ ≤ k ∧
      k ≤ ⌊((iecBandsPerDecadeFromNpo n : Int) : K) * M.log10 (max fmax (1 / 10 ^ 12))⌋ ∧
      0 < M.pow10 ((k : K) / (iecBandsPerDecadeFromNpo n : K)) ∧
      c = round6 (mans.getD (nearestIndex mans
          (M.pow10 ((k : K) / (iecBandsPerDecadeFromNpo n : K)) /
            M.pow10 ((⌊M.log10 (M.pow10 ((k : K) / (iecBandsPerDecadeFromNpo n : K)))⌋ : Int)
              : K))) 0 *
        M.pow10 ((⌊M.log10 (M.pow10 ((k : K) / (iecBandsPerDecadeFromNpo n : K)))⌋ : Int)
          : K)) := by
  unfold iecMakeCenters at hc
  simp only at hc
  split_ifs at hc with hk
  · simp at hc
  · rw [List.mem_filter] at hc
    obtain ⟨hc1, hc2⟩ := hc
    simp only [Bool.and_eq_true, decide_eq_true_eq] at hc2
    refine ⟨hc2.1, hc2.2, ?_⟩
    rw [snap_eq M _ _ mans h (table_cases _ mans h).2.1,
      (List.perm_insertionSort _ _).mem_iff, List.mem_dedup, List.mem_map] at hc1
    obtain ⟨v, hv, rfl⟩ := hc1
    rw [List.mem_filterMap] at hv
    obtain ⟨f, hf, hfv⟩ := hv
    rw [List.mem_map] at hf
    obtain ⟨k, hkm, rfl⟩ := hf
    rw [List.mem_map] at hkm
    obtain ⟨i, hi, rfl⟩ := hkm
    rw [List.mem_range] at hi
    split_ifs at hfv with hpos
    · injection hfv with hfv
      subst hfv
      refine ⟨_, ?_, ?_, hpos, rfl⟩
      · omega
      · omega


theorem log10_twenty_ge {K : Type} [LinearOrderedField K] (M : JsMath K) (hM : MathLaws M) :
    1 ≤ M.log10 20 := by
  by_contra hlt
  have h1 := hM.pow10_lt _ _ (not_le.mp hlt)
  rw [hM.pow10_log10 20 (by norm_num)] at h1
  have h2 : M.pow10 (1 : K) = 10 := by
    have := hM.pow10_int 1
    simpa using this
  rw [h2] at h1
  norm_num at h1

theorem round6_nominal {K : Type} [LinearOrderedField K] [FloorRing K] (a e : Int)
    (he : 1 ≤ e) : round6 ((a : K) / 100 * (10 : K) ^ e) = (a : K) / 100 * (10 : K) ^ e := by
  obtain ⟨t, rfl⟩ : ∃ t : Nat, e = (t : Int) + 1 := ⟨(e - 1).toNat, by omega⟩
  have h : (a : K) / 100 * (10 : K) ^ ((t : Int) + 1) =
      ((a * 10 ^ (t + 5) : Int) : K) / 10 ^ 6 := by
    rw [zpow_add_one₀ (by norm_num), zpow_natCast]
    push_cast
    rw [pow_add]
    field_simp
    ring
  rw [h, round6_grid]

theorem bpd_values {K : Type} [LinearOrderedField K] [FloorRing K] :
    iecBandsPerDecadeFromNpo (3 : K) = 10 ∧ iecBandsPerDecadeFromNpo (12 : K) = 40 := by
  unfold iecBandsPerDecadeFromNpo
  constructor <;>
  · rw [Int.floor_eq_iff]
    norm_num

/-- C25: when the band density `round(n*10/3)` has a mantissa table, which is so for the
densities 3, 10, 20 and 40 only (`n = 3` gives 10, `n = 12` gives 40),
`iecMakeCenters(n, 20, 20000)` is strictly increasing and duplicate-free, and each of its
centres lies in `[20, 20000]` and is `m * 10^e` for a candidate `10^(k/bpd)`, with `e` the
floor of the candidate's logarithm and `m` an entry of the table that is nearest to the
candidate's mantissa. Exact arithmetic with `Math.pow(10, ·)` and `Math.log10` obeying
`MathLaws`. -/
theorem iecMakeCenters_nominal {K : Type} [LinearOrderedField K] [FloorRing K]
    (M : JsMath K) (hM : MathLaws M) (n : K) (mans : List K)
    (htab : IEC_RENARD_MANTISSAS (iecBandsPerDecadeFromNpo n) = some mans) :
    (iecBandsPerDecadeFromNpo n = 3 ∨ iecBandsPerDecadeFromNpo n = 10 ∨
      iecBandsPerDecadeFromNpo n = 20 ∨ iecBandsPerDecadeFromNpo n = 40) ∧
    iecBandsPerDecadeFromNpo (3 : K) = 10 ∧ iecBandsPerDecadeFromNpo (12 : K) = 40 ∧
    (iecMakeCenters M n 20 20000).Sorted (· < ·) ∧
    (iecMakeCenters M n 20 20000).Nodup ∧
    ∀ c ∈ iecMakeCenters M n 20 20000, 20 ≤ c ∧ c ≤ 20000 ∧
      ∃ (k e : Int) (m : K),
        e = ⌊M.log10 (M.pow10 ((k : K) / (iecBandsPerDecadeFromNpo n : K)))⌋ ∧
        m ∈ mans ∧
        (∀ m1 ∈ mans,
          |m - M.pow10 ((k : K) / (iecBandsPerDecadeFromNpo n : K)) / (10 : K) ^ e| ≤
            |m1 - M.pow10 ((k : K) / (iecBandsPerDecadeFromNpo n : K)) / (10 : K) ^ e|) ∧
        c = m * (10 : K) ^ e := by
  have hsorted := makeCenters_sorted M n 20 20000 mans htab
  obtain ⟨hbpd, hne, hint⟩ := table_cases _ mans htab
  refine ⟨?_, bpd_values.1, bpd_values.2, hsorted, hsorted.nodup, ?_⟩
  · unfold IEC_RENARD_MANTISSAS at htab
    split_ifs at htab with h3 h10 h20 h40
    · exact Or.inl h3
    · exact Or.inr (Or.inl h10)
    · exact Or.inr (Or.inr (Or.inl h20))
    · exact Or.inr (Or.inr (Or.inr h40))
  · intro c hc
    obtain ⟨h1, h2, k, hk1, -, -, hceq⟩ := makeCenters_mem M n 20 20000 mans htab c hc
    have hmax : max (20 : K) (1 / 10 ^ 12) = 20 := by
      apply max_eq_left
      rw [div_le_iff₀ (by positivity)]
      norm_num
    rw [hmax] at hk1
    have hk2 := Int.ceil_le.mp hk1
    have hb : (0 : K) < (iecBandsPerDecadeFromNpo n : K) := by exact_mod_cast hbpd
    have hge : (1 : K) ≤ (k : K) / (iecBandsPerDecadeFromNpo n : K) := by
      rw [le_div_iff₀ hb]
      have := log10_twenty_ge M hM
      nlinarith
    have he : 1 ≤ ⌊M.log10 (M.pow10 ((k : K) / (iecBandsPerDecadeFromNpo n : K)))⌋ := by
      rw [hM.log10_pow10, Int.le_floor]
      simpa using hge
    refine ⟨h1, h2, k, ⌊M.log10 (M.pow10 ((k : K) / (iecBandsPerDecadeFromNpo n : K)))⌋, ?_⟩
    generalize ⌊M.log10 (M.pow10 ((k : K) / (iecBandsPerDecadeFromNpo n : K)))⌋ = e at *
    generalize M.pow10 ((k : K) / (iecBandsPerDecadeFromNpo n : K)) = cand at *
    rw [hM.pow10_int e] at hceq
    obtain ⟨hidx, hmin⟩ := nearestIndex_spec mans (cand / (10 : K) ^ e) hne
    have hmem : mans.getD (nearestIndex mans (cand / (10 : K) ^ e)) 0 ∈ mans := by
      rw [List.getD_eq_getElem _ _ hidx]
      exact List.getElem_mem _
    refine ⟨mans.getD (nearestIndex mans (cand / (10 : K) ^ e)) 0, rfl, hmem, ?_, ?_⟩
    · intro m1 hm1
      obtain ⟨j, hj, rfl⟩ := List.getElem_of_mem hm1
      have := hmin j hj
      rw [List.getD_eq_getElem _ _ hj] at this
      exact this
    · obtain ⟨a, ha⟩ := hint _ hmem
      rw [hceq, ha]
      exact round6_nominal a e he

/-- C25 over the reals for `n = 3`, density 10: the grid is strictly increasing, lies in
`[20, 20000]` and contains 1000. -/
theorem iecMakeCenters_nominal_witness :
    (iecMakeCenters realMath 3 20 20000).Sorted (· < ·) ∧
    (iecMakeCenters realMath 3 20 20000).Nodup ∧
    (1000 : ℝ) ∈ iecMakeCenters realMath 3 20 20000 :=
  have h := iecMakeCenters_nominal realMath realMath_laws 3
    [100 / 100, 125 / 100, 160 / 100, 200 / 100, 250 / 100, 315 / 100, 400 / 100, 500 / 100,
      630 / 100, 800 / 100] (by rw [bpd_three]; simp [IEC_RENARD_MANTISSAS])
  ⟨h.2.2.2.1, h.2.2.2.2.1, thousand_mem_centers⟩


theorem zip_map_self {α β : Type} (f : α → β) (l : List α) :
    l.zip (l.map f) = l.map (fun a => (a, f a)) := by
  induction l with
  | nil => rfl
  | cons a t ih => simp [ih]

/-- The output of the aggregator as pairs of a centre and its level. -/
theorem downsample_zip {K : Type} [LinearOrderedField K] [FloorRing K] (M : JsMath K)
    (fineCenters : List K) (fineValuesDb : List (Option K)) (fineN coarseN : K) :
    (downsampleSpectrumBands M fineCenters fineValuesDb (some fineN) (some coarseN)).1.zip
      (downsampleSpectrumBands M fineCenters fineValuesDb (some fineN) (some coarseN)).2 =
    ((iecMakeCenters M coarseN 20 20000).filter (fun c =>
      decide (0 < coarseBandEnergy M fineCenters fineValuesDb fineN coarseN c))).map
      (fun c => (c, 10 * M.log10
        (coarseBandEnergy M fineCenters fineValuesDb fineN coarseN c / P0_2))) := by
  rw [downsample_eq]
  exact zip_map_self _ _

theorem coarseEnergy_skip {K : Type} [LinearOrderedField K] (loC hiC loF hiF : K)
    (bs1 bs2 : List (K × K × K)) (E : K) (hE : E ≤ 0) :
    coarseEnergy loC hiC (bs1 ++ (E, loF, hiF) :: bs2) = coarseEnergy loC hiC (bs1 ++ bs2) := by
  unfold coarseEnergy
  rw [List.foldl_append, List.foldl_append, List.foldl_cons]
  congr 1
  unfold accumulateBand
  simp only
  rw [if_pos hE]

/-- C23 (amended): a fine band whose level is non-finite has energy 0 and adds nothing to
any coarse band, wherever it stands in the list; a fine band with a finite level `d`,
also `d ≤ 0`, has the positive energy `P0_2 * 10^(d/10)` and adds a positive share to every
coarse band it overlaps. The aggregator is a total function. -/
theorem nonfinite_level_no_energy {K : Type} [LinearOrderedField K] [FloorRing K]
    (M : JsMath K) (hpos : ∀ x : K, 0 < M.pow10 x) (loC hiC loF hiF Eacc d : K)
    (bs1 bs2 : List (K × K × K)) :
    fineEnergy M none = 0 ∧
    accumulateBand loC hiC Eacc (fineEnergy M none, loF, hiF) = Eacc ∧
    coarseEnergy loC hiC (bs1 ++ (fineEnergy M none, loF, hiF) :: bs2) =
      coarseEnergy loC hiC (bs1 ++ bs2) ∧
    fineEnergy M (some d) = P0_2 * M.pow10 (d / 10) ∧
    0 < fineEnergy M (some d) ∧
    (max loC loF < min hiC hiF →
      Eacc < accumulateBand loC hiC Eacc (fineEnergy M (some d), loF, hiF)) := by
  have hE : 0 < fineEnergy M (some d) := mul_pos P0_2_pos (hpos _)
  refine ⟨rfl, ?_, coarseEnergy_skip loC hiC loF hiF bs1 bs2 _ (le_refl _), rfl, hE, ?_⟩
  · unfold accumulateBand
    simp [fineEnergy]
  · intro hov
    have hlt : loF < hiF := by
      have h1 : loF ≤ max loC loF := le_max_right _ _
      have h2 : min hiC hiF ≤ hiF := min_le_right _ _
      linarith
    rcases accumulateBand_weight loC hiC Eacc (fineEnergy M (some d), loF, hiF) with
      h | ⟨w, hw, -, -, -, -, h⟩
    · exfalso
      unfold accumulateBand at h
      simp only at h
      rw [if_neg (not_le.mpr hE), if_neg (not_not.mpr hlt), if_neg (not_le.mpr hov)] at h
      have hne : hiF - loF ≠ 0 := by linarith
      have hwp : 0 < (min hiC hiF - max loC loF) / (hiF - loF) :=
        div_pos (by linarith) (by linarith)
      rw [if_neg hne, if_pos hwp] at h
      have := mul_pos hE hwp
      linarith
    · rw [h]
      have := mul_pos hE hw
      linarith

/-- C23 (amended) over the reals, for the level -10 dB. -/
theorem nonfinite_level_no_energy_witness :
    fineEnergy realMath none = 0 ∧ 0 < fineEnergy realMath (some (-10)) :=
  have h := nonfinite_level_no_energy realMath realMath_pos 1 4 2 3 0 (-10) [] []
  ⟨h.1, h.2.2.2.2.1⟩

/-- The coarse band at 1000 Hz when the only fine band is the 1/48-octave band at 1000 Hz
with a finite level: its accumulated energy is the energy of that band. -/
theorem coarseBandEnergy_single (d : ℝ) :
    coarseBandEnergy realMath [1000] [some d] 48 3 1000 = P0_2 * realMath.pow10 (d / 10) := by
  unfold coarseBandEnergy fineBands
  rw [coarseEnergy_clean realMath (fun x => (realMath_pos x).le) [1000] [some d] 48 _ _ (by
    intro p hp _ _
    simp only [List.zip_cons_cons, List.zip_nil_right, List.mem_singleton] at hp
    rw [hp]
    exact Or.inl fine_band_inside_example.2)]
  unfold containedEnergySpec
  simp only [List.zip_cons_cons, List.zip_nil_right, List.map_cons, List.map_nil,
    List.sum_cons, List.sum_nil, add_zero]
  have h := fine_band_inside_example
  unfold finePositiveWidth fineInside at h
  rw [if_pos ⟨h.1, h.2.1, h.2.2⟩]
  rfl

/-- That band is emitted, with the level of the fine band. -/
theorem single_band_emitted (d : ℝ) :
    ((1000 : ℝ), d) ∈
      (downsampleSpectrumBands realMath [1000] [some d] (some 48) (some 3)).1.zip
      (downsampleSpectrumBands realMath [1000] [some d] (some 48) (some 3)).2 := by
  have hE := coarseBandEnergy_single d
  have hpos : (0 : ℝ) < P0_2 * realMath.pow10 (d / 10) :=
    mul_pos P0_2_pos (realMath_pos _)
  rw [downsample_zip, List.mem_map]
  refine ⟨1000, ?_, ?_⟩
  · rw [List.mem_filter]
    refine ⟨thousand_mem_centers, ?_⟩
    rw [hE]
    simpa using hpos
  · rw [hE]
    have h1 : (P0_2 : ℝ) * realMath.pow10 (d / 10) / P0_2 = realMath.pow10 (d / 10) := by
      field_simp [P0_2_pos.ne']
    rw [h1, realMath_laws.log10_pow10]
    congr 1
    ring

/-- C23 fails as stated: a single 1/48-octave band at 1000 Hz with the non-positive level
-10 dB gives the 1/3-octave band at 1000 Hz the positive energy `P0_2 / 10`, and that band
is emitted with the level -10 dB. -/
theorem nonpositive_level_counterexample :
    coarseBandEnergy realMath [1000] [some (-10)] 48 3 1000 = P0_2 / 10 ∧
    (0 : ℝ) < P0_2 / 10 ∧
    ((1000 : ℝ), (-10 : ℝ)) ∈
      (downsampleSpectrumBands realMath [1000] [some (-10)] (some 48) (some 3)).1.zip
      (downsampleSpectrumBands realMath [1000] [some (-10)] (some 48) (some 3)).2 := by
  have hp : realMath.pow10 ((-10 : ℝ) / 10) = 1 / 10 := by
    show (10 : ℝ) ^ ((-10 : ℝ) / 10) = 1 / 10
    have : ((-10 : ℝ) / 10) = ((-1 : Int) : ℝ) := by norm_num
    rw [this, Real.rpow_intCast]
    norm_num
  refine ⟨?_, div_pos P0_2_pos (by norm_num), single_band_emitted (-10)⟩
  rw [coarseBandEnergy_single, hp]
  ring


theorem downsample_none {K : Type} [LinearOrderedField K] [FloorRing K] (M : JsMath K)
    (fineCenters : List K) (fineValuesDb : List (Option K)) (fo co : Option K)
    (h : fo = none ∨ co = none) :
    downsampleSpectrumBands M fineCenters fineValuesDb fo co = ([], []) := by
  unfold downsampleSpectrumBands
  rcases h with rfl | rfl
  · rfl
  · cases fo <;> rfl

/-- C24: `downsampleSpectrumBands` returns `centers` and `valuesDb` of equal length; for
finite resolutions the centres are those of the coarse grid `iecMakeCenters(coarseN, 20,
20000)` whose accumulated energy is strictly positive, in the order of the grid, each with
the level of that energy, so a centre of the grid is present exactly when its energy is
positive; with a coarse density that has a mantissa table they are strictly increasing; and
the result is empty when an input list is empty, a resolution is not finite or the grid is
empty. -/
theorem downsample_shape {K : Type} [LinearOrderedField K] [FloorRing K] (M : JsMath K)
    (fineCenters : List K) (fineValuesDb : List (Option K)) (fineN coarseN : K)
    (fo co : Option K) :
    (downsampleSpectrumBands M fineCenters fineValuesDb fo co).1.length =
      (downsampleSpectrumBands M fineCenters fineValuesDb fo co).2.length ∧
    (downsampleSpectrumBands M fineCenters fineValuesDb (some fineN) (some coarseN)).1 =
      (iecMakeCenters M coarseN 20 20000).filter (fun c =>
        decide (0 < coarseBandEnergy M fineCenters fineValuesDb fineN coarseN c)) ∧
    (downsampleSpectrumBands M fineCenters fineValuesDb (some fineN) (some coarseN)).2 =
      ((iecMakeCenters M coarseN 20 20000).filter (fun c =>
        decide (0 < coarseBandEnergy M fineCenters fineValuesDb fineN coarseN c))).map
        (fun c => 10 * M.log10
          (coarseBandEnergy M fineCenters fineValuesDb fineN coarseN c / P0_2)) ∧
    List.Sublist
      (downsampleSpectrumBands M fineCenters fineValuesDb (some fineN) (some coarseN)).1
      (iecMakeCenters M coarseN 20 20000) ∧
    (∀ c ∈ iecMakeCenters M coarseN 20 20000,
      (c ∈ (downsampleSpectrumBands M fineCenters fineValuesDb (some fineN)
          (some coarseN)).1 ↔
        0 < coarseBandEnergy M fineCenters fineValuesDb fineN coarseN c)) ∧
    (∀ mans : List K, IEC_RENARD_MANTISSAS (iecBandsPerDecadeFromNpo coarseN) = some mans →
      (downsampleSpectrumBands M fineCenters fineValuesDb (some fineN)
        (some coarseN)).1.Sorted (· < ·)) ∧
    (fineCenters = [] ∨ fineValuesDb = [] ∨ iecMakeCenters M coarseN 20 20000 = [] →
      downsampleSpectrumBands M fineCenters fineValuesDb (some fineN) (some coarseN) =
        ([], [])) ∧
    (fo = none ∨ co = none →
      downsampleSpectrumBands M fineCenters fineValuesDb fo co = ([], [])) := by
  have heq := downsample_eq M fineCenters fineValuesDb fineN coarseN
  refine ⟨?_, ?_, ?_, ?_, ?_, ?_, ?_, downsample_none M fineCenters fineValuesDb fo co⟩
  · cases fo with
    | none => rw [downsample_none M _ _ _ _ (Or.inl rfl)]
    | some f =>
      cases co with
      | none => rw [downsample_none M _ _ _ _ (Or.inr rfl)]
      | some c => rw [downsample_eq]; simp
  · rw [heq]
  · rw [heq]
  · rw [heq]
    exact List.filter_sublist _
  · intro c hc
    rw [heq, List.mem_filter]
    simp [hc]
  · intro mans hm
    rw [heq]
    exact List.Sorted.filter _ (makeCenters_sorted M coarseN 20 20000 mans hm)
  · intro h
    rw [heq]
    rcases h with h | h | h
    · have hE : ∀ c, coarseBandEnergy M fineCenters fineValuesDb fineN coarseN c = 0 := by
        intro c
        simp [coarseBandEnergy, fineBands, h, coarseEnergy]
      simp [hE]
    · have hE : ∀ c, coarseBandEnergy M fineCenters fineValuesDb fineN coarseN c = 0 := by
        intro c
        simp [coarseBandEnergy, fineBands, h, coarseEnergy]
      simp [hE]
    · simp [h]

/-- C30: when the inner loop adds a fine band to a coarse band it adds its energy times a
weight in `(0, 1]`, the overlap over the fine width; so for every emitted coarse band the
linear energy `pRef^2 * 10^(L/10)` of its level is the accumulated energy, which is at
most the sum of the energies of the fine bands, those of non-finite level counting 0.
Exact arithmetic, with `Math.pow(10, ·)` positive and a right inverse of `Math.log10` on
positive numbers. -/
theorem coarse_energy_bounded {K : Type} [LinearOrderedField K] [FloorRing K]
    (M : JsMath K) (hinv : ∀ z : K, 0 < z → M.pow10 (M.log10 z) = z)
    (hpos : ∀ x : K, 0 < M.pow10 x)
    (fineCenters : List K) (fineValuesDb : List (Option K)) (fineN coarseN c L : K)
    (hL : (c, L) ∈
      (downsampleSpectrumBands M fineCenters fineValuesDb (some fineN) (some coarseN)).1.zip
      (downsampleSpectrumBands M fineCenters fineValuesDb (some fineN) (some coarseN)).2)
    (loC hiC Eacc : K) (band : K × K × K) :
    (accumulateBand loC hiC Eacc band = Eacc ∨
      ∃ w : K, 0 < w ∧ w ≤ 1 ∧
        w = (min hiC band.2.2 - max loC band.2.1) / (band.2.2 - band.2.1) ∧
        accumulateBand loC hiC Eacc band = Eacc + band.1 * w) ∧
    energySpec M L = coarseBandEnergy M fineCenters fineValuesDb fineN coarseN c ∧
    energySpec M L ≤
      ((fineCenters.zip fineValuesDb).map (fun p => fineEnergy M p.2)).sum := by
  have hE : energySpec M L = coarseBandEnergy M fineCenters fineValuesDb fineN coarseN c := by
    rw [downsample_zip, List.mem_map] at hL
    obtain ⟨c1, hc1, heq⟩ := hL
    rw [List.mem_filter] at hc1
    have hp : 0 < coarseBandEnergy M fineCenters fineValuesDb fineN coarseN c1 := by
      simpa using hc1.2
    injection heq with h1 h2
    subst h1
    rw [← h2]
    unfold energySpec
    have h10 : (10 : K) * M.log10
        (coarseBandEnergy M fineCenters fineValuesDb fineN coarseN c1 / P0_2) / 10 =
        M.log10 (coarseBandEnergy M fineCenters fineValuesDb fineN coarseN c1 / P0_2) := by
      field_simp
    rw [h10, hinv _ (div_pos hp P0_2_pos)]
    have hP : (P0_2 : K) = (20 / 10 ^ 6) ^ 2 := rfl
    rw [← hP]
    field_simp [P0_2_pos.ne']
  refine ⟨?_, hE, ?_⟩
  · rcases accumulateBand_weight loC hiC Eacc band with h | ⟨w, h1, h2, -, -, h3, h4⟩
    · exact Or.inl h
    · exact Or.inr ⟨w, h1, h2, h3, h4⟩
  · rw [hE]
    exact coarseBandEnergy_le M (fun x => (hpos x).le) fineCenters fineValuesDb fineN coarseN c

/-- C30 over the reals, for the 1/48-octave band at 1000 Hz with level 30 dB aggregated to
1/3 octave. -/
theorem coarse_energy_bounded_witness :
    energySpec realMath 30 = coarseBandEnergy realMath [1000] [some 30] 48 3 1000 ∧
    energySpec realMath 30 ≤
      (([(1000 : ℝ)].zip [some (30 : ℝ)]).map (fun p => fineEnergy realMath p.2)).sum :=
  (coarse_energy_bounded realMath realMath_inv realMath_pos [1000] [some 30] 48 3 1000 30
    (single_band_emitted 30) 0 1 0 (0, 0, 0)).2


/-! ## Theorems: series of a curve -/

theorem pointsOf_fst {K : Type} (cs : List K) : ∀ vs : List K,
    (pointsOf cs vs).map Prod.fst = cs := by
  induction cs with
  | nil => intro vs; rfl
  | cons c t ih => intro vs; simp [pointsOf, ih]

/-- With a mantissa table every centre of the grid is a multiple of `10^-6`. -/
theorem makeCenters_micro {K : Type} [LinearOrderedField K] [FloorRing K] (M : JsMath K)
    (n fmin fmax : K) (mans : List K)
    (h : IEC_RENARD_MANTISSAS (iecBandsPerDecadeFromNpo n) = some mans)
    (c : K) (hc : c ∈ iecMakeCenters M n fmin fmax) : ∃ z : Int, c = (z : K) / 10 ^ 6 := by
  obtain ⟨-, -, k, -, -, -, hceq⟩ := makeCenters_mem M n fmin fmax mans h c hc
  rw [hceq]
  exact ⟨_, rfl⟩

theorem downsample_nil {K : Type} [LinearOrderedField K] [FloorRing K] (M : JsMath K)
    (fineValuesDb : List (Option K)) (fineN coarseN : K) :
    downsampleSpectrumBands M [] fineValuesDb (some fineN) (some coarseN) = ([], []) := by
  unfold downsampleSpectrumBands
  simp

theorem seriesPoints_fine {K : Type} [LinearOrderedField K] [FloorRing K] (M : JsMath K)
    (fineCenters fineValsDb : List K) (calibN modelN : Option K) :
    seriesPoints M ResolutionMode.r1_48 fineCenters fineValsDb calibN modelN =
      pointsOf fineCenters fineValsDb := by
  unfold seriesPoints
  split_ifs with h
  · rw [List.length_eq_zero] at h
    rw [h]
    rfl
  · rfl

theorem seriesPoints_aggregated {K : Type} [LinearOrderedField K] [FloorRing K] (M : JsMath K)
    (fineCenters fineValsDb : List K) (calibN modelN : Option K) :
    seriesPoints M ResolutionMode.r1_3 fineCenters fineValsDb calibN modelN =
      pointsOf
        (downsampleSpectrumBands M fineCenters (fineValsDb.map some)
          (some (nativeNPerOct calibN modelN)) (some 3)).1
        (downsampleSpectrumBands M fineCenters (fineValsDb.map some)
          (some (nativeNPerOct calibN modelN)) (some 3)).2 ∧
    seriesPoints M ResolutionMode.r1_12 fineCenters fineValsDb calibN modelN =
      pointsOf
        (downsampleSpectrumBands M fineCenters (fineValsDb.map some)
          (some (nativeNPerOct calibN modelN)) (some 12)).1
        (downsampleSpectrumBands M fineCenters (fineValsDb.map some)
          (some (nativeNPerOct calibN modelN)) (some 12)).2 := by
  constructor <;>
  · unfold seriesPoints
    split_ifs with h
    · rw [List.length_eq_zero] at h
      rw [h, downsample_nil]
      rfl
    · rfl

/-- C26 (amended): the points of a curve are its fine list unchanged exactly in the mode
`'1_48'`; in the modes `'1_3'` and `'1_12'` they are the output of the aggregator for the
coarse resolution 3, respectively 12, whatever the native resolution of the model, also
when the display resolution is not coarser than the native one. -/
theorem seriesPoints_by_mode {K : Type} [LinearOrderedField K] [FloorRing K] (M : JsMath K)
    (fineCenters fineValsDb : List K) (calibN modelN : Option K) :
    seriesPoints M ResolutionMode.r1_48 fineCenters fineValsDb calibN modelN =
      pointsOf fineCenters fineValsDb ∧
    seriesPoints M ResolutionMode.r1_3 fineCenters fineValsDb calibN modelN =
      pointsOf
        (downsampleSpectrumBands M fineCenters (fineValsDb.map some)
          (some (nativeNPerOct calibN modelN)) (some 3)).1
        (downsampleSpectrumBands M fineCenters (fineValsDb.map some)
          (some (nativeNPerOct calibN modelN)) (some 3)).2 ∧
    seriesPoints M ResolutionMode.r1_12 fineCenters fineValsDb calibN modelN =
      pointsOf
        (downsampleSpectrumBands M fineCenters (fineValsDb.map some)
          (some (nativeNPerOct calibN modelN)) (some 12)).1
        (downsampleSpectrumBands M fineCenters (fineValsDb.map some)
          (some (nativeNPerOct calibN modelN)) (some 12)).2 ∧
    nativeNPerOct (none : Option K) none = 48 ∧
    (∀ v : K, nativeNPerOct (some v) modelN = v) ∧
    (∀ v : K, nativeNPerOct none (some v) = v) :=
  ⟨seriesPoints_fine M fineCenters fineValsDb calibN modelN,
    (seriesPoints_aggregated M fineCenters fineValsDb calibN modelN).1,
    (seriesPoints_aggregated M fineCenters fineValsDb calibN modelN).2,
    rfl, fun _ => rfl, fun _ => rfl⟩

/-- C26 fails as stated: a model of native resolution 12 shown in the mode `'1_12'`, a
display resolution not coarser than the native one, is still aggregated; its fine list with
the single band at 1000.0000001 Hz is not what is shown, every centre shown being a centre
of the nominal grid, a multiple of 0.000001 Hz. -/
theorem seriesPoints_native_twelve_counterexample :
    nativeNPerOct (some (12 : ℝ)) none = 12 ∧
    seriesPoints realMath ResolutionMode.r1_12 [1000 + 1 / 10 ^ 7] [30] (some 12) none ≠
      pointsOf [1000 + 1 / 10 ^ 7] [30] := by
  refine ⟨rfl, ?_⟩
  intro heq
  have h1 := congrArg (List.map Prod.fst) heq
  rw [(seriesPoints_aggregated realMath [1000 + 1 / 10 ^ 7] [30] (some 12) none).2,
    pointsOf_fst, pointsOf_fst, downsample_eq] at h1
  have hmem : (1000 + 1 / 10 ^ 7 : ℝ) ∈ iecMakeCenters realMath 12 20 20000 := by
    have h2 : (1000 + 1 / 10 ^ 7 : ℝ) ∈ [(1000 + 1 / 10 ^ 7 : ℝ)] := List.mem_singleton.mpr rfl
    rw [← h1] at h2
    exact (List.mem_filter.mp h2).1
  obtain ⟨z, hz⟩ := makeCenters_micro realMath 12 20 20000
    [100 / 100, 106 / 100, 112 / 100, 118 / 100, 125 / 100, 132 / 100, 140 / 100,
      150 / 100, 160 / 100, 170 / 100, 180 / 100, 190 / 100, 200 / 100, 212 / 100, 224 / 100,
      236 / 100, 250 / 100, 265 / 100, 280 / 100, 300 / 100, 315 / 100, 335 / 100, 355 / 100,
      375 / 100, 400 / 100, 425 / 100, 450 / 100, 475 / 100, 500 / 100, 530 / 100, 560 / 100,
      600 / 100, 630 / 100, 670 / 100, 710 / 100, 750 / 100, 800 / 100, 850 / 100, 900 / 100,
      950 / 100] (by rw [bpd_values.2]; simp [IEC_RENARD_MANTISSAS]) _ hmem
  have h3 : (10 : ℝ) * (z : ℝ) = 10 ^ 10 + 1 := by
    have h4 : (z : ℝ) = (1000 + 1 / 10 ^ 7) * 10 ^ 6 := by
      rw [hz]
      field_simp
    rw [h4]
    norm_num
  have h5 : (10 : Int) * z = 10 ^ 10 + 1 := by exact_mod_cast h3
  omega


theorem getSeriesRpm_no_model (xQuery : ℚ) (ph : Option PchipModel) (cache : PointCache)
    (modelRpmMax : JsNum) (dataRpm : Option (List JsNum))
    (h : ph = none ∨ ∃ pm, ph = some pm ∧ (pm.x = none ∨ pm.y = none ∨ pm.m = none)) :
    getSeriesRpmForCurrentX XMode.noise xQuery ph cache modelRpmMax dataRpm =
      rpmMaxForSeries modelRpmMax dataRpm := by
  rcases h with rfl | ⟨pm, rfl, h⟩
  · rfl
  · rcases pm with ⟨_ | xs, _ | ys, _ | ms, x0, x1⟩ <;> first | rfl | simp at h

theorem getSeriesRpm_model (xQuery : ℚ) (xs ys ms : List ℚ) (x0 x1 : ℚ) (cache : PointCache)
    (modelRpmMax : JsNum) (dataRpm : Option (List JsNum)) :
    getSeriesRpmForCurrentX XMode.noise xQuery (mkModel xs ys ms x0 x1) cache modelRpmMax
        dataRpm =
      match (evalPchipJS (mkModel xs ys ms x0 x1) cache xQuery).1 with
      | some rpm => if 0 < rpm then rpm else 0
      | none => 0 := rfl

/-- C27 (amended): with the noise axis controlling, `getSeriesRpmForCurrentX` returns
`rpmMaxForSeries` when the curve has no noise-to-RPM cross-model with its three arrays;
when it has one, it returns the value of the cross-model if that is finite and positive,
and 0, not the maximum RPM, if it is non-positive or not finite. -/
theorem getSeriesRpm_noise_axis (xQuery : ℚ) (ph : Option PchipModel) (cache : PointCache)
    (modelRpmMax : JsNum) (dataRpm : Option (List JsNum)) (xs ys ms : List ℚ) (x0 x1 : ℚ) :
    ((ph = none ∨ ∃ pm, ph = some pm ∧ (pm.x = none ∨ pm.y = none ∨ pm.m = none)) →
      getSeriesRpmForCurrentX XMode.noise xQuery ph cache modelRpmMax dataRpm =
        rpmMaxForSeries modelRpmMax dataRpm) ∧
    (∀ rpm, (evalPchipJS (mkModel xs ys ms x0 x1) cache xQuery).1 = some rpm → 0 < rpm →
      getSeriesRpmForCurrentX XMode.noise xQuery (mkModel xs ys ms x0 x1) cache modelRpmMax
        dataRpm = rpm) ∧
    (∀ rpm, (evalPchipJS (mkModel xs ys ms x0 x1) cache xQuery).1 = some rpm → rpm ≤ 0 →
      getSeriesRpmForCurrentX XMode.noise xQuery (mkModel xs ys ms x0 x1) cache modelRpmMax
        dataRpm = 0) ∧
    ((evalPchipJS (mkModel xs ys ms x0 x1) cache xQuery).1 = none →
      getSeriesRpmForCurrentX XMode.noise xQuery (mkModel xs ys ms x0 x1) cache modelRpmMax
        dataRpm = 0) := by
  refine ⟨getSeriesRpm_no_model xQuery ph cache modelRpmMax dataRpm, ?_, ?_, ?_⟩
  · intro rpm h hp
    rw [getSeriesRpm_model, h]
    simp [hp]
  · intro rpm h hp
    rw [getSeriesRpm_model, h]
    simp [not_lt.mpr hp]
  · intro h
    rw [getSeriesRpm_model, h]

/-- C27 fails as stated: a cross-model that evaluates to 0 RPM gives the operating point 0,
while the maximum RPM of the curve is 3000. -/
theorem getSeriesRpm_nonpositive_counterexample :
    (evalPchipJS crossModelZero [] 30).1 = some 0 ∧
    getSeriesRpmForCurrentX XMode.noise 30 crossModelZero [] (some 3000) none = 0 ∧
    rpmMaxForSeries (some 3000) none = 3000 := by
  have hv : (evalPchipJS crossModelZero [] 30).1 = some 0 :=
    evalPchipJS_fresh_one [30] [0] [0] 30 30 30 rfl
  refine ⟨hv, ?_, ?_⟩
  · have h := getSeriesRpm_model 30 [30] [0] [0] 30 30 [] (some 3000) none
    have hv' : (evalPchipJS (mkModel [30] [0] [0] 30 30) [] 30).1 = some 0 := hv
    rw [hv'] at h
    simpa [crossModelZero] using h
  · simp [rpmMaxForSeries]


/-! ## Theorems: colour indices -/

theorem foldl_firstOccurrence {α : Type} [DecidableEq α] (l : List α) :
    ∀ init : List α, init.Nodup →
      (l.foldl (fun acc k => if k ∈ acc then acc else acc ++ [k]) init).Nodup ∧
      ∀ k, k ∈ l.foldl (fun acc k => if k ∈ acc then acc else acc ++ [k]) init ↔
        k ∈ init ∨ k ∈ l := by
  induction l with
  | nil => intro init h; exact ⟨h, by simp⟩
  | cons a t ih =>
    intro init h
    rw [List.foldl_cons]
    by_cases ha : a ∈ init
    · rw [if_pos ha]
      obtain ⟨h1, h2⟩ := ih init h
      refine ⟨h1, fun k => ?_⟩
      rw [h2, List.mem_cons]
      constructor
      · rintro (h | h)
        · exact Or.inl h
        · exact Or.inr (Or.inr h)
      · rintro (h | rfl | h)
        · exact Or.inl h
        · exact Or.inl ha
        · exact Or.inr h
    · rw [if_neg ha]
      have hn : (init ++ [a]).Nodup := by
        rw [List.nodup_append]
        refine ⟨h, List.nodup_singleton a, ?_⟩
        intro x hx hx2
        rw [List.mem_singleton] at hx2
        exact ha (hx2 ▸ hx)
      obtain ⟨h1, h2⟩ := ih _ hn
      refine ⟨h1, fun k => ?_⟩
      rw [h2, List.mem_append, List.mem_singleton, List.mem_cons]
      tauto

theorem uniqueKeysOf_spec (keys : List String) :
    (uniqueKeysOf keys).Nodup ∧ ∀ k, k ∈ uniqueKeysOf keys ↔ k ∈ keys ∧ k ≠ "" := by
  obtain ⟨h1, h2⟩ := foldl_firstOccurrence (keys.filter (fun k => decide (k ≠ ""))) []
    List.nodup_nil
  refine ⟨h1, fun k => ?_⟩
  unfold uniqueKeysOf
  rw [h2, List.mem_filter]
  simp

theorem nextFreeIndexFrom_spec (assigned : List Int) (i : Nat) :
    (∀ u : Nat, u < i → (u : Int) ∈ assigned) →
      ((nextFreeIndexFrom assigned i : Nat) : Int) ∉ assigned ∧
      ∀ u : Nat, u < nextFreeIndexFrom assigned i → (u : Int) ∈ assigned := by
  induction i using nextFreeIndexFrom.induct assigned with
  | case1 i hmem ih =>
    intro h
    rw [nextFreeIndexFrom, if_pos hmem]
    apply ih
    intro u hu
    by_cases hui : u = i
    · rw [hui]; exact hmem
    · exact h u (by omega)
  | case2 i hmem =>
    intro h
    rw [nextFreeIndexFrom, if_neg hmem]
    exact ⟨hmem, h⟩

theorem nextFreeIndex_leastFree (assigned : List Int) :
    LeastFree assigned (nextFreeIndex assigned) := by
  obtain ⟨h1, h2⟩ := nextFreeIndexFrom_spec assigned 0 (fun u hu => absurd hu (by omega))
  refine ⟨by unfold nextFreeIndex; omega, h1, ?_⟩
  intro u hu0 hu
  have := h2 u.toNat (by unfold nextFreeIndex at hu; omega)
  rwa [Int.toNat_of_nonneg hu0] at this

theorem leastFree_unique (assigned : List Int) (v w : Int) (hv : LeastFree assigned v)
    (hw : LeastFree assigned w) : v = w := by
  obtain ⟨v0, v1, v2⟩ := hv
  obtain ⟨w0, w1, w2⟩ := hw
  by_contra hne
  rcases lt_or_gt_of_ne hne with h | h
  · exact v1 (w2 v v0 h)
  · exact w1 (v2 w w0 h)

theorem colorGet_isSome (map : List (String × Int)) (key : String) :
    (colorGet map key).isSome = true ↔ key ∈ map.map Prod.fst := by
  unfold colorGet
  rw [Option.isSome_map', List.find?_isSome]
  simp

theorem colorGet_mem (map : List (String × Int)) (key : String) (v : Int)
    (h : colorGet map key = some v) : (key, v) ∈ map := by
  unfold colorGet at h
  cases hf : map.find? (fun e => decide (e.1 = key)) with
  | none => rw [hf] at h; simp at h
  | some e =>
    rw [hf] at h
    have h1 := List.find?_some hf
    have h2 := List.mem_of_find?_eq_some hf
    simp only [Option.map_some', Option.some.injEq] at h
    have h3 : e.1 = key := by simpa using h1
    have : e = (key, v) := Prod.ext h3 h
    rw [← this]
    exact h2


theorem count_one_unique (cm : List (String × Int)) (U : List String) (idx : Int)
    (h : indexCount cm U idx = 1) (k k1 : String) (hk : k ∈ U) (hk1 : k1 ∈ U)
    (hg : colorGet cm k = some idx) (hg1 : colorGet cm k1 = some idx) : k = k1 := by
  unfold indexCount at h
  obtain ⟨a, ha⟩ := List.length_eq_one.mp h
  have m1 : k ∈ U.filter (fun k => decide (colorGet cm k = some idx)) :=
    List.mem_filter.mpr ⟨hk, by simpa using hg⟩
  have m2 : k1 ∈ U.filter (fun k => decide (colorGet cm k = some idx)) :=
    List.mem_filter.mpr ⟨hk1, by simpa using hg1⟩
  rw [ha, List.mem_singleton] at m1 m2
  rw [m1, m2]

theorem count_one_of_unique (cm : List (String × Int)) (U : List String) (idx : Int)
    (hU : U.Nodup) (k : String) (hk : k ∈ U) (hg : colorGet cm k = some idx)
    (huniq : ∀ k1 ∈ U, colorGet cm k1 = some idx → k1 = k) : indexCount cm U idx = 1 := by
  unfold indexCount
  have hF : (U.filter (fun k => decide (colorGet cm k = some idx))).Nodup := hU.filter _
  have hall : ∀ x ∈ U.filter (fun k => decide (colorGet cm k = some idx)), x = k := by
    intro x hx
    rw [List.mem_filter] at hx
    exact huniq x hx.1 (by simpa using hx.2)
  have hmem : k ∈ U.filter (fun k => decide (colorGet cm k = some idx)) :=
    List.mem_filter.mpr ⟨hk, by simpa using hg⟩
  generalize U.filter (fun k => decide (colorGet cm k = some idx)) = F at hF hall hmem
  match F, hF, hall, hmem with
  | [], _, _, hmem => simp at hmem
  | [a], _, _, _ => rfl
  | a :: b :: t, hF, hall, _ =>
    exfalso
    have ha := hall a (by simp)
    have hb := hall b (by simp)
    rw [List.nodup_cons] at hF
    exact hF.1 (by rw [ha, ← hb]; simp)

/-- The loop that keeps the indices without conflict. -/
theorem keepFold_spec (cm : List (String × Int)) (U : List String) :
    ∀ (L : List String) (st : List (String × Int) × List Int),
      st.2 = st.1.map Prod.snd → (st.1.map Prod.snd).Nodup → (st.1.map Prod.fst).Nodup →
      (∀ e ∈ st.1, e.1 ∈ U ∧ colorGet cm e.1 = some e.2 ∧ indexCount cm U e.2 = 1) →
      L.Nodup → (∀ k ∈ L, k ∈ U) → (∀ k ∈ L, k ∉ st.1.map Prod.fst) →
      (L.foldl (keepStep cm U) st).2 = (L.foldl (keepStep cm U) st).1.map Prod.snd ∧
      ((L.foldl (keepStep cm U) st).1.map Prod.snd).Nodup ∧
      ((L.foldl (keepStep cm U) st).1.map Prod.fst).Nodup ∧
      (∀ e, e ∈ (L.foldl (keepStep cm U) st).1 ↔
        e ∈ st.1 ∨ (e.1 ∈ L ∧ colorGet cm e.1 = some e.2 ∧ indexCount cm U e.2 = 1)) := by
  intro L
  induction L with
  | nil => intro st h1 h2 h3 _ _ _ _; exact ⟨h1, h2, h3, by simp⟩
  | cons k t ih =>
    intro st h1 h2 h3 h4 hL hLU hdis
    rw [List.foldl_cons]
    have hk : k ∉ st.1.map Prod.fst := hdis k (List.mem_cons_self _ _)
    have hkt : k ∉ t := (List.nodup_cons.mp hL).1
    have htn : t.Nodup := (List.nodup_cons.mp hL).2
    have htU : ∀ k ∈ t, k ∈ U := fun x hx => hLU x (List.mem_cons_of_mem _ hx)
    by_cases hkeep : ∃ idx, colorGet cm k = some idx ∧ indexCount cm U idx = 1
    · obtain ⟨idx, hg, hc⟩ := hkeep
      have hnot : idx ∉ st.2 := by
        rw [h1]
        intro hmem
        rw [List.mem_map] at hmem
        obtain ⟨e, he, hidx⟩ := hmem
        obtain ⟨e1, e2, -⟩ := h4 e he
        rw [hidx] at e2
        have := count_one_unique cm U idx hc k e.1 (hLU k (List.mem_cons_self _ _)) e1 hg e2
        exact hk (this ▸ List.mem_map_of_mem _ he)
      have hstep : keepStep cm U st k = (st.1 ++ [(k, idx)], st.2 ++ [idx]) := by
        unfold keepStep
        rw [hg]
        simp only
        rw [if_pos ⟨hc, hnot⟩]
      rw [hstep]
      obtain ⟨r1, r2, r3, r4⟩ := ih (st.1 ++ [(k, idx)], st.2 ++ [idx])
        (by simp [h1])
        (by
          simp only [List.map_append, List.map_cons, List.map_nil]
          rw [List.nodup_append]
          refine ⟨h2, List.nodup_singleton _, ?_⟩
          intro x hx hx2
          rw [List.mem_singleton] at hx2
          rw [h1] at hnot
          exact hnot (hx2 ▸ hx))
        (by
          simp only [List.map_append, List.map_cons, List.map_nil]
          rw [List.nodup_append]
          refine ⟨h3, List.nodup_singleton _, ?_⟩
          intro x hx hx2
          rw [List.mem_singleton] at hx2
          exact hk (hx2 ▸ hx))
        (by
          intro e he
          rcases List.mem_append.mp he with he | he
          · exact h4 e he
          · rw [List.mem_singleton] at he
            rw [he]
            exact ⟨hLU k (List.mem_cons_self _ _), hg, hc⟩)
        htn htU
        (by
          intro x hx hmem
          simp only [List.map_append, List.map_cons, List.map_nil, List.mem_append,
            List.mem_singleton] at hmem
          rcases hmem with hmem | rfl
          · exact hdis x (List.mem_cons_of_mem _ hx) hmem
          · exact hkt hx)
      refine ⟨r1, r2, r3, fun e => ?_⟩
      rw [r4, List.mem_append, List.mem_singleton, List.mem_cons]
      constructor
      · rintro ((h | rfl) | ⟨ha, hb, hc2⟩)
        · exact Or.inl h
        · exact Or.inr ⟨Or.inl rfl, hg, hc⟩
        · exact Or.inr ⟨Or.inr ha, hb, hc2⟩
      · rintro (h | ⟨rfl | ha, hb, hc2⟩)
        · exact Or.inl (Or.inl h)
        · left; right
          rw [hg] at hb
          injection hb with hb
          exact Prod.ext rfl hb.symm
        · exact Or.inr ⟨ha, hb, hc2⟩
    · have hstep : keepStep cm U st k = st := by
        unfold keepStep
        cases hg : colorGet cm k with
        | none => rfl
        | some idx =>
          simp only
          rw [if_neg]
          intro hc
          exact hkeep ⟨idx, hg, hc.1⟩
      rw [hstep]
      obtain ⟨r1, r2, r3, r4⟩ := ih st h1 h2 h3 h4 htn htU
        (fun x hx => hdis x (List.mem_cons_of_mem _ hx))
      refine ⟨r1, r2, r3, fun e => ?_⟩
      rw [r4, List.mem_cons]
      constructor
      · rintro (h | ⟨ha, hb, hc⟩)
        · exact Or.inl h
        · exact Or.inr ⟨Or.inr ha, hb, hc⟩
      · rintro (h | ⟨rfl | ha, hb, hc⟩)
        · exact Or.inl h
        · exact absurd ⟨e.2, hb, hc⟩ hkeep
        · exact Or.inr ⟨ha, hb, hc⟩

/-- The loop that gives the remaining keys a new index. -/
theorem freshFold_spec :
    ∀ (L : List String) (st : List (String × Int) × List Int),
      st.2 = st.1.map Prod.snd → (st.1.map Prod.snd).Nodup → (st.1.map Prod.fst).Nodup →
      (L.foldl freshStep st).2 = (L.foldl freshStep st).1.map Prod.snd ∧
      ((L.foldl freshStep st).1.map Prod.snd).Nodup ∧
      ((L.foldl freshStep st).1.map Prod.fst).Nodup ∧
      (∀ k, k ∈ (L.foldl freshStep st).1.map Prod.fst ↔ k ∈ st.1.map Prod.fst ∨ k ∈ L) ∧
      ∃ ext, (L.foldl freshStep st).1 = st.1 ++ ext ∧
        ∀ pre e post, ext = pre ++ e :: post → LeastFree ((st.1 ++ pre).map Prod.snd) e.2 := by
  intro L
  induction L with
  | nil =>
    intro st h1 h2 h3
    refine ⟨h1, h2, h3, by simp, [], by simp, ?_⟩
    intro pre e post h
    simp at h
  | cons k t ih =>
    intro st h1 h2 h3
    rw [List.foldl_cons]
    by_cases hk : (colorGet st.1 k).isSome = true
    · have hstep : freshStep st k = st := by
        unfold freshStep
        rw [if_pos hk]
      rw [hstep]
      obtain ⟨r1, r2, r3, r4, ext, r5, r6⟩ := ih st h1 h2 h3
      refine ⟨r1, r2, r3, fun x => ?_, ext, r5, r6⟩
      rw [r4, List.mem_cons]
      constructor
      · rintro (h | h)
        · exact Or.inl h
        · exact Or.inr (Or.inr h)
      · rintro (h | rfl | h)
        · exact Or.inl h
        · exact Or.inl ((colorGet_isSome _ _).mp hk)
        · exact Or.inr h
    · have hstep : freshStep st k =
          (st.1 ++ [(k, nextFreeIndex st.2)], st.2 ++ [nextFreeIndex st.2]) := by
        unfold freshStep
        rw [if_neg hk]
      have hkn : k ∉ st.1.map Prod.fst := fun h => hk ((colorGet_isSome _ _).mpr h)
      have hlf := nextFreeIndex_leastFree st.2
      rw [hstep]
      obtain ⟨r1, r2, r3, r4, ext, r5, r6⟩ := ih
        (st.1 ++ [(k, nextFreeIndex st.2)], st.2 ++ [nextFreeIndex st.2])
        (by simp [h1])
        (by
          simp only [List.map_append, List.map_cons, List.map_nil]
          rw [List.nodup_append]
          refine ⟨h2, List.nodup_singleton _, ?_⟩
          intro x hx hx2
          rw [List.mem_singleton] at hx2
          have hnm : nextFreeIndex st.2 ∉ st.1.map Prod.snd := by
            rw [← h1]
            exact hlf.2.1
          exact hnm (hx2 ▸ hx))
        (by
          simp only [List.map_append, List.map_cons, List.map_nil]
          rw [List.nodup_append]
          refine ⟨h3, List.nodup_singleton _, ?_⟩
          intro x hx hx2
          rw [List.mem_singleton] at hx2
          exact hkn (hx2 ▸ hx))
      refine ⟨r1, r2, r3, fun x => ?_, (k, nextFreeIndex st.2) :: ext, ?_, ?_⟩
      · rw [r4]
        simp only [List.map_append, List.map_cons, List.map_nil, List.mem_append,
          List.mem_singleton, List.mem_cons]
        tauto
      · rw [r5]
        simp
      · intro pre e post hsplit
        cases pre with
        | nil =>
          simp only [List.nil_append, List.cons.injEq] at hsplit
          rw [← hsplit.1, List.append_nil, ← h1]
          exact hlf
        | cons p pre1 =>
          simp only [List.cons_append, List.cons.injEq] at hsplit
          have := r6 pre1 e post hsplit.2
          rw [← hsplit.1]
          simpa using this



theorem keepsIndex_iff_count (cm : List (String × Int)) (keys : List String) (k : String)
    (idx : Int) (hk : k ∈ uniqueKeysOf keys) :
    KeepsIndex cm keys k idx ↔
      colorGet cm k = some idx ∧ indexCount cm (uniqueKeysOf keys) idx = 1 := by
  obtain ⟨hUn, hUm⟩ := uniqueKeysOf_spec keys
  constructor
  · rintro ⟨hg, hu⟩
    refine ⟨hg, count_one_of_unique cm _ idx hUn k hk hg ?_⟩
    intro k1 hk1 hg1
    by_contra hne
    obtain ⟨m1, m2⟩ := (hUm k1).mp hk1
    exact hu k1 m1 m2 hne hg1
  · rintro ⟨hg, hc⟩
    refine ⟨hg, ?_⟩
    intro k1 m1 m2 hne hg1
    exact hne (count_one_unique cm _ idx hc k k1 hk ((hUm k1).mpr ⟨m1, m2⟩) hg hg1).symm

/-- C29: after `assignUniqueIndices(keys)` on an array of strings the colour-index map
holds exactly the distinct truthy keys of the array, with pairwise distinct indices; a key
whose previous index is held by no other key of the array keeps it; every other key gets
the smallest non-negative integer that no entry made before it holds, the kept entries
being made first and the others in the order of the array. -/
theorem assignUniqueIndices_spec (cm : List (String × Int)) (keys : List String) :
    (∀ k, k ∈ (assignUniqueIndices cm keys).map Prod.fst ↔ k ∈ keys ∧ k ≠ "") ∧
    ((assignUniqueIndices cm keys).map Prod.fst).Nodup ∧
    ((assignUniqueIndices cm keys).map Prod.snd).Nodup ∧
    (∀ k idx, k ∈ keys → k ≠ "" → KeepsIndex cm keys k idx →
      (k, idx) ∈ assignUniqueIndices cm keys) ∧
    (∀ pre k v post, assignUniqueIndices cm keys = pre ++ (k, v) :: post →
      KeepsIndex cm keys k v ∨
        ((∀ idx, ¬ KeepsIndex cm keys k idx) ∧ LeastFree (pre.map Prod.snd) v)) := by
  obtain ⟨hUn, hUm⟩ := uniqueKeysOf_spec keys
  obtain ⟨k1, k2, k3, k4⟩ := keepFold_spec cm (uniqueKeysOf keys) (uniqueKeysOf keys) ([], [])
    rfl List.nodup_nil List.nodup_nil (by simp) hUn (fun _ h => h) (by simp)
  obtain ⟨f1, f2, f3, f4, ext, f5, f6⟩ := freshFold_spec (uniqueKeysOf keys) _ k1 k2 k3
  have hdef : assignUniqueIndices cm keys =
      ((uniqueKeysOf keys).foldl freshStep
        ((uniqueKeysOf keys).foldl (keepStep cm (uniqueKeysOf keys)) ([], []))).1 := rfl
  have hkeptU : ∀ e ∈ ((uniqueKeysOf keys).foldl (keepStep cm (uniqueKeysOf keys))
      ([], [])).1, e.1 ∈ uniqueKeysOf keys ∧ KeepsIndex cm keys e.1 e.2 := by
    intro e he
    rw [k4] at he
    rcases he with he | ⟨h1, h2, h3⟩
    · simp at he
    · exact ⟨h1, (keepsIndex_iff_count cm keys e.1 e.2 h1).mpr ⟨h2, h3⟩⟩
  have hkeepmem : ∀ k idx, k ∈ uniqueKeysOf keys → KeepsIndex cm keys k idx →
      (k, idx) ∈ ((uniqueKeysOf keys).foldl (keepStep cm (uniqueKeysOf keys)) ([], [])).1 := by
    intro k idx hk hkeep
    rw [k4]
    right
    obtain ⟨h2, h3⟩ := (keepsIndex_iff_count cm keys k idx hk).mp hkeep
    exact ⟨hk, h2, h3⟩
  rw [hdef]
  refine ⟨?_, f3, f2, ?_, ?_⟩
  · intro k
    rw [f4, ← hUm]
    constructor
    · rintro (h | h)
      · rw [List.mem_map] at h
        obtain ⟨e, he, rfl⟩ := h
        exact (hkeptU e he).1
      · exact h
    · exact Or.inr
  · intro k idx hk hne hkeep
    rw [f5]
    exact List.mem_append_left _ (hkeepmem k idx ((hUm k).mpr ⟨hk, hne⟩) hkeep)
  · intro pre k v post hsplit
    have hext : ∀ pre1, ext = pre1 ++ (k, v) :: post →
        pre = ((uniqueKeysOf keys).foldl (keepStep cm (uniqueKeysOf keys)) ([], [])).1 ++ pre1 →
        (∀ idx, ¬ KeepsIndex cm keys k idx) ∧ LeastFree (pre.map Prod.snd) v := by
      intro pre1 he hp
      refine ⟨?_, ?_⟩
      · intro idx hkeep
        have hkU : k ∈ uniqueKeysOf keys := by
          have : k ∈ ((uniqueKeysOf keys).foldl freshStep
              ((uniqueKeysOf keys).foldl (keepStep cm (uniqueKeysOf keys))
                ([], []))).1.map Prod.fst := by
            rw [hsplit]
            simp
          rw [f4] at this
          rcases this with h | h
          · rw [List.mem_map] at h
            obtain ⟨e, he1, rfl⟩ := h
            exact (hkeptU e he1).1
          · exact h
        have hin := hkeepmem k idx hkU hkeep
        have hnd := f3
        rw [f5, List.map_append, List.nodup_append] at hnd
        apply hnd.2.2 (List.mem_map_of_mem Prod.fst hin)
        rw [he]
        simp
      · rw [hp]
        exact f6 pre1 (k, v) post he
    rw [f5, List.append_eq_append_iff] at hsplit
    rcases hsplit with ⟨a1, hp, he⟩ | ⟨c1, hk, hc⟩
    · exact Or.inr (hext a1 he hp)
    · cases c1 with
      | nil =>
        simp only [List.append_nil, List.nil_append] at hk hc
        exact Or.inr (hext [] hc.symm (by rw [List.append_nil]; exact hk.symm))
      | cons c c2 =>
        simp only [List.cons_append, List.cons.injEq] at hc
        left
        have hmem : (k, v) ∈ ((uniqueKeysOf keys).foldl (keepStep cm (uniqueKeysOf keys))
            ([], [])).1 := by
          rw [hk, hc.1]
          simp
        exact (hkeptU _ hmem).2


end Fancool
